import Mathlib

/-!
# gocomposer: the polymorphic field codecs

A shallow embedding of `gocomposer.go` and `utils.go`.

* A Go `[]byte` and a Go `string` are both sequences of bytes: `Bytes`, a list
  of naturals (each below 256 in every value Go can build).
* A Go `error` is `Error`: `none` is `nil`.
* A method with a pointer receiver takes the receiver's value and returns the
  new value next to the error.
* A call either returns, panics, or (for the methods that re-enter themselves
  through `encoding/json`) exhausts the recursion budget it was given: `Exec`.
* `encoding/json` and `unicode/utf8` are the Go standard library, not part of
  the repository; the definitions whose names start with `json` or `utf8`
  follow the library's documented behaviour and source.
* A Go struct is a structure with the same field names (`Type` is `Type_`,
  a keyword otherwise); its zero value is `{}`.
* The order in which `for ... range` visits a Go map is a parameter of the
  method that ranges: any rearrangement of the entries.
-/

namespace GoComposer

/-! ## Go values -/

/-- A Go byte slice or string. -/
abbrev Bytes := List Nat

/-- A Go `error`; `none` is `nil`. -/
abbrev Error := Option String

/-- The bytes of an ASCII string literal. -/
def bytesOf (s : String) : Bytes := s.toList.map Char.toNat

/-- How a call ends. -/
inductive Exec (α : Type) where
  /-- The call returns `a`. -/
  | ret (a : α)
  /-- The call panics. -/
  | panic (msg : String)
  /-- The recursion budget ran out before the call returned. -/
  | outOfFuel
  deriving DecidableEq

/-- The slice expression `data[lo:hi]` of a slice whose capacity is its
length; `none` is the run-time panic "slice bounds out of range". -/
def goSlice (data : Bytes) (lo hi : Nat) : Option Bytes :=
  if lo ≤ hi ∧ hi ≤ data.length then some ((data.take hi).drop lo) else none

/-! ## Constants of gocomposer.go -/

def doubleQuote : Nat := 34
def leftBracket : Nat := 91
def rightBracket : Nat := 93

/-! ## utils.go -/

/-- Go `isObject`: true if the data starts with `{` and ends with `}`. -/
def isObject (data : Bytes) : Bool :=
  if data.length = 0 then false
  else if data.getD 0 0 ≠ 123 ∨ data.getD (data.length - 1) 0 ≠ 125 then false
  else true

/-- Go `isString`: true if the data starts with `"` and ends with `"`. -/
def isString (data : Bytes) : Bool :=
  if data.length = 0 then false
  else if data.getD 0 0 ≠ 34 ∨ data.getD (data.length - 1) 0 ≠ 34 then false
  else true

/-- Go `isArray`: true if the data starts with `[` and ends with `]`. -/
def isArray (data : Bytes) : Bool :=
  if data.length = 0 then false
  else if data.getD 0 0 ≠ 91 ∨ data.getD (data.length - 1) 0 ≠ 93 then false
  else true

/-! ## unicode/utf8 -/

/-- Go `utf8.RuneError`. -/
def utf8RuneError : Nat := 0xFFFD

/-- A UTF-8 continuation byte (`locb ≤ b ≤ hicb`). -/
def utf8Cont (b : Nat) : Bool := 0x80 ≤ b && b ≤ 0xBF

/-- The range accepted for the second byte after the lead byte `b0`
(the library's `acceptRanges`, indexed through its `first` table). -/
def utf8Accept (b0 : Nat) : Nat × Nat :=
  if b0 = 0xE0 then (0xA0, 0xBF)
  else if b0 = 0xED then (0x80, 0x9F)
  else if b0 = 0xF0 then (0x90, 0xBF)
  else if b0 = 0xF4 then (0x80, 0x8F)
  else (0x80, 0xBF)

/-- The length of the sequence the lead byte `b0` announces; `0` for a byte
that cannot start a multi-byte sequence (ASCII, or invalid `xx`). -/
def utf8Size (b0 : Nat) : Nat :=
  if 0xC2 ≤ b0 ∧ b0 ≤ 0xDF then 2
  else if 0xE0 ≤ b0 ∧ b0 ≤ 0xEF then 3
  else if 0xF0 ≤ b0 ∧ b0 ≤ 0xF4 then 4
  else 0

/-- Go `utf8.DecodeRuneInString`: the first rune of `s` and its width in
bytes; `(RuneError, 1)` for an invalid encoding, `(RuneError, 0)` for the
empty string. -/
def utf8DecodeRune : Bytes → Nat × Nat
  | [] => (utf8RuneError, 0)
  | s0 :: rest =>
    if s0 < 0x80 then (s0, 1)
    else if utf8Size s0 = 0 then (utf8RuneError, 1)
    else if rest.length + 1 < utf8Size s0 then (utf8RuneError, 1)
    else
      let s1 := rest.getD 0 0
      if s1 < (utf8Accept s0).1 ∨ (utf8Accept s0).2 < s1 then (utf8RuneError, 1)
      else if utf8Size s0 ≤ 2 then ((s0 % 32) * 64 + s1 % 64, 2)
      else
        let s2 := rest.getD 1 0
        if !utf8Cont s2 then (utf8RuneError, 1)
        else if utf8Size s0 ≤ 3 then
          ((s0 % 16) * 4096 + (s1 % 64) * 64 + s2 % 64, 3)
        else
          let s3 := rest.getD 2 0
          if !utf8Cont s3 then (utf8RuneError, 1)
          else ((s0 % 8) * 262144 + (s1 % 64) * 4096 + (s2 % 64) * 64 + s3 % 64, 4)

/-! ## encoding/json: encoding a string -/

/-- The library's `hex` digits. -/
def jsonHex (n : Nat) : Nat := (bytesOf "0123456789abcdef").getD n 0

/-- The library's `htmlSafeSet`: the ASCII bytes written without escaping
when HTML escaping is on (the default of `json.Marshal`). -/
def jsonHtmlSafe (b : Nat) : Bool :=
  0x20 ≤ b && b < 0x80 && b != 34 && b != 38 && b != 60 && b != 62 && b != 92

/-- The escape written for an ASCII byte outside `htmlSafeSet`. -/
def jsonEscapeByte (b : Nat) : Bytes :=
  if b = 92 ∨ b = 34 then [92, b]
  else if b = 8 then [92, 98]
  else if b = 12 then [92, 102]
  else if b = 10 then [92, 110]
  else if b = 13 then [92, 114]
  else if b = 9 then [92, 116]
  else [92, 117, 48, 48, jsonHex (b / 16), jsonHex (b % 16)]

/-- The loop of the library's `appendString` with `escapeHTML = true`: the
text written between the two quotes. The budget is the number of loop
iterations; `src.length` is always enough. -/
def jsonStringBody : Nat → Bytes → Bytes
  | 0, _ => []
  | _, [] => []
  | fuel + 1, b :: rest =>
    if b < 0x80 then
      if jsonHtmlSafe b then b :: jsonStringBody fuel rest
      else jsonEscapeByte b ++ jsonStringBody fuel rest
    else
      let c := (utf8DecodeRune (b :: rest)).1
      let size := (utf8DecodeRune (b :: rest)).2
      if c = utf8RuneError ∧ size = 1 then
        bytesOf "\\ufffd" ++ jsonStringBody fuel rest
      else if c = 0x2028 ∨ c = 0x2029 then
        [92, 117, 50, 48, 50, jsonHex (c % 16)] ++ jsonStringBody fuel (rest.drop (size - 1))
      else
        (b :: rest).take size ++ jsonStringBody fuel (rest.drop (size - 1))

/-- Go `json.Marshal(s)` for a `string`: never fails. -/
def jsonMarshalString (s : Bytes) : Bytes :=
  34 :: (jsonStringBody s.length s ++ [34])

/-- Go `json.Marshal(b)` for a `bool`: never fails. -/
def jsonMarshalBool (b : Bool) : Bytes :=
  if b then bytesOf "true" else bytesOf "false"

/-! ## StringOrBool -/

/-- Go `StringOrBool`. -/
structure StringOrBool where
  isBool : Bool := false
  boolValue : Bool := false
  stringValue : Bytes := []
  deriving DecidableEq

/-- Go `(*StringOrBool).UnmarshalJSON`. -/
def StringOrBool.UnmarshalJSON (s : StringOrBool) (data : Bytes) :
    Exec (StringOrBool × Error) :=
  if data.length = 0 then .ret (s, none)
  else if data = bytesOf "false" then
    .ret ({ s with boolValue := false, isBool := true }, none)
  else if data = bytesOf "true" then
    .ret ({ s with isBool := true, boolValue := true }, none)
  else if data.getD 0 0 = doubleQuote ∧ data.getD (data.length - 1) 0 = doubleQuote then
    match goSlice data 1 (data.length - 1) with
    | some inner => .ret ({ s with isBool := false, stringValue := inner }, none)
    | none => .panic "slice bounds out of range"
  else .ret (s, some "invalid value, must be type string or bool")

/-- Go `StringOrBool.MarshalJSON`. -/
def StringOrBool.MarshalJSON (s : StringOrBool) : Bytes × Error :=
  if s.isBool then (jsonMarshalBool s.boolValue, none)
  else (jsonMarshalString s.stringValue, none)

/-! ## encoding/json: reading JSON text -/

/-- A parsed JSON value. Strings and object keys are held unquoted, a number
as its text; the members of an object are in document order, repeated keys
included. -/
inductive JValue where
  | null
  | bool (b : Bool)
  | number (raw : Bytes)
  | string (s : Bytes)
  | array (items : List JValue)
  | object (members : List (Bytes × JValue))

/-- The scanner's `isSpace`: space, tab, CR, LF. -/
def jsonIsSpace (c : Nat) : Bool := c = 32 || c = 9 || c = 13 || c = 10

/-- Drop leading JSON whitespace. -/
def jsonSkipSpace : Bytes → Bytes
  | [] => []
  | c :: rest => if jsonIsSpace c then jsonSkipSpace rest else c :: rest

/-- A hexadecimal digit. -/
def jsonIsHex (c : Nat) : Bool :=
  (48 ≤ c && c ≤ 57) || (97 ≤ c && c ≤ 102) || (65 ≤ c && c ≤ 70)

/-- The value of a hexadecimal digit. -/
def jsonHexVal (c : Nat) : Nat :=
  if 48 ≤ c ∧ c ≤ 57 then c - 48 else if 97 ≤ c ∧ c ≤ 102 then c - 87 else c - 55

/-- The scanner inside a string literal, after the opening quote: the text up
to the closing quote and what follows the closing quote. Control bytes and
unknown escapes are syntax errors. -/
def jsonScanString : Bytes → Option (Bytes × Bytes)
  | [] => none
  | c :: rest =>
    if c = 34 then some ([], rest)
    else if c = 92 then
      match rest with
      | [] => none
      | e :: rest2 =>
        if e = 117 then
          match rest2 with
          | h1 :: h2 :: h3 :: h4 :: rest3 =>
            if jsonIsHex h1 && jsonIsHex h2 && jsonIsHex h3 && jsonIsHex h4 then
              (jsonScanString rest3).map fun r => (92 :: 117 :: h1 :: h2 :: h3 :: h4 :: r.1, r.2)
            else none
          | _ => none
        else if e = 98 ∨ e = 102 ∨ e = 110 ∨ e = 114 ∨ e = 116 ∨ e = 92 ∨ e = 47 ∨ e = 34 then
          (jsonScanString rest2).map fun r => (92 :: e :: r.1, r.2)
        else none
    else if c < 32 then none
    else (jsonScanString rest).map fun r => (c :: r.1, r.2)

/-- The leading decimal digits and what follows them. -/
def jsonSpanDigits : Bytes → Bytes × Bytes
  | [] => ([], [])
  | c :: rest =>
    if 48 ≤ c ∧ c ≤ 57 then ((c :: (jsonSpanDigits rest).1), (jsonSpanDigits rest).2)
    else ([], c :: rest)

/-- The integer part of a number: `0`, or a non-zero digit and more digits. -/
def jsonScanInt : Bytes → Option (Bytes × Bytes)
  | [] => none
  | c :: rest =>
    if c = 48 then some ([48], rest)
    else if 49 ≤ c ∧ c ≤ 57 then some (c :: (jsonSpanDigits rest).1, (jsonSpanDigits rest).2)
    else none

/-- The optional fraction of a number. -/
def jsonScanFrac : Bytes → Option (Bytes × Bytes)
  | [] => some ([], [])
  | c :: rest =>
    if c = 46 then
      if (jsonSpanDigits rest).1 = [] then none
      else some (46 :: (jsonSpanDigits rest).1, (jsonSpanDigits rest).2)
    else some ([], c :: rest)

/-- The optional exponent of a number. -/
def jsonScanExp : Bytes → Option (Bytes × Bytes)
  | [] => some ([], [])
  | c :: rest =>
    if c = 101 ∨ c = 69 then
      match rest with
      | [] => none
      | s :: rest2 =>
        if s = 43 ∨ s = 45 then
          if (jsonSpanDigits rest2).1 = [] then none
          else some (c :: s :: (jsonSpanDigits rest2).1, (jsonSpanDigits rest2).2)
        else if (jsonSpanDigits rest).1 = [] then none
        else some (c :: (jsonSpanDigits rest).1, (jsonSpanDigits rest).2)
    else some ([], c :: rest)

/-- The scanner on a number, from its first byte (`-` or a digit): the
number's text and what follows it. -/
def jsonScanNumber (data : Bytes) : Option (Bytes × Bytes) :=
  let neg : Bytes := if data.head? = some 45 then [45] else []
  let d1 := if data.head? = some 45 then data.drop 1 else data
  match jsonScanInt d1 with
  | none => none
  | some (i, d2) =>
    match jsonScanFrac d2 with
    | none => none
    | some (f, d3) =>
      match jsonScanExp d3 with
      | none => none
      | some (e, d4) => some (neg ++ i ++ f ++ e, d4)

/-- Go `utf8.EncodeRune`. -/
def utf8EncodeRune (r : Nat) : Bytes :=
  if r < 0x80 then [r]
  else if r < 0x800 then [0xC0 + r / 64, 0x80 + r % 64]
  else if (0xD800 ≤ r ∧ r ≤ 0xDFFF) ∨ 0x10FFFF < r then [0xEF, 0xBF, 0xBD]
  else if r < 0x10000 then [0xE0 + r / 4096, 0x80 + r / 64 % 64, 0x80 + r % 64]
  else [0xF0 + r / 262144, 0x80 + r / 4096 % 64, 0x80 + r / 64 % 64, 0x80 + r % 64]

/-- The library's `getu4`: the code unit of a leading `\uXXXX`, or `none`
(the library's `-1`). -/
def jsonGetu4 : Bytes → Option Nat
  | b :: u :: h1 :: h2 :: h3 :: h4 :: _ =>
    if b = 92 ∧ u = 117 ∧ jsonIsHex h1 ∧ jsonIsHex h2 ∧ jsonIsHex h3 ∧ jsonIsHex h4 then
      some (jsonHexVal h1 * 4096 + jsonHexVal h2 * 256 + jsonHexVal h3 * 16 + jsonHexVal h4)
    else none
  | _ => none

/-- One iteration of the loop of the library's `unquoteBytes`, at the byte
`c` followed by `rest`: the bytes written and the input left. An escape is
decoded, a surrogate pair becomes one rune, a lone surrogate and a byte that
is not valid UTF-8 become U+FFFD; `none` is the library's `ok = false`. -/
def jsonUnquoteStep (c : Nat) (rest : Bytes) : Option (Bytes × Bytes) :=
  if c = 92 then
    match rest with
    | [] => none
    | e :: rest2 =>
      if e = 34 ∨ e = 92 ∨ e = 47 ∨ e = 39 then some ([e], rest2)
      else if e = 98 then some ([8], rest2)
      else if e = 102 then some ([12], rest2)
      else if e = 110 then some ([10], rest2)
      else if e = 114 then some ([13], rest2)
      else if e = 116 then some ([9], rest2)
      else if e = 117 then
        match jsonGetu4 (c :: rest) with
        | none => none
        | some rr =>
          if 0xD800 ≤ rr ∧ rr < 0xE000 then
            match jsonGetu4 (rest.drop 5) with
            | some rr1 =>
              if rr < 0xDC00 ∧ 0xDC00 ≤ rr1 ∧ rr1 < 0xE000 then
                some (utf8EncodeRune ((rr - 0xD800) * 1024 + (rr1 - 0xDC00) + 0x10000),
                  rest.drop 11)
              else some (utf8EncodeRune 0xFFFD, rest.drop 5)
            | none => some (utf8EncodeRune 0xFFFD, rest.drop 5)
          else some (utf8EncodeRune rr, rest.drop 5)
      else none
  else if c = 34 ∨ c < 32 then none
  else if c < 0x80 then some ([c], rest)
  else
    some (utf8EncodeRune (utf8DecodeRune (c :: rest)).1,
      rest.drop ((utf8DecodeRune (c :: rest)).2 - 1))

/-- The library's `unquoteBytes` on the text between the quotes. The budget
is the number of loop iterations; the length of the text is always enough. -/
def jsonUnquoteBody : Nat → Bytes → Option Bytes
  | _, [] => some []
  | 0, _ :: _ => none
  | fuel + 1, c :: rest =>
    match jsonUnquoteStep c rest with
    | none => none
    | some (out, left) => (jsonUnquoteBody fuel left).map (out ++ ·)

/-- Unquote the text between the quotes of a string literal. -/
def jsonUnquote (body : Bytes) : Option Bytes := jsonUnquoteBody body.length body

/-- The scanner's `maxNestingDepth`. -/
def jsonMaxNestingDepth : Nat := 10000

mutual
/-- One JSON value at the head of the input (no leading whitespace), at the
given nesting depth: the value and the input left after it. `none` is a
syntax error (or an exhausted budget). -/
def jsonParseValue : Nat → Nat → Bytes → Option (JValue × Bytes)
  | 0, _, _ => none
  | _ + 1, _, [] => none
  | fuel + 1, depth, c :: rest =>
    if c = 123 then
      if jsonMaxNestingDepth < depth + 1 then none
      else
        match jsonSkipSpace rest with
        | [] => none
        | c1 :: rest1 =>
          if c1 = 125 then some (.object [], rest1)
          else (jsonParseMembers fuel (depth + 1) (c1 :: rest1)).map fun r => (.object r.1, r.2)
    else if c = 91 then
      if jsonMaxNestingDepth < depth + 1 then none
      else
        match jsonSkipSpace rest with
        | [] => none
        | c1 :: rest1 =>
          if c1 = 93 then some (.array [], rest1)
          else (jsonParseElements fuel (depth + 1) (c1 :: rest1)).map fun r => (.array r.1, r.2)
    else if c = 34 then
      match jsonScanString rest with
      | none => none
      | some (body, rest1) => (jsonUnquote body).map fun s => (.string s, rest1)
    else if c = 45 ∨ (48 ≤ c ∧ c ≤ 57) then
      (jsonScanNumber (c :: rest)).map fun r => (.number r.1, r.2)
    else if (c :: rest).take 4 = [116, 114, 117, 101] then some (.bool true, rest.drop 3)
    else if (c :: rest).take 5 = [102, 97, 108, 115, 101] then some (.bool false, rest.drop 4)
    else if (c :: rest).take 4 = [110, 117, 108, 108] then some (.null, rest.drop 3)
    else none
/-- The members of an object from its first key on: `"key" : value`, then
`,` and more members or the closing `}`. -/
def jsonParseMembers : Nat → Nat → Bytes → Option (List (Bytes × JValue) × Bytes)
  | 0, _, _ => none
  | _ + 1, _, [] => none
  | fuel + 1, depth, c :: rest =>
    if c = 34 then
      match jsonScanString rest with
      | none => none
      | some (body, rest1) =>
        match jsonUnquote body, jsonSkipSpace rest1 with
        | some key, c2 :: rest2 =>
          if c2 = 58 then
            match jsonParseValue fuel depth (jsonSkipSpace rest2) with
            | none => none
            | some (v, rest3) =>
              match jsonSkipSpace rest3 with
              | [] => none
              | c4 :: rest4 =>
                if c4 = 44 then
                  (jsonParseMembers fuel depth (jsonSkipSpace rest4)).map
                    fun r => ((key, v) :: r.1, r.2)
                else if c4 = 125 then some ([(key, v)], rest4)
                else none
          else none
        | _, _ => none
    else none
/-- The elements of an array from its first element on: a value, then `,`
and more elements or the closing `]`. -/
def jsonParseElements : Nat → Nat → Bytes → Option (List JValue × Bytes)
  | 0, _, _ => none
  | fuel + 1, depth, data =>
    match jsonParseValue fuel depth data with
    | none => none
    | some (v, rest) =>
      match jsonSkipSpace rest with
      | [] => none
      | c :: rest1 =>
        if c = 44 then
          (jsonParseElements fuel depth (jsonSkipSpace rest1)).map fun r => (v :: r.1, r.2)
        else if c = 93 then some ([v], rest1)
        else none
end

/-- The whole input as one JSON value with whitespace around it; `none` is
the library's `SyntaxError`. -/
def jsonParse (data : Bytes) : Option JValue :=
  match jsonParseValue (2 * data.length + 2) 0 (jsonSkipSpace data) with
  | none => none
  | some (v, rest) => if jsonSkipSpace rest = [] then some v else none

/-- The library's `checkValid`. -/
def jsonValid (data : Bytes) : Bool := (jsonParse data).isSome

/-- The text of the JSON value in a valid input: the input without the
whitespace around the value (`d.data[start:d.off]` in the decoder). -/
def jsonValueText (data : Bytes) : Bytes :=
  (jsonSkipSpace (jsonSkipSpace data).reverse).reverse

/-- The copy loop of the library's `appendCompact` with `escape = true` over
a valid JSON text: whitespace outside strings is dropped, and `<`, `>`, `&`,
U+2028 and U+2029 are written as `\u` escapes. `skip` counts the bytes of an
escaped U+2028 or U+2029 still to pass over; `inString` and `esc` are the
scanner's state: inside a string literal, and right after a backslash. -/
def jsonCompactLoop : Nat → Bool → Bool → Bytes → Bytes
  | _, _, _, [] => []
  | skip, inString, esc, c :: rest =>
    let inString1 := if esc then inString else if c = 34 then !inString else inString
    let esc1 := inString && !esc && c = 92
    if 0 < skip then jsonCompactLoop (skip - 1) inString1 esc1 rest
    else if c = 60 ∨ c = 62 ∨ c = 38 then
      [92, 117, 48, 48, jsonHex (c / 16), jsonHex (c % 16)] ++
        jsonCompactLoop 0 inString1 esc1 rest
    else if c = 0xE2 ∧ 2 ≤ rest.length ∧ rest.getD 0 0 = 0x80 ∧
        (rest.getD 1 0 = 0xA8 ∨ rest.getD 1 0 = 0xA9) then
      [92, 117, 50, 48, 50, jsonHex (rest.getD 1 0 % 16)] ++
        jsonCompactLoop 2 inString1 esc1 rest
    else if !inString && jsonIsSpace c then jsonCompactLoop 0 inString1 esc1 rest
    else c :: jsonCompactLoop 0 inString1 esc1 rest

/-- The library's `appendCompact` with `escape = true`, as the encoder applies
it to what a `MarshalJSON` method returned; `none` is its syntax error. -/
def jsonCompact (src : Bytes) : Option Bytes :=
  if jsonValid src then some (jsonCompactLoop 0 false false src) else none

/-- The text of the library's `SyntaxError`s (the position and the offending
byte are left out). -/
def jsonSyntaxError : String := "json: syntax error"

/-- The text of the library's `UnmarshalTypeError` for a Go type. -/
def jsonTypeError (goType : String) : String :=
  "json: cannot unmarshal value into Go value of type " ++ goType

/-- Go `json.Unmarshal(data, &value)` for a `string` variable holding `cur`:
a string literal is stored unquoted, `null` leaves the variable as it is,
any other value is an `UnmarshalTypeError`. -/
def jsonUnmarshalString (data : Bytes) (cur : Bytes) : Bytes × Error :=
  match jsonParse data with
  | none => (cur, some jsonSyntaxError)
  | some (.string s) => (s, none)
  | some .null => (cur, none)
  | some _ => (cur, some (jsonTypeError "string"))

/-- A Go `map[string]string`: its entries, each key once. The order of the
list has no meaning in Go. -/
abbrev GoMap := List (Bytes × Bytes)

/-- The assignment `m[k] = v`. -/
def GoMap.set (m : GoMap) (k v : Bytes) : GoMap :=
  if m.any (fun kv => kv.1 = k) then m.map (fun kv => if kv.1 = k then (k, v) else kv)
  else m ++ [(k, v)]

/-- The decoder storing the members of a JSON object into a
`map[string]string`: every key is set, to the member's string, or to the
empty string when the member is `null` or of another type; the first member
of another type leaves an `UnmarshalTypeError`. -/
def jsonStoreMembers : List (Bytes × JValue) → GoMap → Error → GoMap × Error
  | [], m, err => (m, err)
  | (k, .string s) :: rest, m, err => jsonStoreMembers rest (m.set k s) err
  | (k, .null) :: rest, m, err => jsonStoreMembers rest (m.set k []) err
  | (k, _) :: rest, m, err =>
    jsonStoreMembers rest (m.set k []) (err.orElse fun _ => some (jsonTypeError "string"))

/-- Go `json.Unmarshal(data, &temp)` for a non-nil `map[string]string`
holding `cur`. -/
def jsonUnmarshalMap (data : Bytes) (cur : GoMap) : GoMap × Error :=
  match jsonParse data with
  | none => (cur, some jsonSyntaxError)
  | some (.object members) => jsonStoreMembers members cur none
  | some .null => (cur, none)
  | some _ => (cur, some (jsonTypeError "map[string]string"))

/-! ## encoding/base64 and encoding a byte slice -/

/-- The alphabet of `base64.StdEncoding`. -/
def base64Digit (n : Nat) : Nat :=
  (bytesOf "ABCDEFGHIJKLMNOPQRSTUVWXYZabcdefghijklmnopqrstuvwxyz0123456789+/").getD n 0

/-- Go `base64.StdEncoding.EncodeToString`: three bytes give four digits, a
shorter last group is padded with `=`. -/
def base64Encode : Bytes → Bytes
  | [] => []
  | [a] => [base64Digit (a / 4), base64Digit (a % 4 * 16), 61, 61]
  | [a, b] => [base64Digit (a / 4), base64Digit (a % 4 * 16 + b / 16), base64Digit (b % 16 * 4), 61]
  | a :: b :: c :: rest =>
    [base64Digit (a / 4), base64Digit (a % 4 * 16 + b / 16),
      base64Digit (b % 16 * 4 + c / 64), base64Digit (c % 64)] ++ base64Encode rest

/-- Go `json.Marshal(b)` for a non-nil `[]byte`: the base64 text of the bytes
as a JSON string; never fails. -/
def jsonMarshalByteSlice (b : Bytes) : Bytes := 34 :: (base64Encode b ++ [34])

/-! ## StringOrSlice -/

/-- Go `StringOrSlice`, a `[]string`. -/
abbrev StringOrSlice := List Bytes

/-- Go `(*StringOrSlice).UnmarshalJSON`. The array branch calls
`json.Unmarshal(data, &s)` with `s` the receiver, a `*StringOrSlice`: the
decoder checks the text, follows the pointer, finds that `*StringOrSlice` is
a `json.Unmarshaler` and hands the text of the array back to this method. The
budget bounds that re-entry. -/
def StringOrSlice.UnmarshalJSON : Nat → StringOrSlice → Bytes → Exec (StringOrSlice × Error)
  | 0, _, _ => .outOfFuel
  | fuel + 1, s, data =>
    if data.length = 0 then .ret (s, none)
    else if isString data then
      match goSlice data 1 (data.length - 1) with
      | some inner => .ret ([inner], none)
      | none => .panic "slice bounds out of range"
    else if isArray data then
      if !jsonValid data then .ret (s, some jsonSyntaxError)
      else
        match StringOrSlice.UnmarshalJSON fuel s (jsonValueText data) with
        | .ret (s1, some err) => .ret (s1, some err)
        | .ret (s1, none) => .ret (s1, none)
        | .panic msg => .panic msg
        | .outOfFuel => .outOfFuel
    else .ret (s, none)

/-- Go `StringOrSlice.MarshalJSON`. With two or more elements it calls
`json.Marshal(s)`; `StringOrSlice` is a `json.Marshaler`, so the encoder calls
`s.MarshalJSON()` and compacts what that returns. The budget bounds that
re-entry. -/
def StringOrSlice.MarshalJSON : Nat → StringOrSlice → Exec (Bytes × Error)
  | 0, _ => .outOfFuel
  | fuel + 1, s =>
    if s.length = 0 then .ret ([], none)
    else if s.length = 1 then .ret (jsonMarshalString (s.getD 0 []), none)
    else
      match StringOrSlice.MarshalJSON fuel s with
      | .ret (b, none) =>
        match jsonCompact b with
        | some out => .ret (out, none)
        | none => .ret ([], some ("json: error calling MarshalJSON for type " ++
            "gocomposer.StringOrSlice: " ++ jsonSyntaxError))
      | .ret (_, some err) =>
        .ret ([], some ("json: error calling MarshalJSON for type " ++
          "gocomposer.StringOrSlice: " ++ err))
      | .panic msg => .panic msg
      | .outOfFuel => .outOfFuel

/-! ## PreferredInstall -/

/-- Go `PreferredInstall`, a `[][2]string`: (pattern, install) pairs. -/
abbrev PreferredInstall := List (Bytes × Bytes)

/-- An order in which `for ... range` may visit the entries of a map: Go
leaves it unspecified, so any rearrangement of the entries is one. -/
def IsRangeOrder (order : GoMap → GoMap) : Prop := ∀ m, (order m).Perm m

/-- Go `(*PreferredInstall).UnmarshalJSON`; `order` is the order in which the
`range` loop visits the decoded map. -/
def PreferredInstall.UnmarshalJSON (order : GoMap → GoMap) (p : PreferredInstall)
    (data : Bytes) : PreferredInstall × Error :=
  if 0 = data.length then (p, none)
  else
    let afterString : PreferredInstall × Error :=
      if isString data then
        match jsonUnmarshalString data [] with
        | (_, some err) => (p, some err)
        | (value, none) => (p ++ [([], value)], none)
      else (p, none)
    match afterString with
    | (p1, some err) => (p1, some err)
    | (p1, none) =>
      let afterObject : PreferredInstall × Error :=
        if isObject data then
          match jsonUnmarshalMap data [] with
          | (_, some err) => (p1, some err)
          | (temp, none) => (p1 ++ order temp, none)
        else (p1, none)
      match afterObject with
      | (p2, some err) => (p2, some err)
      | (p2, none) => (p2, some "preferred-install must be a string or an object")

/-- The loop of Go `PreferredInstall.MarshalJSON` from index `i` on, `n` being
`len(p)`: each pair is written as `pattern:install`, both through
`json.Marshal([]byte(...))`, and followed by a comma if `i < len(p)`. -/
def PreferredInstall.writePairs (n : Nat) : Nat → List (Bytes × Bytes) → Bytes
  | _, [] => []
  | i, v :: rest =>
    jsonMarshalByteSlice v.1 ++ [58] ++ jsonMarshalByteSlice v.2 ++
      (if i < n then [44] else []) ++ PreferredInstall.writePairs n (i + 1) rest

/-- Go `PreferredInstall.MarshalJSON`. The branch for a single pair with an
empty pattern has no result: its loop `for _, value = range p` assigns an
element of `p`, a `[2]string`, to the `string` variable `value`, which Go
does not accept, so the source gives that branch no behaviour. -/
def PreferredInstall.MarshalJSON (p : PreferredInstall) : Option (Bytes × Error) :=
  if p.length = 0 then some ([], none)
  else if p.length = 1 ∧ (p.getD 0 ([], [])).1 = [] then none
  else some ([123] ++ PreferredInstall.writePairs p.length 0 p ++ [125], none)

/-! ## encoding/json: numbers read into an `interface{}` -/

/-- The value of a run of decimal digits. -/
def jsonDigitsValue (digits : Bytes) : Nat :=
  digits.foldl (fun acc d => acc * 10 + (d - 48)) 0

/-- The least magnitude `strconv.ParseFloat(s, 64)` reports as out of range:
half an ULP above `math.MaxFloat64`, that is `2 ^ 1024 - 2 ^ 970`. -/
def float64Overflow : Nat :=
  179769313486231580793728971405303415079934132710037826936173778980444968292764750946649017977587207096330286416692887910946555547851940402630657488671505820681908902000708383676273854845817711531764475730270069855571366959622842914819860834936475292719074168444365510704342711559699508093042880177904174497792

/-- Ten to the power `n`. -/
def pow10 : Nat → Nat
  | 0 => 1
  | n + 1 => 10 * pow10 n

/-- Whether `strconv.ParseFloat(s, 64)` fails on the text of a JSON number
(its magnitude rounds beyond `math.MaxFloat64`); the decoder then leaves an
`UnmarshalTypeError` for the `interface{}` the number was read into. The
number is `mant * 10 ^ (±exp - fracLen)`; an exponent of 309 or more on a
non-zero mantissa overflows whatever the mantissa is, and a number below one
does not. -/
def jsonNumberOverflows (raw : Bytes) : Bool :=
  let digits := if raw.head? = some 45 then raw.drop 1 else raw
  let intPart := jsonSpanDigits digits
  let fracPart : Bytes × Bytes :=
    if intPart.2.head? = some 46 then jsonSpanDigits (intPart.2.drop 1) else ([], intPart.2)
  let expSign := (fracPart.2.drop 1).head?
  let expDigits :=
    if expSign = some 45 ∨ expSign = some 43 then fracPart.2.drop 2 else fracPart.2.drop 1
  let exp := jsonDigitsValue (jsonSpanDigits expDigits).1
  let mant := jsonDigitsValue (intPart.1 ++ fracPart.1)
  let fracLen := fracPart.1.length
  if mant = 0 then false
  else if expSign = some 45 then
    if (intPart.1 ++ fracPart.1).length ≤ exp + fracLen then false
    else float64Overflow * pow10 (exp + fracLen) ≤ mant
  else if fracLen + 309 ≤ exp then true
  else if fracLen ≤ exp then float64Overflow ≤ mant * pow10 (exp - fracLen)
  else if (intPart.1 ++ fracPart.1).length ≤ fracLen - exp then false
  else float64Overflow * pow10 (fracLen - exp) ≤ mant

mutual
/-- Whether some number inside a JSON value is out of `float64`'s range. -/
def jsonSomeNumberOverflows : JValue → Bool
  | .number raw => jsonNumberOverflows raw
  | .array items => jsonSomeElementOverflows items
  | .object members => jsonSomeMemberOverflows members
  | _ => false
/-- Whether some number inside the elements of an array is out of range. -/
def jsonSomeElementOverflows : List JValue → Bool
  | [] => false
  | v :: rest => jsonSomeNumberOverflows v || jsonSomeElementOverflows rest
/-- Whether some number inside the members of an object is out of range. -/
def jsonSomeMemberOverflows : List (Bytes × JValue) → Bool
  | [] => false
  | (_, v) :: rest => jsonSomeNumberOverflows v || jsonSomeMemberOverflows rest
end

/-! ## encoding/json: the text of the members of an object and of the elements of an array -/

/-- The text of the JSON value at the head of the input (no leading
whitespace) and the input left after it: what the decoder hands to an
`Unmarshaler` or decodes into a field. -/
def jsonValueSpan (data : Bytes) : Option (Bytes × Bytes) :=
  match data with
  | [] => none
  | c :: rest =>
    if c = 34 then (jsonScanString rest).map fun r => (34 :: (r.1 ++ [34]), r.2)
    else
      (jsonParseValue (2 * data.length + 2) 0 data).map
        fun r => (data.take (data.length - r.2.length), r.2)

/-- One member `"key" : value` at the head of the input: the unquoted key,
the text of the value, and the input left after the value. -/
def jsonMemberRaw (data : Bytes) : Option ((Bytes × Bytes) × Bytes) :=
  match data with
  | [] => none
  | c :: rest =>
    if c = 34 then
      match jsonScanString rest with
      | none => none
      | some (body, rest1) =>
        match jsonUnquote body, jsonSkipSpace rest1 with
        | some key, c2 :: rest2 =>
          if c2 = 58 then
            (jsonValueSpan (jsonSkipSpace rest2)).map fun r => ((key, r.1), r.2)
          else none
        | _, _ => none
    else none

/-- The members of an object from its first key on, in document order. -/
def jsonMembersRaw : Nat → Bytes → Option (List (Bytes × Bytes))
  | 0, _ => none
  | fuel + 1, data =>
    match jsonMemberRaw data with
    | none => none
    | some (m, rest) =>
      match jsonSkipSpace rest with
      | [] => none
      | c :: rest1 =>
        if c = 44 then (jsonMembersRaw fuel (jsonSkipSpace rest1)).map (m :: ·)
        else if c = 125 then some [m]
        else none

/-- The members of a JSON object as (unquoted key, text of the value), in
document order, repeated keys included; `none` if the text is not an
object. -/
def jsonObjectRaw (data : Bytes) : Option (List (Bytes × Bytes)) :=
  match jsonSkipSpace data with
  | [] => none
  | c :: rest =>
    if c = 123 then
      match jsonSkipSpace rest with
      | [] => none
      | c1 :: rest1 =>
        if c1 = 125 then some [] else jsonMembersRaw data.length (c1 :: rest1)
    else none

/-- The elements of an array from its first element on, in document order. -/
def jsonElementsRaw : Nat → Bytes → Option (List Bytes)
  | 0, _ => none
  | fuel + 1, data =>
    match jsonValueSpan data with
    | none => none
    | some (text, rest) =>
      match jsonSkipSpace rest with
      | [] => none
      | c :: rest1 =>
        if c = 44 then (jsonElementsRaw fuel (jsonSkipSpace rest1)).map (text :: ·)
        else if c = 93 then some [text]
        else none

/-- The texts of the elements of a JSON array, in document order; `none` if
the text is not an array. -/
def jsonArrayRaw (data : Bytes) : Option (List Bytes) :=
  match jsonSkipSpace data with
  | [] => none
  | c :: rest =>
    if c = 91 then
      match jsonSkipSpace rest with
      | [] => none
      | c1 :: rest1 =>
        if c1 = 93 then some [] else jsonElementsRaw data.length (c1 :: rest1)
    else none

/-! ## encoding/json: decoding an object into a struct -/

/-- The library's `foldName`, under which a key matches a field name when no
field has exactly the key as its name: ASCII letters are upper-cased, and the
two other runes whose case folding reaches an ASCII letter, U+212A (Kelvin
sign) and U+017F (long s), become `K` and `S`. Every other rune folds to a
rune outside ASCII and is left as it is: a key holding one matches none of the
ASCII field names either way. `skip` counts the bytes of such a rune still to
pass over. -/
def jsonFoldName : Nat → Bytes → Bytes
  | _, [] => []
  | skip + 1, _ :: rest => jsonFoldName skip rest
  | 0, c :: rest =>
    if c = 0xE2 ∧ rest.take 2 = [0x84, 0xAA] then 75 :: jsonFoldName 2 rest
    else if c = 0xC5 ∧ rest.take 1 = [0xBF] then 83 :: jsonFoldName 1 rest
    else (if 97 ≤ c ∧ c ≤ 122 then c - 32 else c) :: jsonFoldName 0 rest

/-- The position of the first name equal to `key`. -/
def jsonIndexOf : List Bytes → Bytes → Option Nat
  | [], _ => none
  | name :: rest, key =>
    if name = key then some 0 else (jsonIndexOf rest key).map (· + 1)

/-- The field a key is decoded into: the one named exactly like the key, or
else the one whose name folds like the key; `none` for an unknown key, which
the decoder passes over. -/
def jsonFindField (names : List Bytes) (key : Bytes) : Option Nat :=
  match jsonIndexOf names key with
  | some i => some i
  | none => jsonIndexOf (names.map (jsonFoldName 0)) (jsonFoldName 0 key)

/-- What storing one member into a field did. -/
inductive Stored (α : Type) where
  /-- The value was stored. -/
  | ok (a : α)
  /-- The value has the wrong JSON type for the field: the decoder keeps the
  first such `UnmarshalTypeError` and goes on. -/
  | typeError (a : α) (msg : String)
  /-- The field's `UnmarshalJSON` returned an error: the decoder stops and
  returns it. -/
  | abort (a : α) (msg : String)
  deriving DecidableEq

/-- A stored value next to the error the library's store reported. -/
def Stored.of {α β : Type} (r : β × Error) (put : β → α) : Stored α :=
  match r with
  | (b, none) => .ok (put b)
  | (b, some msg) => .typeError (put b) msg

/-- A call of a field's `UnmarshalJSON` as the decoder sees it. -/
def Stored.ofUnmarshaler {α β : Type} (r : Exec (β × Error)) (put : β → α) : Exec (Stored α) :=
  match r with
  | .ret (b, none) => .ret (.ok (put b))
  | .ret (b, some msg) => .ret (.abort (put b) msg)
  | .panic msg => .panic msg
  | .outOfFuel => .outOfFuel

/-- The decoder's loop over the members of an object for a struct whose
fields have the given names: each member is stored into the field its key
finds, in document order; `saved` is the first `UnmarshalTypeError` so far. -/
def jsonDecodeFields {α : Type} (names : List Bytes)
    (store : α → Nat → Bytes → Exec (Stored α)) :
    List (Bytes × Bytes) → α → Error → Exec (α × Error)
  | [], r, saved => .ret (r, saved)
  | (key, text) :: rest, r, saved =>
    match jsonFindField names key with
    | none => jsonDecodeFields names store rest r saved
    | some i =>
      match store r i text with
      | .ret (.ok r1) => jsonDecodeFields names store rest r1 saved
      | .ret (.typeError r1 msg) =>
        jsonDecodeFields names store rest r1 (saved.orElse fun _ => some msg)
      | .ret (.abort r1 msg) => .ret (r1, some msg)
      | .panic msg => .panic msg
      | .outOfFuel => .outOfFuel

/-- Go `json.Unmarshal(data, &r)` for a struct `r`: a syntax error leaves `r`
as it is, an object is stored member by member, `null` does nothing, any
other value is an `UnmarshalTypeError`. -/
def jsonUnmarshalStruct {α : Type} (goType : String) (names : List Bytes)
    (store : α → Nat → Bytes → Exec (Stored α)) (data : Bytes) (r : α) : Exec (α × Error) :=
  match jsonParse data with
  | none => .ret (r, some jsonSyntaxError)
  | some (.object _) =>
    match jsonObjectRaw data with
    | none => .ret (r, some jsonSyntaxError)
    | some members => jsonDecodeFields names store members r none
  | some .null => .ret (r, none)
  | some _ => .ret (r, some (jsonTypeError goType))

/-- The decoder storing a value into a `bool` field holding `cur`. -/
def jsonStoreBool (text : Bytes) (cur : Bool) : Bool × Error :=
  match jsonParse text with
  | none => (cur, some jsonSyntaxError)
  | some (.bool b) => (b, none)
  | some .null => (cur, none)
  | some _ => (cur, some (jsonTypeError "bool"))

/-- The decoder storing the elements of an array into a `[]string` whose old
content is `cur`, from index `i` on: a string is stored, `null` and a value
of another type leave the slot as it was (slots beyond the old length are
zeroed), the first value of another type leaves an `UnmarshalTypeError`. -/
def jsonStoreStringItems (cur : List Bytes) : Nat → List JValue → Error → List Bytes × Error
  | _, [], err => ([], err)
  | i, .string s :: rest, err =>
    ((s :: (jsonStoreStringItems cur (i + 1) rest err).1),
      (jsonStoreStringItems cur (i + 1) rest err).2)
  | i, .null :: rest, err =>
    ((cur.getD i [] :: (jsonStoreStringItems cur (i + 1) rest err).1),
      (jsonStoreStringItems cur (i + 1) rest err).2)
  | i, _ :: rest, err =>
    ((cur.getD i [] ::
        (jsonStoreStringItems cur (i + 1) rest
          (err.orElse fun _ => some (jsonTypeError "string"))).1),
      (jsonStoreStringItems cur (i + 1) rest
        (err.orElse fun _ => some (jsonTypeError "string"))).2)

/-- The decoder storing a value into a `[]string` field holding `cur`; a nil
and an empty slice are the same list here. -/
def jsonStoreStrings (text : Bytes) (cur : List Bytes) : List Bytes × Error :=
  match jsonParse text with
  | none => (cur, some jsonSyntaxError)
  | some (.array items) => jsonStoreStringItems cur 0 items none
  | some .null => ([], none)
  | some _ => (cur, some (jsonTypeError "[]string"))

/-- Go `json.Unmarshal` into a `map[string]interface{}` holding `cur`, at the
top level or for a field: the members of an object are set in document order,
`null` empties the map, any other value is an `UnmarshalTypeError`, and so is
a number out of `float64`'s range anywhere inside. An entry of the map holds
the text its value was decoded from. -/
def jsonUnmarshalAnyMap (data : Bytes) (cur : GoMap) : GoMap × Error :=
  match jsonParse data with
  | none => (cur, some jsonSyntaxError)
  | some (.object parsed) =>
    match jsonObjectRaw data with
    | none => (cur, some jsonSyntaxError)
    | some members =>
      (members.foldl (fun m kv => m.set kv.1 kv.2) cur,
        if jsonSomeMemberOverflows parsed then some (jsonTypeError "float64") else none)
  | some .null => ([], none)
  | some _ => (cur, some (jsonTypeError "map[string]interface {}"))

/-- The value of `m[key]` and whether the key is present. -/
def GoMap.get (m : GoMap) (key : Bytes) : Option Bytes :=
  (m.find? fun kv => kv.1 = key).map (·.2)

/-! ## encoding/json: encoding a struct -/

/-- The elements of a JSON array after the first, each behind a comma. -/
def jsonWriteItems : List Bytes → Bytes
  | [] => []
  | v :: rest => [44] ++ v ++ jsonWriteItems rest

/-- Go `json.Marshal(v)` for a non-nil `[]string`. -/
def jsonMarshalStrings (v : List Bytes) : Bytes :=
  match v with
  | [] => bytesOf "[]"
  | s :: rest =>
    [91] ++ jsonMarshalString s ++ jsonWriteItems (rest.map jsonMarshalString) ++ [93]

/-- The struct encoder's loop: every field that is not omitted is written as
`"name":value`, behind a comma unless it is the first one written. -/
def jsonWriteFields : Bool → List (Bytes × Option Bytes) → Bytes
  | _, [] => []
  | first, (_, none) :: rest => jsonWriteFields first rest
  | first, (name, some v) :: rest =>
    (if first then [] else [44]) ++ [34] ++ name ++ [34, 58] ++ v ++ jsonWriteFields false rest

/-- The object the struct encoder writes for the given fields; `none` marks a
field left out by `omitempty`. -/
def jsonObjectOf (fields : List (Bytes × Option Bytes)) : Bytes :=
  [123] ++ jsonWriteFields true fields ++ [125]

/-- A `string` field; with `omitempty` the empty string is left out. -/
def jsonFieldString (omitempty : Bool) (v : Bytes) : Option Bytes :=
  if omitempty ∧ v = [] then none else some (jsonMarshalString v)

/-- A `bool` field; with `omitempty` `false` is left out. -/
def jsonFieldBool (omitempty : Bool) (v : Bool) : Option Bytes :=
  if omitempty ∧ v = false then none else some (jsonMarshalBool v)

/-- A `[]string` field with `omitempty`: a slice of length zero is left out. -/
def jsonFieldStrings (v : List Bytes) : Option Bytes :=
  if v = [] then none else some (jsonMarshalStrings v)

/-- A `map[string]interface{}` field with `omitempty`: an empty map is left
out; `encodeAny` is `json.Marshal` of the map. -/
def jsonFieldAnyMap (encodeAny : GoMap → Bytes) (v : GoMap) : Option Bytes :=
  if v = [] then none else some (encodeAny v)

/-- What the encoder writes for a value with a `MarshalJSON` method, given
what the method returned: the compacted text; `none` is the
`MarshalerError` that ends the encoding. -/
def jsonEncodeMarshaler (r : Bytes × Error) : Option Bytes :=
  match r with
  | (b, none) => jsonCompact b
  | (_, some _) => none

/-- The text of the library's `MarshalerError` for a Go type. -/
def jsonMarshalerError (goType : String) : String :=
  "json: error calling MarshalJSON for type " ++ goType

/-! ## The repository records -/

/-- Go `TypeComposer`. -/
def TypeComposer : Bytes := bytesOf "composer"
/-- Go `TypeVCS`. -/
def TypeVCS : Bytes := bytesOf "vcs"
/-- Go `TypePath`. -/
def TypePath : Bytes := bytesOf "path"
/-- Go `TypeArtifact`. -/
def TypeArtifact : Bytes := bytesOf "artifact"
/-- Go `TypePear`. -/
def TypePear : Bytes := bytesOf "pear"
/-- Go `TypePackage`. -/
def TypePackage : Bytes := bytesOf "package"

/-- Go `ComposerRepository`; the field `Type` is `Type_` here. -/
structure ComposerRepository where
  Type_ : Bytes := []
  URL : Bytes := []
  Canonical : Bool := false
  Only : List Bytes := []
  Exclude : List Bytes := []
  Options : GoMap := []
  AllowSSLDowngrade : Bool := false
  ForceLazyProviders : Bool := false
  deriving DecidableEq

/-- The JSON names of the fields of `ComposerRepository`, in field order. -/
def ComposerRepository.names : List Bytes :=
  [bytesOf "type", bytesOf "url", bytesOf "canonical", bytesOf "only", bytesOf "exclude",
    bytesOf "extra", bytesOf "allow_ssl_downgrade", bytesOf "force-lazy-providers"]

/-- The decoder storing a value into the `i`-th field of a
`ComposerRepository`. -/
def ComposerRepository.store (r : ComposerRepository) (i : Nat) (text : Bytes) :
    Exec (Stored ComposerRepository) :=
  .ret (match i with
    | 0 => Stored.of (jsonUnmarshalString text r.Type_) fun v => { r with Type_ := v }
    | 1 => Stored.of (jsonUnmarshalString text r.URL) fun v => { r with URL := v }
    | 2 => Stored.of (jsonStoreBool text r.Canonical) fun v => { r with Canonical := v }
    | 3 => Stored.of (jsonStoreStrings text r.Only) fun v => { r with Only := v }
    | 4 => Stored.of (jsonStoreStrings text r.Exclude) fun v => { r with Exclude := v }
    | 5 => Stored.of (jsonUnmarshalAnyMap text r.Options) fun v => { r with Options := v }
    | 6 => Stored.of (jsonStoreBool text r.AllowSSLDowngrade)
        fun v => { r with AllowSSLDowngrade := v }
    | 7 => Stored.of (jsonStoreBool text r.ForceLazyProviders)
        fun v => { r with ForceLazyProviders := v }
    | _ => .ok r)

/-- Go `json.Marshal(r)` for a `ComposerRepository`. -/
def ComposerRepository.marshal (encodeAny : GoMap → Bytes) (r : ComposerRepository) : Bytes :=
  jsonObjectOf
    [(bytesOf "type", jsonFieldString false r.Type_),
      (bytesOf "url", jsonFieldString false r.URL),
      (bytesOf "canonical", jsonFieldBool true r.Canonical),
      (bytesOf "only", jsonFieldStrings r.Only),
      (bytesOf "exclude", jsonFieldStrings r.Exclude),
      (bytesOf "extra", jsonFieldAnyMap encodeAny r.Options),
      (bytesOf "allow_ssl_downgrade", jsonFieldBool true r.AllowSSLDowngrade),
      (bytesOf "force-lazy-providers", jsonFieldBool true r.ForceLazyProviders)]

/-- Go `VCSRepository`; the field `Type` is `Type_` here. -/
structure VCSRepository where
  Type_ : Bytes := []
  URL : Bytes := []
  Canonical : Bool := false
  Only : List Bytes := []
  Exclude : List Bytes := []
  NoAPI : Bool := false
  SecureHTTP : Bool := false
  SVNCacheCredentials : Bool := false
  TrunkPath : StringOrBool := {}
  BranchesPath : StringOrBool := {}
  TagsPath : StringOrBool := {}
  PackagePath : Bytes := []
  Depot : Bytes := []
  Branch : Bytes := []
  UniquePerforceClientName : Bytes := []
  P4User : Bytes := []
  P4Password : Bytes := []
  deriving DecidableEq

/-- The JSON names of the fields of `VCSRepository`, in field order. -/
def VCSRepository.names : List Bytes :=
  [bytesOf "type", bytesOf "url", bytesOf "canonical", bytesOf "only", bytesOf "exclude",
    bytesOf "no-api", bytesOf "secure-http", bytesOf "svn-cache-credentials",
    bytesOf "trunk-path", bytesOf "branches-path", bytesOf "tags-path", bytesOf "package-path",
    bytesOf "depot", bytesOf "branch", bytesOf "unique_perforce_client_name", bytesOf "p4user",
    bytesOf "p4password"]

/-- The decoder storing a value into the `i`-th field of a `VCSRepository`;
the three `StringOrBool` fields go through `StringOrBool.UnmarshalJSON`. -/
def VCSRepository.store (r : VCSRepository) (i : Nat) (text : Bytes) :
    Exec (Stored VCSRepository) :=
  match i with
  | 0 => .ret (Stored.of (jsonUnmarshalString text r.Type_) fun v => { r with Type_ := v })
  | 1 => .ret (Stored.of (jsonUnmarshalString text r.URL) fun v => { r with URL := v })
  | 2 => .ret (Stored.of (jsonStoreBool text r.Canonical) fun v => { r with Canonical := v })
  | 3 => .ret (Stored.of (jsonStoreStrings text r.Only) fun v => { r with Only := v })
  | 4 => .ret (Stored.of (jsonStoreStrings text r.Exclude) fun v => { r with Exclude := v })
  | 5 => .ret (Stored.of (jsonStoreBool text r.NoAPI) fun v => { r with NoAPI := v })
  | 6 => .ret (Stored.of (jsonStoreBool text r.SecureHTTP) fun v => { r with SecureHTTP := v })
  | 7 => .ret (Stored.of (jsonStoreBool text r.SVNCacheCredentials)
      fun v => { r with SVNCacheCredentials := v })
  | 8 => Stored.ofUnmarshaler (StringOrBool.UnmarshalJSON r.TrunkPath text)
      fun v => { r with TrunkPath := v }
  | 9 => Stored.ofUnmarshaler (StringOrBool.UnmarshalJSON r.BranchesPath text)
      fun v => { r with BranchesPath := v }
  | 10 => Stored.ofUnmarshaler (StringOrBool.UnmarshalJSON r.TagsPath text)
      fun v => { r with TagsPath := v }
  | 11 => .ret (Stored.of (jsonUnmarshalString text r.PackagePath)
      fun v => { r with PackagePath := v })
  | 12 => .ret (Stored.of (jsonUnmarshalString text r.Depot) fun v => { r with Depot := v })
  | 13 => .ret (Stored.of (jsonUnmarshalString text r.Branch) fun v => { r with Branch := v })
  | 14 => .ret (Stored.of (jsonUnmarshalString text r.UniquePerforceClientName)
      fun v => { r with UniquePerforceClientName := v })
  | 15 => .ret (Stored.of (jsonUnmarshalString text r.P4User) fun v => { r with P4User := v })
  | 16 => .ret (Stored.of (jsonUnmarshalString text r.P4Password)
      fun v => { r with P4Password := v })
  | _ => .ret (.ok r)

/-- Go `json.Marshal(r)` for a `VCSRepository`. `omitempty` never leaves out
the three `StringOrBool` fields, which are structs: each is written through
its `MarshalJSON`. -/
def VCSRepository.marshal (r : VCSRepository) : Bytes × Error :=
  match jsonEncodeMarshaler r.TrunkPath.MarshalJSON,
    jsonEncodeMarshaler r.BranchesPath.MarshalJSON,
    jsonEncodeMarshaler r.TagsPath.MarshalJSON with
  | some trunk, some branches, some tags =>
    (jsonObjectOf
      [(bytesOf "type", jsonFieldString false r.Type_),
        (bytesOf "url", jsonFieldString false r.URL),
        (bytesOf "canonical", jsonFieldBool true r.Canonical),
        (bytesOf "only", jsonFieldStrings r.Only),
        (bytesOf "exclude", jsonFieldStrings r.Exclude),
        (bytesOf "no-api", jsonFieldBool true r.NoAPI),
        (bytesOf "secure-http", jsonFieldBool true r.SecureHTTP),
        (bytesOf "svn-cache-credentials", jsonFieldBool true r.SVNCacheCredentials),
        (bytesOf "trunk-path", some trunk),
        (bytesOf "branches-path", some branches),
        (bytesOf "tags-path", some tags),
        (bytesOf "package-path", jsonFieldString true r.PackagePath),
        (bytesOf "depot", jsonFieldString true r.Depot),
        (bytesOf "branch", jsonFieldString true r.Branch),
        (bytesOf "unique_perforce_client_name", jsonFieldString true r.UniquePerforceClientName),
        (bytesOf "p4user", jsonFieldString true r.P4User),
        (bytesOf "p4password", jsonFieldString true r.P4Password)], none)
  | _, _, _ => ([], some (jsonMarshalerError "gocomposer.StringOrBool"))

/-- Go `PathRepository`; the field `Type` is `Type_` here. -/
structure PathRepository where
  Type_ : Bytes := []
  URL : Bytes := []
  Canonical : Bool := false
  Only : List Bytes := []
  Exclude : List Bytes := []
  Options : GoMap := []
  deriving DecidableEq

/-- The JSON names of the fields of `PathRepository`, in field order. -/
def PathRepository.names : List Bytes :=
  [bytesOf "type", bytesOf "url", bytesOf "canonical", bytesOf "only", bytesOf "exclude",
    bytesOf "extra"]

/-- The decoder storing a value into the `i`-th field of a `PathRepository`. -/
def PathRepository.store (r : PathRepository) (i : Nat) (text : Bytes) :
    Exec (Stored PathRepository) :=
  .ret (match i with
    | 0 => Stored.of (jsonUnmarshalString text r.Type_) fun v => { r with Type_ := v }
    | 1 => Stored.of (jsonUnmarshalString text r.URL) fun v => { r with URL := v }
    | 2 => Stored.of (jsonStoreBool text r.Canonical) fun v => { r with Canonical := v }
    | 3 => Stored.of (jsonStoreStrings text r.Only) fun v => { r with Only := v }
    | 4 => Stored.of (jsonStoreStrings text r.Exclude) fun v => { r with Exclude := v }
    | 5 => Stored.of (jsonUnmarshalAnyMap text r.Options) fun v => { r with Options := v }
    | _ => .ok r)

/-- Go `json.Marshal(r)` for a `PathRepository`. -/
def PathRepository.marshal (encodeAny : GoMap → Bytes) (r : PathRepository) : Bytes :=
  jsonObjectOf
    [(bytesOf "type", jsonFieldString false r.Type_),
      (bytesOf "url", jsonFieldString false r.URL),
      (bytesOf "canonical", jsonFieldBool true r.Canonical),
      (bytesOf "only", jsonFieldStrings r.Only),
      (bytesOf "exclude", jsonFieldStrings r.Exclude),
      (bytesOf "extra", jsonFieldAnyMap encodeAny r.Options)]

/-- Go `ArtifactRepository`; the field `Type` is `Type_` here. -/
structure ArtifactRepository where
  Type_ : Bytes := []
  URL : Bytes := []
  Canonical : Bool := false
  Only : List Bytes := []
  Exclude : List Bytes := []
  deriving DecidableEq

/-- The JSON names of the fields of `ArtifactRepository`, in field order. -/
def ArtifactRepository.names : List Bytes :=
  [bytesOf "type", bytesOf "url", bytesOf "canonical", bytesOf "only", bytesOf "exclude"]

/-- The decoder storing a value into the `i`-th field of an
`ArtifactRepository`. -/
def ArtifactRepository.store (r : ArtifactRepository) (i : Nat) (text : Bytes) :
    Exec (Stored ArtifactRepository) :=
  .ret (match i with
    | 0 => Stored.of (jsonUnmarshalString text r.Type_) fun v => { r with Type_ := v }
    | 1 => Stored.of (jsonUnmarshalString text r.URL) fun v => { r with URL := v }
    | 2 => Stored.of (jsonStoreBool text r.Canonical) fun v => { r with Canonical := v }
    | 3 => Stored.of (jsonStoreStrings text r.Only) fun v => { r with Only := v }
    | 4 => Stored.of (jsonStoreStrings text r.Exclude) fun v => { r with Exclude := v }
    | _ => .ok r)

/-- Go `json.Marshal(r)` for an `ArtifactRepository`. -/
def ArtifactRepository.marshal (r : ArtifactRepository) : Bytes :=
  jsonObjectOf
    [(bytesOf "type", jsonFieldString false r.Type_),
      (bytesOf "url", jsonFieldString false r.URL),
      (bytesOf "canonical", jsonFieldBool true r.Canonical),
      (bytesOf "only", jsonFieldStrings r.Only),
      (bytesOf "exclude", jsonFieldStrings r.Exclude)]

/-- Go `PearRepository`; the field `Type` is `Type_` here. -/
structure PearRepository where
  Type_ : Bytes := []
  URL : Bytes := []
  Canonical : Bool := false
  Only : List Bytes := []
  Exclude : List Bytes := []
  VendorAlias : Bytes := []
  deriving DecidableEq

/-- The JSON names of the fields of `PearRepository`, in field order. -/
def PearRepository.names : List Bytes :=
  [bytesOf "type", bytesOf "url", bytesOf "canonical", bytesOf "only", bytesOf "exclude",
    bytesOf "vendor-alias"]

/-- The decoder storing a value into the `i`-th field of a `PearRepository`. -/
def PearRepository.store (r : PearRepository) (i : Nat) (text : Bytes) :
    Exec (Stored PearRepository) :=
  .ret (match i with
    | 0 => Stored.of (jsonUnmarshalString text r.Type_) fun v => { r with Type_ := v }
    | 1 => Stored.of (jsonUnmarshalString text r.URL) fun v => { r with URL := v }
    | 2 => Stored.of (jsonStoreBool text r.Canonical) fun v => { r with Canonical := v }
    | 3 => Stored.of (jsonStoreStrings text r.Only) fun v => { r with Only := v }
    | 4 => Stored.of (jsonStoreStrings text r.Exclude) fun v => { r with Exclude := v }
    | 5 => Stored.of (jsonUnmarshalString text r.VendorAlias)
        fun v => { r with VendorAlias := v }
    | _ => .ok r)

/-- Go `json.Marshal(r)` for a `PearRepository`. -/
def PearRepository.marshal (r : PearRepository) : Bytes :=
  jsonObjectOf
    [(bytesOf "type", jsonFieldString false r.Type_),
      (bytesOf "url", jsonFieldString false r.URL),
      (bytesOf "canonical", jsonFieldBool true r.Canonical),
      (bytesOf "only", jsonFieldStrings r.Only),
      (bytesOf "exclude", jsonFieldStrings r.Exclude),
      (bytesOf "vendor-alias", jsonFieldString true r.VendorAlias)]

/-! ## PackageOrSlice -/

/-- Go `InlinePackage`, a struct without fields. -/
structure InlinePackage where
  deriving DecidableEq

/-- Go `PackageOrSlice`, a `[]InlinePackage`. -/
abbrev PackageOrSlice := List InlinePackage

/-- Go `(*PackageOrSlice).UnmarshalJSON`. The array branch calls
`json.Unmarshal(data, &p)` with `p` the receiver, a `*PackageOrSlice`, which
is a `json.Unmarshaler`: the decoder hands the text of the array back to
this method. The budget bounds that re-entry. -/
def PackageOrSlice.UnmarshalJSON : Nat → PackageOrSlice → Bytes → Exec (PackageOrSlice × Error)
  | 0, _, _ => .outOfFuel
  | fuel + 1, p, data =>
    if data.length = 0 then .ret (p, none)
    else if isObject data then
      match jsonUnmarshalStruct "gocomposer.InlinePackage" []
          (fun (r : InlinePackage) _ _ => .ret (.ok r)) data {} with
      | .ret (_, some err) => .ret (p, some err)
      | .ret (temp, none) => .ret (p ++ [temp], none)
      | .panic msg => .panic msg
      | .outOfFuel => .outOfFuel
    else if isArray data then
      if !jsonValid data then .ret (p, some jsonSyntaxError)
      else
        match PackageOrSlice.UnmarshalJSON fuel p (jsonValueText data) with
        | .ret (p1, err) => .ret (p1, err)
        | .panic msg => .panic msg
        | .outOfFuel => .outOfFuel
    else .ret (p, none)

/-- Go `PackageOrSlice.MarshalJSON`: it calls `json.Marshal(p)`, and
`PackageOrSlice` is a `json.Marshaler`, so the encoder calls
`p.MarshalJSON()` and compacts what that returns. The budget bounds that
re-entry. -/
def PackageOrSlice.MarshalJSON : Nat → PackageOrSlice → Exec (Bytes × Error)
  | 0, _ => .outOfFuel
  | fuel + 1, p =>
    match PackageOrSlice.MarshalJSON fuel p with
    | .ret (b, none) =>
      match jsonCompact b with
      | some out => .ret (out, none)
      | none => .ret ([], some (jsonMarshalerError "gocomposer.PackageOrSlice"))
    | .ret (_, some _) => .ret ([], some (jsonMarshalerError "gocomposer.PackageOrSlice"))
    | .panic msg => .panic msg
    | .outOfFuel => .outOfFuel

/-- Go `PackageRepository`; the field `Type` is `Type_` here. -/
structure PackageRepository where
  Type_ : Bytes := []
  Packages : PackageOrSlice := []
  Canonical : Bool := false
  Only : List Bytes := []
  Exclude : List Bytes := []
  deriving DecidableEq

/-- The JSON names of the fields of `PackageRepository`, in field order. -/
def PackageRepository.names : List Bytes :=
  [bytesOf "type", bytesOf "package", bytesOf "canonical", bytesOf "only", bytesOf "exclude"]

/-- The decoder storing a value into the `i`-th field of a
`PackageRepository`; `Packages` goes through `PackageOrSlice.UnmarshalJSON`. -/
def PackageRepository.store (fuel : Nat) (r : PackageRepository) (i : Nat) (text : Bytes) :
    Exec (Stored PackageRepository) :=
  match i with
  | 0 => .ret (Stored.of (jsonUnmarshalString text r.Type_) fun v => { r with Type_ := v })
  | 1 => Stored.ofUnmarshaler (PackageOrSlice.UnmarshalJSON fuel r.Packages text)
      fun v => { r with Packages := v }
  | 2 => .ret (Stored.of (jsonStoreBool text r.Canonical) fun v => { r with Canonical := v })
  | 3 => .ret (Stored.of (jsonStoreStrings text r.Only) fun v => { r with Only := v })
  | 4 => .ret (Stored.of (jsonStoreStrings text r.Exclude) fun v => { r with Exclude := v })
  | _ => .ret (.ok r)

/-- Go `json.Marshal(r)` for a `PackageRepository`: `Packages` has no
`omitempty` and is written through `PackageOrSlice.MarshalJSON`. -/
def PackageRepository.marshal (fuel : Nat) (r : PackageRepository) : Exec (Bytes × Error) :=
  match PackageOrSlice.MarshalJSON fuel r.Packages with
  | .ret (b, none) =>
    match jsonCompact b with
    | some packages =>
      .ret (jsonObjectOf
        [(bytesOf "type", jsonFieldString false r.Type_),
          (bytesOf "package", some packages),
          (bytesOf "canonical", jsonFieldBool true r.Canonical),
          (bytesOf "only", jsonFieldStrings r.Only),
          (bytesOf "exclude", jsonFieldStrings r.Exclude)], none)
    | none => .ret ([], some (jsonMarshalerError "gocomposer.PackageOrSlice"))
  | .ret (_, some _) => .ret ([], some (jsonMarshalerError "gocomposer.PackageOrSlice"))
  | .panic msg => .panic msg
  | .outOfFuel => .outOfFuel

/-! ## Repository -/

/-- Go `Repository`; the field `Type` is `Type_` here. -/
structure Repository where
  Type_ : Bytes := []
  Name : Bytes := []
  Disabled : Bool := false
  Composer : ComposerRepository := {}
  VCS : VCSRepository := {}
  Path : PathRepository := {}
  Artifact : ArtifactRepository := {}
  Pear : PearRepository := {}
  Package : PackageRepository := {}
  deriving DecidableEq

/-- The tags of the `case` that sets `TypeVCS` in
`(*Repository).UnmarshalJSON`. -/
def vcsTags : List Bytes :=
  [bytesOf "vcs", bytesOf "github", bytesOf "git", bytesOf "gitlab", bytesOf "bitbucket",
    bytesOf "git-bitbucket", bytesOf "hg", bytesOf "fossil", bytesOf "perforce", bytesOf "svn"]

/-- The loop `for repo := range disabled` of `(*Repository).UnmarshalJSON`
over the keys in the order the loop visits them: the first key makes the
entry a disabled one of that name, a second key is the error. -/
def Repository.rangeDisabled : List Bytes → Bool → Repository → Repository × Error
  | [], _, r => (r, none)
  | repo :: rest, first, r =>
    if !first then (r, some "a disabling repo should only have one key, the name")
    else Repository.rangeDisabled rest false { r with Disabled := true, Name := repo }

/-- The result of `return json.Unmarshal(data, &r.X)` for the record `X` the
`switch` chose, `put` storing the record back into the entry. -/
def Repository.withRecord {α : Type} (decoded : Exec (α × Error)) (put : α → Repository) :
    Exec (Repository × Error) :=
  match decoded with
  | .ret (a, err) => .ret (put a, err)
  | .panic msg => .panic msg
  | .outOfFuel => .outOfFuel

/-- Go `(*Repository).UnmarshalJSON`. `fuel` is the budget of
`PackageOrSlice.UnmarshalJSON`, `order` the order in which the `range` loop
visits the generic map. -/
def Repository.UnmarshalJSON (fuel : Nat) (order : GoMap → GoMap) (r : Repository)
    (data : Bytes) : Exec (Repository × Error) :=
  if data.length = 0 ∨ data = bytesOf "false" then .ret ({ r with Disabled := true }, none)
  else if !isObject data then .ret (r, some "invalid JSON repository")
  else
    match jsonUnmarshalAnyMap data [] with
    | (_, some err) => .ret (r, some err)
    | (disabled, none) =>
      match disabled.get (bytesOf "type") with
      | none => .ret (Repository.rangeDisabled ((order disabled).map (·.1)) true r)
      | some repoType =>
        match jsonParse repoType with
        | some (.string t) =>
          if t = bytesOf "composer" then
            Repository.withRecord
              (jsonUnmarshalStruct "gocomposer.ComposerRepository" ComposerRepository.names
                ComposerRepository.store data r.Composer)
              fun v => { r with Type_ := TypeComposer, Composer := v }
          else if t ∈ vcsTags then
            Repository.withRecord
              (jsonUnmarshalStruct "gocomposer.VCSRepository" VCSRepository.names
                VCSRepository.store data r.VCS)
              fun v => { r with Type_ := TypeVCS, VCS := v }
          else if t = bytesOf "path" then
            Repository.withRecord
              (jsonUnmarshalStruct "gocomposer.PathRepository" PathRepository.names
                PathRepository.store data r.Path)
              fun v => { r with Type_ := TypePath, Path := v }
          else if t = bytesOf "artifact" then
            Repository.withRecord
              (jsonUnmarshalStruct "gocomposer.ArtifactRepository" ArtifactRepository.names
                ArtifactRepository.store data r.Artifact)
              fun v => { r with Type_ := TypeArtifact, Artifact := v }
          else if t = bytesOf "pear" then
            Repository.withRecord
              (jsonUnmarshalStruct "gocomposer.PearRepository" PearRepository.names
                PearRepository.store data r.Pear)
              fun v => { r with Type_ := TypePear, Pear := v }
          else if t = bytesOf "package" then
            Repository.withRecord
              (jsonUnmarshalStruct "gocomposer.PackageRepository" PackageRepository.names
                (PackageRepository.store fuel) data r.Package)
              fun v => { r with Type_ := TypePackage, Package := v }
          else .ret (r, some "repository type not recognized")
        | _ => .ret (r, some "repository \"type\" must be a string")

/-- Go `Repository.MarshalJSON`. `fuel` is the budget of
`PackageOrSlice.MarshalJSON`; `encodeAny` is `json.Marshal` of the `extra`
map of a composer or path record. -/
def Repository.MarshalJSON (fuel : Nat) (encodeAny : GoMap → Bytes) (r : Repository) :
    Exec (Bytes × Error) :=
  if r.Disabled then
    .ret ([123] ++ jsonMarshalString r.Name ++ [58] ++ jsonMarshalBool (!r.Disabled) ++ [125],
      none)
  else if r.Type_ = TypeComposer then .ret (r.Composer.marshal encodeAny, none)
  else if r.Type_ = TypeVCS then .ret r.VCS.marshal
  else if r.Type_ = TypePath then .ret (r.Path.marshal encodeAny, none)
  else if r.Type_ = TypeArtifact then .ret (r.Artifact.marshal, none)
  else if r.Type_ = TypePear then .ret (r.Pear.marshal, none)
  else if r.Type_ = TypePackage then r.Package.marshal fuel
  else .ret ([], some "repository type not recognized")

/-! ## Repositories -/

/-- Go `Repositories`. -/
structure Repositories where
  object : Bool := false
  Array : List Repository := []
  deriving DecidableEq

/-- Go `Repositories.IsObject`. -/
def Repositories.IsObject (r : Repositories) : Bool := r.object

/-- The loop of Go `Repositories.GetRepo`. -/
def Repositories.getRepoLoop : List Repository → Bytes → Repository × Bool
  | [], _ => ({}, false)
  | r :: rest, name => if r.Name = name then (r, true) else Repositories.getRepoLoop rest name

/-- Go `Repositories.GetRepo`. -/
def Repositories.GetRepo (r : Repositories) (name : Bytes) : Repository × Bool :=
  Repositories.getRepoLoop r.Array name

/-- A Go `map[string]Repository`: its entries, each key once. -/
abbrev RepositoryMap := List (Bytes × Repository)

/-- The assignment `m[k] = v`. -/
def RepositoryMap.set (m : RepositoryMap) (k : Bytes) (v : Repository) : RepositoryMap :=
  if m.any (fun kv => kv.1 = k) then m.map (fun kv => if kv.1 = k then (k, v) else kv)
  else m ++ [(k, v)]

/-- An order in which `for ... range` may visit the entries of a
`map[string]Repository`: any rearrangement of the entries. -/
def IsRepositoryOrder (order : RepositoryMap → RepositoryMap) : Prop :=
  ∀ m, (order m).Perm m

/-- The decoder storing the members of an object into a
`map[string]Repository`: each value goes through `Repository.UnmarshalJSON`
on a zero `Repository`, and the first error it returns ends the decoding. -/
def jsonDecodeRepositoryMap (decode : Bytes → Exec (Repository × Error)) :
    List (Bytes × Bytes) → RepositoryMap → Exec (RepositoryMap × Error)
  | [], m => .ret (m, none)
  | (key, text) :: rest, m =>
    match decode text with
    | .ret (rep, none) => jsonDecodeRepositoryMap decode rest (m.set key rep)
    | .ret (_, some err) => .ret (m, some err)
    | .panic msg => .panic msg
    | .outOfFuel => .outOfFuel

/-- Go `json.Unmarshal(data, &temp)` for an empty `map[string]Repository`. -/
def jsonUnmarshalRepositoryMap (decode : Bytes → Exec (Repository × Error)) (data : Bytes) :
    Exec (RepositoryMap × Error) :=
  match jsonParse data with
  | none => .ret ([], some jsonSyntaxError)
  | some (.object _) =>
    match jsonObjectRaw data with
    | none => .ret ([], some jsonSyntaxError)
    | some members => jsonDecodeRepositoryMap decode members []
  | some .null => .ret ([], none)
  | some _ => .ret ([], some (jsonTypeError "map[string]gocomposer.Repository"))

/-- The decoder storing the elements of an array into a `[]Repository`: each
element goes through `Repository.UnmarshalJSON` on a zero `Repository`, and
the first error it returns ends the decoding. -/
def jsonDecodeRepositorySlice (decode : Bytes → Exec (Repository × Error)) :
    List Bytes → Exec (List Repository × Error)
  | [] => .ret ([], none)
  | text :: rest =>
    match decode text with
    | .ret (rep, none) =>
      match jsonDecodeRepositorySlice decode rest with
      | .ret (reps, err) => .ret (rep :: reps, err)
      | .panic msg => .panic msg
      | .outOfFuel => .outOfFuel
    | .ret (_, some err) => .ret ([], some err)
    | .panic msg => .panic msg
    | .outOfFuel => .outOfFuel

/-- Go `json.Unmarshal(data, &temp)` for an empty `[]Repository`. -/
def jsonUnmarshalRepositorySlice (decode : Bytes → Exec (Repository × Error)) (data : Bytes) :
    Exec (List Repository × Error) :=
  match jsonParse data with
  | none => .ret ([], some jsonSyntaxError)
  | some (.array _) =>
    match jsonArrayRaw data with
    | none => .ret ([], some jsonSyntaxError)
    | some elements => jsonDecodeRepositorySlice decode elements
  | some .null => .ret ([], none)
  | some _ => .ret ([], some (jsonTypeError "[]gocomposer.Repository"))

/-- The loop `for name, rep := range temp` of `(*Repositories).UnmarshalJSON`
over the entries in the order the loop visits them. -/
def Repositories.named (entries : RepositoryMap) : List Repository :=
  entries.map fun kv => { kv.2 with Name := kv.1 }

/-- Go `(*Repositories).UnmarshalJSON`. `fuel` and `order` are those of
`Repository.UnmarshalJSON`; `orderRepos` is the order in which the `range`
loop visits the decoded map. The field `object` is assigned nowhere. -/
def Repositories.UnmarshalJSON (fuel : Nat) (order : GoMap → GoMap)
    (orderRepos : RepositoryMap → RepositoryMap) (r : Repositories) (data : Bytes) :
    Exec (Repositories × Error) :=
  if data.length = 0 then .ret (r, none)
  else
    let afterObject : Exec (Repositories × Error) :=
      if isObject data then
        match jsonUnmarshalRepositoryMap (Repository.UnmarshalJSON fuel order {}) data with
        | .ret (_, some err) => .ret (r, some err)
        | .ret (temp, none) => .ret ({ r with Array := Repositories.named (orderRepos temp) }, none)
        | .panic msg => .panic msg
        | .outOfFuel => .outOfFuel
      else .ret (r, none)
    match afterObject with
    | .ret (r1, some err) => .ret (r1, some err)
    | .ret (r1, none) =>
      if isArray data then
        match jsonUnmarshalRepositorySlice (Repository.UnmarshalJSON fuel order {}) data with
        | .ret (_, some err) => .ret ({ r1 with Array := [] }, some err)
        | .ret (temp, none) =>
          .ret ({ r1 with Array := temp.filter fun rep => !(rep.Disabled && rep.Name = []) },
            none)
        | .panic msg => .panic msg
        | .outOfFuel => .outOfFuel
      else .ret (r1, none)
    | .panic msg => .panic msg
    | .outOfFuel => .outOfFuel

/-! ## Values of the specification -/

/-- A string that `json.Marshal` writes between the quotes exactly as it is:
valid UTF-8 in which no rune is escaped, that is, no control byte, `"`, `\`,
`<`, `>`, `&`, U+2028 or U+2029. The budget is as for `jsonStringBody`. -/
def jsonPlain : Nat → Bytes → Bool
  | _, [] => true
  | 0, _ :: _ => false
  | fuel + 1, b :: rest =>
    if b < 0x80 then jsonHtmlSafe b && jsonPlain fuel rest
    else
      !decide ((utf8DecodeRune (b :: rest)).1 = utf8RuneError ∧
          (utf8DecodeRune (b :: rest)).2 = 1) &&
        !decide ((utf8DecodeRune (b :: rest)).1 = 0x2028 ∨
          (utf8DecodeRune (b :: rest)).1 = 0x2029) &&
        jsonPlain fuel (rest.drop ((utf8DecodeRune (b :: rest)).2 - 1))

/-- Go `utf8.ValidString`: every rune decodes without error. The budget is
as for `jsonStringBody`. -/
def utf8Valid : Nat → Bytes → Bool
  | _, [] => true
  | 0, _ :: _ => false
  | fuel + 1, b :: rest =>
    if b < 0x80 then utf8Valid fuel rest
    else
      !decide ((utf8DecodeRune (b :: rest)).1 = utf8RuneError ∧
          (utf8DecodeRune (b :: rest)).2 = 1) &&
        utf8Valid fuel (rest.drop ((utf8DecodeRune (b :: rest)).2 - 1))

/-- The byte sequences that encode one rune of two to four bytes in UTF-8,
with the rune: what `utf8DecodeRune` accepts as a multi-byte sequence. -/
inductive Utf8Rune : Bytes → Nat → Prop where
  | two (b s1 : Nat) : 0xC2 ≤ b → b ≤ 0xDF → 0x80 ≤ s1 → s1 ≤ 0xBF →
      Utf8Rune [b, s1] ((b % 32) * 64 + s1 % 64)
  | three (b s1 s2 : Nat) : 0xE0 ≤ b → b ≤ 0xEF → 0x80 ≤ s1 → s1 ≤ 0xBF →
      (b = 0xE0 → 0xA0 ≤ s1) → (b = 0xED → s1 ≤ 0x9F) → 0x80 ≤ s2 → s2 ≤ 0xBF →
      Utf8Rune [b, s1, s2] ((b % 16) * 4096 + (s1 % 64) * 64 + s2 % 64)
  | four (b s1 s2 s3 : Nat) : 0xF0 ≤ b → b ≤ 0xF4 → 0x80 ≤ s1 → s1 ≤ 0xBF →
      (b = 0xF0 → 0x90 ≤ s1) → (b = 0xF4 → s1 ≤ 0x8F) → 0x80 ≤ s2 → s2 ≤ 0xBF →
      0x80 ≤ s3 → s3 ≤ 0xBF →
      Utf8Rune [b, s1, s2, s3] ((b % 8) * 262144 + (s1 % 64) * 4096 + (s2 % 64) * 64 + s3 % 64)

/-- The specification's `Flag(b)`. -/
def StringOrBool.Flag (b : Bool) : StringOrBool :=
  { isBool := true, boolValue := b, stringValue := [] }

/-- The specification's `Text(s)`. -/
def StringOrBool.Text (s : Bytes) : StringOrBool :=
  { isBool := false, boolValue := false, stringValue := s }

/-- The text `{"type": t, "url": u}` of the specification for a repository of
type `t` at the url `u`, both written as `json.Marshal` writes a string. -/
def Repository.typedText (t u : Bytes) : Bytes :=
  bytesOf "\x7b\"type\": " ++ jsonMarshalString t ++ bytesOf ", \"url\": " ++
    jsonMarshalString u ++ bytesOf "\x7d"

end GoComposer

namespace GoComposer

/-! ## unicode/utf8 and the string encoder: helper facts -/

theorem utf8Size_cases (b : Nat) :
    utf8Size b = 0 ∨ utf8Size b = 2 ∨ utf8Size b = 3 ∨ utf8Size b = 4 := by
  unfold utf8Size
  split_ifs <;> simp

theorem utf8Accept_lo (b : Nat) : 0x80 ≤ (utf8Accept b).1 := by
  unfold utf8Accept
  split_ifs <;> simp

/-- The width `utf8DecodeRune` reports is between 1 and 4 and within the input. -/
theorem utf8DecodeRune_size (b : Nat) (rest : Bytes) :
    1 ≤ (utf8DecodeRune (b :: rest)).2 ∧ (utf8DecodeRune (b :: rest)).2 ≤ rest.length + 1 ∧
      (utf8DecodeRune (b :: rest)).2 ≤ 4 := by
  have hs := utf8Size_cases b
  simp only [utf8DecodeRune]
  split_ifs <;> simp only [] <;> omega

theorem utf8DecodeRune_two (b s1 : Nat) (r : Bytes) (hb : ¬ b < 0x80) (hs : utf8Size b = 2) :
    utf8DecodeRune (b :: s1 :: r) =
      if s1 < (utf8Accept b).1 ∨ (utf8Accept b).2 < s1 then (utf8RuneError, 1)
      else ((b % 32) * 64 + s1 % 64, 2) := by
  simp only [utf8DecodeRune, hb, hs, if_false, List.length_cons, List.getD_cons_zero]
  have h1 : ¬ ((2 : Nat) = 0) := by decide
  have h2 : ¬ (r.length + 1 + 1 < 2) := by omega
  have h3 : (2 : Nat) ≤ 2 := le_refl _
  simp only [h1, h2, h3, if_true, if_false]

theorem utf8DecodeRune_three (b s1 s2 : Nat) (r : Bytes) (hb : ¬ b < 0x80)
    (hs : utf8Size b = 3) :
    utf8DecodeRune (b :: s1 :: s2 :: r) =
      if s1 < (utf8Accept b).1 ∨ (utf8Accept b).2 < s1 then (utf8RuneError, 1)
      else if !utf8Cont s2 then (utf8RuneError, 1)
      else ((b % 16) * 4096 + (s1 % 64) * 64 + s2 % 64, 3) := by
  simp only [utf8DecodeRune, hb, hs, if_false, List.length_cons, List.getD_cons_zero,
    List.getD_cons_succ]
  have h1 : ¬ ((3 : Nat) = 0) := by decide
  have h2 : ¬ (r.length + 1 + 1 + 1 < 3) := by omega
  have h3 : ¬ ((3 : Nat) ≤ 2) := by decide
  have h4 : (3 : Nat) ≤ 3 := le_refl _
  simp only [h1, h2, h3, h4, if_true, if_false]

theorem utf8DecodeRune_four (b s1 s2 s3 : Nat) (r : Bytes) (hb : ¬ b < 0x80)
    (hs : utf8Size b = 4) :
    utf8DecodeRune (b :: s1 :: s2 :: s3 :: r) =
      if s1 < (utf8Accept b).1 ∨ (utf8Accept b).2 < s1 then (utf8RuneError, 1)
      else if !utf8Cont s2 then (utf8RuneError, 1)
      else if !utf8Cont s3 then (utf8RuneError, 1)
      else ((b % 8) * 262144 + (s1 % 64) * 4096 + (s2 % 64) * 64 + s3 % 64, 4) := by
  simp only [utf8DecodeRune, hb, hs, if_false, List.length_cons, List.getD_cons_zero,
    List.getD_cons_succ]
  have h1 : ¬ ((4 : Nat) = 0) := by decide
  have h2 : ¬ (r.length + 1 + 1 + 1 + 1 < 4) := by omega
  have h3 : ¬ ((4 : Nat) ≤ 2) := by decide
  have h4 : ¬ ((4 : Nat) ≤ 3) := by decide
  simp only [h1, h2, h3, h4, if_true, if_false]

theorem utf8DecodeRune_short (b : Nat) (rest : Bytes) (hb : ¬ b < 0x80)
    (hs : rest.length + 1 < utf8Size b ∨ utf8Size b = 0) :
    utf8DecodeRune (b :: rest) = (utf8RuneError, 1) := by
  simp only [utf8DecodeRune, hb, if_false]
  rcases hs with hs | hs
  · by_cases h0 : utf8Size b = 0
    · rw [if_pos h0]
    · rw [if_neg h0, if_pos hs]
  · rw [if_pos hs]

theorem utf8Accept_spec (b s1 : Nat) :
    (¬ (s1 < (utf8Accept b).1 ∨ (utf8Accept b).2 < s1)) ↔
      (0x80 ≤ s1 ∧ s1 ≤ 0xBF ∧ (b = 0xE0 → 0xA0 ≤ s1) ∧ (b = 0xED → s1 ≤ 0x9F) ∧
        (b = 0xF0 → 0x90 ≤ s1) ∧ (b = 0xF4 → s1 ≤ 0x8F)) := by
  unfold utf8Accept
  split_ifs <;> simp only [] <;> omega

theorem utf8Size_bounds (b : Nat) :
    (utf8Size b = 2 → 0xC2 ≤ b ∧ b ≤ 0xDF) ∧ (utf8Size b = 3 → 0xE0 ≤ b ∧ b ≤ 0xEF) ∧
      (utf8Size b = 4 → 0xF0 ≤ b ∧ b ≤ 0xF4) := by
  unfold utf8Size
  split_ifs <;> simp <;> omega

/-- A multi-byte decode that is not an error reads one `Utf8Rune` off the
front of the input. -/
theorem utf8DecodeRune_valid (b : Nat) (rest : Bytes) (hb : ¬ b < 0x80)
    (h : ¬ ((utf8DecodeRune (b :: rest)).1 = utf8RuneError ∧ (utf8DecodeRune (b :: rest)).2 = 1)) :
    ∃ chunk tail c, b :: rest = chunk ++ tail ∧ Utf8Rune chunk c ∧
      utf8DecodeRune (b :: rest) = (c, chunk.length) := by
  have hsz := utf8Size_bounds b
  rcases utf8Size_cases b with hs | hs | hs | hs
  · exact absurd (by rw [utf8DecodeRune_short b rest hb (Or.inr hs)]; exact ⟨rfl, rfl⟩) h
  · rcases rest with _ | ⟨s1, r⟩
    · exact absurd (by rw [utf8DecodeRune_short b [] hb (Or.inl (by simp [hs]))]; exact ⟨rfl, rfl⟩) h
    · rw [utf8DecodeRune_two b s1 r hb hs] at h ⊢
      by_cases ha : s1 < (utf8Accept b).1 ∨ (utf8Accept b).2 < s1
      · rw [if_pos ha] at h; exact absurd ⟨rfl, rfl⟩ h
      · rw [if_neg ha]
        have := (utf8Accept_spec b s1).1 ha
        exact ⟨[b, s1], r, _, rfl,
          .two b s1 (hsz.1 hs).1 (hsz.1 hs).2 this.1 this.2.1, rfl⟩
  · rcases rest with _ | ⟨s1, _ | ⟨s2, r⟩⟩
    · exact absurd (by rw [utf8DecodeRune_short b [] hb (Or.inl (by simp [hs]))]; exact ⟨rfl, rfl⟩) h
    · exact absurd (by rw [utf8DecodeRune_short b [s1] hb (Or.inl (by simp [hs]))]; exact ⟨rfl, rfl⟩) h
    · rw [utf8DecodeRune_three b s1 s2 r hb hs] at h ⊢
      by_cases ha : s1 < (utf8Accept b).1 ∨ (utf8Accept b).2 < s1
      · rw [if_pos ha] at h; exact absurd ⟨rfl, rfl⟩ h
      · rw [if_neg ha] at h ⊢
        by_cases h2 : (!utf8Cont s2) = true
        · rw [if_pos h2] at h; exact absurd ⟨rfl, rfl⟩ h
        · rw [if_neg h2]
          have := (utf8Accept_spec b s1).1 ha
          have c2 : 0x80 ≤ s2 ∧ s2 ≤ 0xBF := by simpa [utf8Cont] using h2
          exact ⟨[b, s1, s2], r, _, rfl,
            .three b s1 s2 (hsz.2.1 hs).1 (hsz.2.1 hs).2 this.1 this.2.1 this.2.2.1
              this.2.2.2.1 c2.1 c2.2, rfl⟩
  · rcases rest with _ | ⟨s1, _ | ⟨s2, _ | ⟨s3, r⟩⟩⟩
    · exact absurd (by rw [utf8DecodeRune_short b [] hb (Or.inl (by simp [hs]))]; exact ⟨rfl, rfl⟩) h
    · exact absurd (by rw [utf8DecodeRune_short b [s1] hb (Or.inl (by simp [hs]))]; exact ⟨rfl, rfl⟩) h
    · exact absurd (by rw [utf8DecodeRune_short b [s1, s2] hb (Or.inl (by simp [hs]))]; exact ⟨rfl, rfl⟩) h
    · rw [utf8DecodeRune_four b s1 s2 s3 r hb hs] at h ⊢
      by_cases ha : s1 < (utf8Accept b).1 ∨ (utf8Accept b).2 < s1
      · rw [if_pos ha] at h; exact absurd ⟨rfl, rfl⟩ h
      · rw [if_neg ha] at h ⊢
        by_cases h2 : (!utf8Cont s2) = true
        · rw [if_pos h2] at h; exact absurd ⟨rfl, rfl⟩ h
        · rw [if_neg h2] at h ⊢
          by_cases h3 : (!utf8Cont s3) = true
          · rw [if_pos h3] at h; exact absurd ⟨rfl, rfl⟩ h
          · rw [if_neg h3]
            have := (utf8Accept_spec b s1).1 ha
            have c2 : 0x80 ≤ s2 ∧ s2 ≤ 0xBF := by simpa [utf8Cont] using h2
            have c3 : 0x80 ≤ s3 ∧ s3 ≤ 0xBF := by simpa [utf8Cont] using h3
            exact ⟨[b, s1, s2, s3], r, _, rfl,
              .four b s1 s2 s3 (hsz.2.2 hs).1 (hsz.2.2 hs).2 this.1 this.2.1 this.2.2.2.2.1
                this.2.2.2.2.2 c2.1 c2.2 c3.1 c3.2, rfl⟩

theorem utf8Size_of_range (b : Nat) :
    (0xC2 ≤ b → b ≤ 0xDF → utf8Size b = 2) ∧ (0xE0 ≤ b → b ≤ 0xEF → utf8Size b = 3) ∧
      (0xF0 ≤ b → b ≤ 0xF4 → utf8Size b = 4) := by
  unfold utf8Size
  split_ifs <;> simp <;> omega

/-- Decoding a `Utf8Rune` gives its rune and width, whatever follows it. -/
theorem utf8DecodeRune_of_rune {chunk : Bytes} {c : Nat} (h : Utf8Rune chunk c) (tail : Bytes) :
    utf8DecodeRune (chunk ++ tail) = (c, chunk.length) := by
  cases h with
  | two b s1 h1 h2 h3 h4 =>
    have ha : ¬ (s1 < (utf8Accept b).1 ∨ (utf8Accept b).2 < s1) :=
      (utf8Accept_spec b s1).2 ⟨h3, h4, by omega, by omega, by omega, by omega⟩
    show utf8DecodeRune (b :: s1 :: tail) = _
    rw [utf8DecodeRune_two b s1 tail (by omega) ((utf8Size_of_range b).1 h1 h2), if_neg ha]
    rfl
  | three b s1 s2 h1 h2 h3 h4 h5 h6 h7 h8 =>
    have ha : ¬ (s1 < (utf8Accept b).1 ∨ (utf8Accept b).2 < s1) :=
      (utf8Accept_spec b s1).2 ⟨h3, h4, h5, h6, by omega, by omega⟩
    have hc : ¬ ((!utf8Cont s2) = true) := by simp [utf8Cont]; omega
    show utf8DecodeRune (b :: s1 :: s2 :: tail) = _
    rw [utf8DecodeRune_three b s1 s2 tail (by omega) ((utf8Size_of_range b).2.1 h1 h2),
      if_neg ha, if_neg hc]
    rfl
  | four b s1 s2 s3 h1 h2 h3 h4 h5 h6 h7 h8 h9 h10 =>
    have ha : ¬ (s1 < (utf8Accept b).1 ∨ (utf8Accept b).2 < s1) :=
      (utf8Accept_spec b s1).2 ⟨h3, h4, by omega, by omega, h5, h6⟩
    have hc : ¬ ((!utf8Cont s2) = true) := by simp [utf8Cont]; omega
    have hd : ¬ ((!utf8Cont s3) = true) := by simp [utf8Cont]; omega
    show utf8DecodeRune (b :: s1 :: s2 :: s3 :: tail) = _
    rw [utf8DecodeRune_four b s1 s2 s3 tail (by omega) ((utf8Size_of_range b).2.2 h1 h2),
      if_neg ha, if_neg hc, if_neg hd]
    rfl

/-- Encoding the rune of a `Utf8Rune` gives its bytes back. -/
theorem utf8EncodeRune_of_rune {chunk : Bytes} {c : Nat} (h : Utf8Rune chunk c) :
    utf8EncodeRune c = chunk := by
  cases h with
  | two b s1 h1 h2 h3 h4 =>
    unfold utf8EncodeRune
    split_ifs with g1 g2 <;> first | omega | (simp only [List.cons.injEq, and_true]; omega)
  | three b s1 s2 h1 h2 h3 h4 h5 h6 h7 h8 =>
    unfold utf8EncodeRune
    split_ifs with g1 g2 g3 g4 <;> first | omega | (simp only [List.cons.injEq, and_true]; omega)
  | four b s1 s2 s3 h1 h2 h3 h4 h5 h6 h7 h8 h9 h10 =>
    unfold utf8EncodeRune
    split_ifs with g1 g2 g3 g4 <;> first | omega | (simp only [List.cons.injEq, and_true]; omega)

/-- The bytes of a `Utf8Rune` are at least `0x80` and there are at most four. -/
theorem Utf8Rune_bytes {chunk : Bytes} {c : Nat} (h : Utf8Rune chunk c) :
    (∀ x ∈ chunk, 0x80 ≤ x) ∧ 2 ≤ chunk.length ∧ chunk.length ≤ 4 := by
  cases h <;> simp <;> omega

/-- Every byte of a multi-byte sequence that `utf8DecodeRune` accepts is at
least `0x80`. -/
theorem utf8DecodeRune_take_ge (b : Nat) (rest : Bytes) (hb : ¬ b < 0x80)
    (h : ¬ ((utf8DecodeRune (b :: rest)).1 = utf8RuneError ∧ (utf8DecodeRune (b :: rest)).2 = 1)) :
    ∀ x ∈ (b :: rest).take (utf8DecodeRune (b :: rest)).2, 0x80 ≤ x := by
  obtain ⟨chunk, tail, c, hsplit, hrune, hdec⟩ := utf8DecodeRune_valid b rest hb h
  rw [hdec, hsplit, List.take_left]
  exact (Utf8Rune_bytes hrune).1

theorem jsonIsHex_jsonHex (n : Nat) (h : n < 16) : jsonIsHex (jsonHex n) = true := by
  revert n
  decide

theorem jsonHex_ge (n : Nat) (h : n < 16) : 48 ≤ jsonHex n := by
  revert n
  decide

theorem bytesOf_ufffd : bytesOf "\\ufffd" = [92, 117, 102, 102, 102, 100] := by decide

theorem jsonScanString_quote (rest : Bytes) : jsonScanString (34 :: rest) = some ([], rest) := by
  rw [jsonScanString.eq_def]
  simp

theorem jsonScanString_plain (c : Nat) (rest : Bytes) (h1 : ¬ c = 34) (h2 : ¬ c = 92)
    (h3 : ¬ c < 32) :
    jsonScanString (c :: rest) = (jsonScanString rest).map fun r => (c :: r.1, r.2) := by
  rw [jsonScanString.eq_def]
  simp [h1, h2, h3]

theorem jsonScanString_simple_escape (e : Nat) (rest : Bytes)
    (h : e = 98 ∨ e = 102 ∨ e = 110 ∨ e = 114 ∨ e = 116 ∨ e = 92 ∨ e = 47 ∨ e = 34) :
    jsonScanString (92 :: e :: rest) =
      (jsonScanString rest).map fun r => (92 :: e :: r.1, r.2) := by
  rw [jsonScanString.eq_def]
  have h117 : ¬ e = 117 := by omega
  simp only [h117, h, if_true, if_false]
  simp

theorem jsonScanString_u_escape (h1 h2 h3 h4 : Nat) (rest : Bytes)
    (x1 : jsonIsHex h1 = true) (x2 : jsonIsHex h2 = true) (x3 : jsonIsHex h3 = true)
    (x4 : jsonIsHex h4 = true) :
    jsonScanString (92 :: 117 :: h1 :: h2 :: h3 :: h4 :: rest) =
      (jsonScanString rest).map fun r => (92 :: 117 :: h1 :: h2 :: h3 :: h4 :: r.1, r.2) := by
  rw [jsonScanString.eq_def]
  simp [x1, x2, x3, x4]

/-- The scanner passes over bytes that are neither a quote, a backslash nor
a control byte. -/
theorem jsonScanString_plain_append (chunk tail : Bytes)
    (h : ∀ x ∈ chunk, 32 ≤ x ∧ x ≠ 34 ∧ x ≠ 92) :
    jsonScanString (chunk ++ tail) =
      (jsonScanString tail).map fun r => (chunk ++ r.1, r.2) := by
  induction chunk with
  | nil => simp
  | cons c cs ih =>
    have hc := h c (by simp)
    have ih' := ih (fun x hx => h x (by simp [hx]))
    rw [List.cons_append, jsonScanString_plain c _ hc.2.1 hc.2.2 (by omega), ih']
    cases jsonScanString tail <;> simp

/-- The scanner accepts the escape written for an ASCII byte. -/
theorem jsonScanString_escape (b : Nat) (tail : Bytes) (hb : b < 0x80) :
    jsonScanString (jsonEscapeByte b ++ tail) =
      (jsonScanString tail).map fun r => (jsonEscapeByte b ++ r.1, r.2) := by
  have hx1 := jsonIsHex_jsonHex (b / 16) (by omega)
  have hx2 := jsonIsHex_jsonHex (b % 16) (by omega)
  unfold jsonEscapeByte
  split_ifs with h1 h2 h3 h4 h5 h6
  · rw [List.cons_append, List.cons_append, List.nil_append,
      jsonScanString_simple_escape b tail (by omega)]
    rfl
  · exact jsonScanString_simple_escape 98 tail (by omega)
  · exact jsonScanString_simple_escape 102 tail (by omega)
  · exact jsonScanString_simple_escape 110 tail (by omega)
  · exact jsonScanString_simple_escape 114 tail (by omega)
  · exact jsonScanString_simple_escape 116 tail (by omega)
  · exact jsonScanString_u_escape 48 48 _ _ tail (by decide) (by decide) hx1 hx2

/-- What `json.Marshal` writes between the quotes is a well-formed JSON string
body: the scanner reads exactly it up to the closing quote. -/
theorem jsonStringBody_scans (fuel : Nat) : ∀ (s tail : Bytes), s.length ≤ fuel →
    jsonScanString (jsonStringBody fuel s ++ 34 :: tail) = some (jsonStringBody fuel s, tail) := by
  induction fuel with
  | zero =>
    intro s tail hs
    have : s = [] := by cases s <;> simp_all
    subst this
    simp [jsonStringBody, jsonScanString_quote]
  | succ n ih =>
    intro s tail hs
    cases s with
    | nil => simp [jsonStringBody, jsonScanString_quote]
    | cons b rest =>
      have hrest : rest.length ≤ n := by simpa using hs
      have hdrop : ∀ k, (rest.drop k).length ≤ n := fun k => by
        rw [List.length_drop]; omega
      simp only [jsonStringBody]
      split_ifs with h1 h2 h3 h4
      · -- a byte written as it is
        have hb : 32 ≤ b ∧ ¬ b = 34 ∧ ¬ b = 92 := by
          simp [jsonHtmlSafe] at h2
          omega
        rw [List.cons_append, jsonScanString_plain b _ hb.2.1 hb.2.2 (by omega), ih rest tail hrest]
        rfl
      · rw [List.append_assoc, jsonScanString_escape b _ h1, ih rest tail hrest]
        rfl
      · rw [bytesOf_ufffd]
        simp only [List.cons_append, List.nil_append]
        rw [jsonScanString_u_escape _ _ _ _ _ (by decide) (by decide) (by decide) (by decide),
          ih rest tail hrest]
        rfl
      · simp only [List.cons_append, List.nil_append]
        rw [jsonScanString_u_escape _ _ _ _ _ (by decide) (by decide) (by decide)
          (jsonIsHex_jsonHex _ (Nat.mod_lt _ (by decide))), ih _ tail (hdrop _)]
        rfl
      · rw [List.append_assoc, jsonScanString_plain_append, ih _ tail (hdrop _)]
        · rfl
        · intro x hx
          have := utf8DecodeRune_take_ge b rest h1 h3 x hx
          omega

/-- What `json.Marshal` writes between the quotes holds no control byte. -/
theorem jsonStringBody_no_control (fuel : Nat) : ∀ (s : Bytes),
    ∀ x ∈ jsonStringBody fuel s, 32 ≤ x := by
  induction fuel with
  | zero => intro s x hx; simp [jsonStringBody] at hx
  | succ n ih =>
    intro s x hx
    cases s with
    | nil => simp [jsonStringBody] at hx
    | cons b rest =>
      simp only [jsonStringBody] at hx
      split_ifs at hx with h1 h2 h3 h4
      · rcases List.mem_cons.1 hx with h | h
        · subst h
          simp [jsonHtmlSafe] at h2
          omega
        · exact ih _ _ h
      · rcases List.mem_append.1 hx with h | h
        · have g1 := jsonHex_ge (b / 16) (by omega)
          have g2 := jsonHex_ge (b % 16) (by omega)
          unfold jsonEscapeByte at h
          split_ifs at h <;> simp at h <;> omega
        · exact ih _ _ h
      · rcases List.mem_append.1 hx with h | h
        · rw [bytesOf_ufffd] at h
          simp at h
          omega
        · exact ih _ _ h
      · rcases List.mem_append.1 hx with h | h
        · have g := jsonHex_ge ((utf8DecodeRune (b :: rest)).1 % 16) (Nat.mod_lt _ (by decide))
          simp at h
          omega
        · exact ih _ _ h
      · rcases List.mem_append.1 hx with h | h
        · have := utf8DecodeRune_take_ge b rest h1 h3 x h
          omega
        · exact ih _ _ h

theorem jsonEscapeByte_length (b : Nat) : 2 ≤ (jsonEscapeByte b).length := by
  unfold jsonEscapeByte
  split_ifs <;> simp

/-- Escaping never shortens a string. -/
theorem jsonStringBody_length (fuel : Nat) : ∀ s : Bytes, s.length ≤ fuel →
    s.length ≤ (jsonStringBody fuel s).length := by
  induction fuel with
  | zero => intro s hs; omega
  | succ n ih =>
    intro s hs
    cases s with
    | nil => simp
    | cons b rest =>
      have hrest : rest.length ≤ n := by simpa using hs
      have hsz := utf8DecodeRune_size b rest
      have hdrop : ∀ k, (rest.drop k).length ≤ n := fun k => by
        rw [List.length_drop]; omega
      simp only [jsonStringBody]
      split_ifs with h1 h2 h3 h4
      · have := ih rest hrest
        simp only [List.length_cons]; omega
      · have := ih rest hrest
        have := jsonEscapeByte_length b
        simp only [List.length_cons, List.length_append]; omega
      · have := ih rest hrest
        rw [bytesOf_ufffd]
        simp only [List.length_cons, List.length_append, List.length_nil]; omega
      · have := ih _ (hdrop ((utf8DecodeRune (b :: rest)).2 - 1))
        rw [List.length_drop] at this
        simp only [List.length_cons, List.length_append, List.length_nil]; omega
      · have := ih _ (hdrop ((utf8DecodeRune (b :: rest)).2 - 1))
        rw [List.length_drop] at this
        simp only [List.length_cons, List.length_append, List.length_take]
        omega

theorem take_append_drop_pred (b : Nat) (rest : Bytes) (k : Nat) (hk : 1 ≤ k) :
    (b :: rest).take k ++ rest.drop (k - 1) = b :: rest := by
  obtain ⟨j, rfl⟩ : ∃ j, k = j + 1 := ⟨k - 1, by omega⟩
  simp

/-- `json.Marshal` writes a string between the quotes unchanged exactly when
the string is plain. -/
theorem jsonStringBody_eq_self_iff (fuel : Nat) : ∀ s : Bytes, s.length ≤ fuel →
    (jsonStringBody fuel s = s ↔ jsonPlain fuel s = true) := by
  induction fuel with
  | zero =>
    intro s hs
    have : s = [] := by cases s <;> simp_all
    subst this
    simp [jsonStringBody, jsonPlain]
  | succ n ih =>
    intro s hs
    cases s with
    | nil => simp [jsonStringBody, jsonPlain]
    | cons b rest =>
      have hrest : rest.length ≤ n := by simpa using hs
      have hsz := utf8DecodeRune_size b rest
      have hdrop : ∀ k, (rest.drop k).length ≤ n := fun k => by
        rw [List.length_drop]; omega
      simp only [jsonStringBody, jsonPlain]
      split_ifs with h1 h2 h3 h4
      · simp [h2, ih rest hrest]
      · have hl := jsonStringBody_length n rest hrest
        have he := jsonEscapeByte_length b
        simp only [h2, Bool.false_and]
        constructor
        · intro h
          have := congrArg List.length h
          simp only [List.length_cons, List.length_append] at this
          omega
        · intro h; simp at h
      · have hl := jsonStringBody_length n rest hrest
        constructor
        · intro h
          have := congrArg List.length h
          rw [bytesOf_ufffd] at this
          simp only [List.length_cons, List.length_append, List.length_nil] at this
          omega
        · intro h; simp [h3] at h
      · have hl := jsonStringBody_length n _ (hdrop ((utf8DecodeRune (b :: rest)).2 - 1))
        rw [List.length_drop] at hl
        constructor
        · intro h
          have := congrArg List.length h
          simp only [List.length_cons, List.length_append, List.length_nil] at this
          omega
        · intro h; simp [h4] at h
      · have hsplit := take_append_drop_pred b rest _ hsz.1
        constructor
        · intro h
          have h' : jsonStringBody n (rest.drop ((utf8DecodeRune (b :: rest)).2 - 1)) =
              rest.drop ((utf8DecodeRune (b :: rest)).2 - 1) := by
            have := h.trans hsplit.symm
            exact List.append_cancel_left this
          have := (ih _ (hdrop _)).1 h'
          simp [h3, h4, this]
        · intro h
          have hp : jsonPlain n (rest.drop ((utf8DecodeRune (b :: rest)).2 - 1)) = true := by
            simp only [Bool.and_eq_true] at h
            exact h.2
          rw [(ih _ (hdrop _)).2 hp]
          exact hsplit

/-! ## Unquoting: helper facts -/

theorem jsonHexVal_jsonHex (n : Nat) (h : n < 16) : jsonHexVal (jsonHex n) = n := by
  revert n
  decide

theorem jsonGetu4_eq (h1 h2 h3 h4 : Nat) (t : Bytes) (x1 : jsonIsHex h1 = true)
    (x2 : jsonIsHex h2 = true) (x3 : jsonIsHex h3 = true) (x4 : jsonIsHex h4 = true) :
    jsonGetu4 (92 :: 117 :: h1 :: h2 :: h3 :: h4 :: t) =
      some (jsonHexVal h1 * 4096 + jsonHexVal h2 * 256 + jsonHexVal h3 * 16 + jsonHexVal h4) := by
  simp [jsonGetu4, x1, x2, x3, x4]

theorem jsonUnquoteBody_cons (k c : Nat) (rest out left : Bytes)
    (h : jsonUnquoteStep c rest = some (out, left)) :
    jsonUnquoteBody (k + 1) (c :: rest) = (jsonUnquoteBody k left).map (out ++ ·) := by
  rw [jsonUnquoteBody, h]

theorem jsonUnquoteStep_plain (c : Nat) (t : Bytes) (h1 : ¬ c = 92) (h2 : ¬ c = 34)
    (h3 : ¬ c < 32) (h4 : c < 0x80) : jsonUnquoteStep c t = some ([c], t) := by
  unfold jsonUnquoteStep
  rw [if_neg h1, if_neg (by omega), if_pos h4]

theorem jsonUnquoteStep_simple_escape (e d : Nat) (t : Bytes)
    (h : (e = 34 ∧ d = 34) ∨ (e = 92 ∧ d = 92) ∨ (e = 98 ∧ d = 8) ∨ (e = 102 ∧ d = 12) ∨
      (e = 110 ∧ d = 10) ∨ (e = 114 ∧ d = 13) ∨ (e = 116 ∧ d = 9)) :
    jsonUnquoteStep 92 (e :: t) = some ([d], t) := by
  unfold jsonUnquoteStep
  rcases h with h | h | h | h | h | h | h <;> obtain ⟨rfl, rfl⟩ := h <;> simp

theorem jsonUnquoteStep_u_escape (h1 h2 h3 h4 : Nat) (t : Bytes) (x1 : jsonIsHex h1 = true)
    (x2 : jsonIsHex h2 = true) (x3 : jsonIsHex h3 = true) (x4 : jsonIsHex h4 = true)
    (hs : ¬ (0xD800 ≤ jsonHexVal h1 * 4096 + jsonHexVal h2 * 256 + jsonHexVal h3 * 16 +
      jsonHexVal h4 ∧ jsonHexVal h1 * 4096 + jsonHexVal h2 * 256 + jsonHexVal h3 * 16 +
      jsonHexVal h4 < 0xE000)) :
    jsonUnquoteStep 92 (117 :: h1 :: h2 :: h3 :: h4 :: t) =
      some (utf8EncodeRune (jsonHexVal h1 * 4096 + jsonHexVal h2 * 256 + jsonHexVal h3 * 16 +
          jsonHexVal h4), t) := by
  unfold jsonUnquoteStep
  simp only [jsonGetu4_eq h1 h2 h3 h4 t x1 x2 x3 x4]
  simp [hs]

theorem jsonUnquoteBody_cons_single (k c d : Nat) (rest left : Bytes)
    (h : jsonUnquoteStep c rest = some ([d], left)) :
    jsonUnquoteBody (k + 1) (c :: rest) = (jsonUnquoteBody k left).map (d :: ·) := by
  rw [jsonUnquoteBody, h]
  rfl

theorem jsonUnquoteStep_escape (b : Nat) (t : Bytes) (hb : b < 0x80) :
    ∃ rest, jsonEscapeByte b ++ t = 92 :: rest ∧ jsonUnquoteStep 92 rest = some ([b], t) := by
  have hx1 := jsonIsHex_jsonHex (b / 16) (by omega)
  have hx2 := jsonIsHex_jsonHex (b % 16) (by omega)
  have hv1 := jsonHexVal_jsonHex (b / 16) (by omega)
  have hv2 := jsonHexVal_jsonHex (b % 16) (by omega)
  unfold jsonEscapeByte
  split_ifs with h1 h2 h3 h4 h5 h6
  · rcases h1 with rfl | rfl
    · exact ⟨92 :: t, rfl, jsonUnquoteStep_simple_escape 92 92 t (Or.inr (Or.inl ⟨rfl, rfl⟩))⟩
    · exact ⟨34 :: t, rfl, jsonUnquoteStep_simple_escape 34 34 t (Or.inl ⟨rfl, rfl⟩)⟩
  · subst h2
    exact ⟨98 :: t, rfl, jsonUnquoteStep_simple_escape 98 8 t
      (Or.inr (Or.inr (Or.inl ⟨rfl, rfl⟩)))⟩
  · subst h3
    exact ⟨102 :: t, rfl, jsonUnquoteStep_simple_escape 102 12 t
      (Or.inr (Or.inr (Or.inr (Or.inl ⟨rfl, rfl⟩))))⟩
  · subst h4
    exact ⟨110 :: t, rfl, jsonUnquoteStep_simple_escape 110 10 t
      (Or.inr (Or.inr (Or.inr (Or.inr (Or.inl ⟨rfl, rfl⟩)))))⟩
  · subst h5
    exact ⟨114 :: t, rfl, jsonUnquoteStep_simple_escape 114 13 t
      (Or.inr (Or.inr (Or.inr (Or.inr (Or.inr (Or.inl ⟨rfl, rfl⟩))))))⟩
  · subst h6
    exact ⟨116 :: t, rfl, jsonUnquoteStep_simple_escape 116 9 t
      (Or.inr (Or.inr (Or.inr (Or.inr (Or.inr (Or.inr ⟨rfl, rfl⟩))))))⟩
  · have h0 : jsonHexVal 48 = 0 := by decide
    have hstep := jsonUnquoteStep_u_escape 48 48 (jsonHex (b / 16)) (jsonHex (b % 16)) t
      (by decide) (by decide) hx1 hx2 (by rw [h0, hv1, hv2]; omega)
    rw [h0, hv1, hv2] at hstep
    have hval : 0 * 4096 + 0 * 256 + b / 16 * 16 + b % 16 = b := by omega
    rw [hval] at hstep
    have henc : utf8EncodeRune b = [b] := by
      unfold utf8EncodeRune
      rw [if_pos hb]
    rw [henc] at hstep
    exact ⟨_, rfl, hstep⟩

/-- Unquoting the escape written for an ASCII byte gives the byte. -/
theorem jsonUnquoteBody_escape (k b : Nat) (t : Bytes) (hb : b < 0x80) :
    jsonUnquoteBody (k + 1) (jsonEscapeByte b ++ t) = (jsonUnquoteBody k t).map (b :: ·) := by
  obtain ⟨rest, he, hs⟩ := jsonUnquoteStep_escape b t hb
  rw [he, jsonUnquoteBody_cons_single k 92 b rest t hs]

theorem jsonUnquoteStep_rune {chunk : Bytes} {c : Nat} (h : Utf8Rune chunk c) (tail : Bytes) :
    ∃ c0 cs, chunk = c0 :: cs ∧ jsonUnquoteStep c0 (cs ++ tail) = some (chunk, tail) := by
  have hd := utf8DecodeRune_of_rune h tail
  have he := utf8EncodeRune_of_rune h
  have hb := Utf8Rune_bytes h
  rcases chunk with _ | ⟨c0, cs⟩
  · simp at hb
  · refine ⟨c0, cs, rfl, ?_⟩
    have h0 : 0x80 ≤ c0 := hb.1 c0 (by simp)
    unfold jsonUnquoteStep
    rw [if_neg (by omega), if_neg (by omega), if_neg (by omega)]
    rw [List.cons_append] at hd
    rw [hd]
    simp only [he, List.length_cons, Nat.add_sub_cancel, List.drop_left]

theorem jsonUnquoteBody_nil (k : Nat) : jsonUnquoteBody k [] = some [] := by
  cases k <;> rfl

/-- Unquoting what `json.Marshal` wrote between the quotes for a valid UTF-8
string gives the string back. -/
theorem jsonUnquoteBody_stringBody (fuel : Nat) : ∀ (s : Bytes) (k : Nat), s.length ≤ fuel →
    utf8Valid fuel s = true → (jsonStringBody fuel s).length ≤ k →
    jsonUnquoteBody k (jsonStringBody fuel s) = some s := by
  induction fuel with
  | zero =>
    intro s k hs _ _
    have : s = [] := by cases s <;> simp_all
    subst this
    simp [jsonStringBody, jsonUnquoteBody_nil]
  | succ n ih =>
    intro s k hs hv hk
    cases s with
    | nil => simp [jsonStringBody, jsonUnquoteBody_nil]
    | cons b rest =>
      have hrest : rest.length ≤ n := by simpa using hs
      simp only [utf8Valid] at hv
      simp only [jsonStringBody] at hk ⊢
      by_cases h1 : b < 0x80
      · rw [if_pos h1] at hv hk ⊢
        by_cases h2 : jsonHtmlSafe b = true
        · rw [if_pos h2] at hk ⊢
          obtain ⟨k', rfl⟩ : ∃ k', k = k' + 1 := ⟨k - 1, by simp at hk; omega⟩
          have hb : 32 ≤ b ∧ ¬ b = 34 ∧ ¬ b = 92 := by
            simp [jsonHtmlSafe] at h2
            omega
          rw [jsonUnquoteBody_cons_single k' b b _ _
            (jsonUnquoteStep_plain b _ hb.2.2 hb.2.1 (by omega) h1),
            ih rest k' hrest hv (by simp at hk; omega)]
          rfl
        · rw [if_neg h2] at hk ⊢
          have hl := jsonEscapeByte_length b
          obtain ⟨k', rfl⟩ : ∃ k', k = k' + 1 := ⟨k - 1, by simp at hk; omega⟩
          rw [jsonUnquoteBody_escape k' b _ h1,
            ih rest k' hrest hv (by simp at hk; omega)]
          rfl
      · rw [if_neg h1] at hv hk ⊢
        simp only [Bool.and_eq_true, Bool.not_eq_true', decide_eq_false_iff_not] at hv
        obtain ⟨hne, hvt⟩ := hv
        obtain ⟨chunk, tail, c, hsplit, hrune, hdec⟩ := utf8DecodeRune_valid b rest h1 hne
        have hbytes := Utf8Rune_bytes hrune
        obtain ⟨c0, cs, hchunk, hstep⟩ := jsonUnquoteStep_rune hrune (jsonStringBody n tail)
        have hrest' : rest = cs ++ tail := by
          rw [hchunk] at hsplit
          simpa using (List.cons.inj hsplit).2
        have hcs : chunk.length - 1 = cs.length := by rw [hchunk]; simp
        have htail : rest.drop (chunk.length - 1) = tail := by
          rw [hcs, hrest', List.drop_left]
        have htake : (b :: rest).take chunk.length = chunk := by
          rw [hsplit, List.take_left]
        have htl : tail.length ≤ n := by
          rw [← htail, List.length_drop]; omega
        rw [hdec] at hvt hk ⊢
        simp only [htail, htake] at hvt hk ⊢
        rw [if_neg (by omega)] at hk ⊢
        by_cases h4 : c = 0x2028 ∨ c = 0x2029
        · rw [if_pos h4] at hk ⊢
          obtain ⟨k', rfl⟩ : ∃ k', k = k' + 1 := ⟨k - 1, by simp at hk; omega⟩
          have hx : jsonIsHex (jsonHex (c % 16)) = true :=
            jsonIsHex_jsonHex _ (Nat.mod_lt _ (by decide))
          have hval : jsonHexVal 50 * 4096 + jsonHexVal 48 * 256 + jsonHexVal 50 * 16 +
              jsonHexVal (jsonHex (c % 16)) = c := by
            rw [jsonHexVal_jsonHex _ (Nat.mod_lt _ (by decide))]
            have h50 : jsonHexVal 50 = 2 := by decide
            have h48 : jsonHexVal 48 = 0 := by decide
            rw [h50, h48]
            omega
          have hu := jsonUnquoteStep_u_escape 50 48 50 (jsonHex (c % 16)) (jsonStringBody n tail)
            (by decide) (by decide) (by decide) hx (by rw [hval]; omega)
          rw [hval, utf8EncodeRune_of_rune hrune] at hu
          simp only [List.cons_append, List.nil_append]
          rw [jsonUnquoteBody_cons k' 92 _ chunk _ hu,
            ih tail k' htl hvt (by simp at hk; omega), hsplit]
          rfl
        · rw [if_neg h4] at hk ⊢
          obtain ⟨k', rfl⟩ : ∃ k', k = k' + 1 := ⟨k - 1, by
            simp only [List.length_append] at hk; omega⟩
          rw [hchunk, List.cons_append,
            jsonUnquoteBody_cons k' c0 _ chunk _ hstep,
            ih tail k' htl hvt (by simp only [List.length_append] at hk; omega), hsplit]
          rfl

/-- A valid UTF-8 string read back from its JSON encoding: the library's
unquoting of what `json.Marshal` wrote gives the string. -/
theorem jsonUnquote_jsonStringBody (s : Bytes) (hv : utf8Valid s.length s = true) :
    jsonUnquote (jsonStringBody s.length s) = some s :=
  jsonUnquoteBody_stringBody s.length s _ (le_refl _) hv (le_refl _)

/-! ## Shape sniffers: helper facts -/

theorem isArray_ne_nil {data : Bytes} (h : isArray data = true) : data.length ≠ 0 := by
  intro h0
  simp [isArray, h0] at h

theorem isArray_first {data : Bytes} (h : isArray data = true) : data.getD 0 0 = 91 := by
  unfold isArray at h
  split at h
  · simp at h
  · split at h
    · simp at h
    · rename_i h2; omega

theorem isArray_last {data : Bytes} (h : isArray data = true) :
    data.getD (data.length - 1) 0 = 93 := by
  unfold isArray at h
  split at h
  · simp at h
  · split at h
    · simp at h
    · rename_i h2; omega

theorem isString_false_of_isArray {data : Bytes} (h : isArray data = true) :
    isString data = false := by
  have h1 := isArray_first h
  unfold isString
  rw [h1]
  simp

theorem jsonSkipSpace_of_head {c : Nat} {rest : Bytes} (h : jsonIsSpace c = false) :
    jsonSkipSpace (c :: rest) = c :: rest := by
  simp [jsonSkipSpace, h]

theorem jsonValueText_of_isArray {data : Bytes} (h : isArray data = true) :
    jsonValueText data = data := by
  have h1 := isArray_first h
  have h2 := isArray_last h
  have h0 := isArray_ne_nil h
  cases data with
  | nil => simp at h0
  | cons c rest =>
    have hc : c = 91 := by simpa using h1
    subst hc
    have hs : jsonSkipSpace (91 :: rest) = 91 :: rest := jsonSkipSpace_of_head (by decide)
    unfold jsonValueText
    rw [hs]
    have hr : ∃ l, (91 :: rest).reverse = 93 :: l := by
      have hne : (91 :: rest) ≠ [] := by simp
      have hl : (91 :: rest).getLast hne = 93 := by
        rw [List.getLast_eq_getElem]
        rw [List.getD_eq_getElem _ _ (by simp)] at h2
        exact h2
      refine ⟨((91 :: rest).dropLast).reverse, ?_⟩
      have := List.dropLast_append_getLast hne
      rw [hl] at this
      conv_lhs => rw [← this]
      simp
    obtain ⟨l, hl⟩ := hr
    rw [hl, jsonSkipSpace_of_head (by decide), ← hl, List.reverse_reverse]

/-! ## Decoding a quoted text: helper facts -/

theorem quoted_unwrap (body : Bytes) :
    (34 :: (body ++ [34])).length ≠ 0 ∧ (34 :: (body ++ [34])).getD 0 0 = 34 ∧
      (34 :: (body ++ [34])).getD ((34 :: (body ++ [34])).length - 1) 0 = 34 ∧
      goSlice (34 :: (body ++ [34])) 1 ((34 :: (body ++ [34])).length - 1) = some body := by
  refine ⟨by simp, by simp, ?_, ?_⟩
  · have : (34 :: (body ++ [34])).length - 1 = (34 :: body).length := by simp
    rw [this, ← List.cons_append, List.getD_eq_getElem?_getD, List.getElem?_append_right (le_refl _)]
    simp
  · unfold goSlice
    have : (34 :: (body ++ [34])).length - 1 = body.length + 1 := by simp
    rw [this]
    simp

theorem isString_quoted (body : Bytes) : isString (34 :: (body ++ [34])) = true := by
  obtain ⟨h0, h1, h2, _⟩ := quoted_unwrap body
  unfold isString
  rw [h1, h2]
  simp

/-- Decoding what `json.Marshal` wrote for a string gives the text between the
quotes, escapes included. -/
theorem StringOrBool_UnmarshalJSON_quoted (s : StringOrBool) (body : Bytes) :
    StringOrBool.UnmarshalJSON s (34 :: (body ++ [34])) =
      .ret ({ s with isBool := false, stringValue := body }, none) := by
  obtain ⟨h0, h1, h2, h3⟩ := quoted_unwrap body
  unfold StringOrBool.UnmarshalJSON
  have hf : ¬ (34 :: (body ++ [34])) = bytesOf "false" := by
    intro h
    have h' : some 34 = (bytesOf "false").head? := congrArg List.head? h
    revert h'
    decide
  have ht : ¬ (34 :: (body ++ [34])) = bytesOf "true" := by
    intro h
    have h' : some 34 = (bytesOf "true").head? := congrArg List.head? h
    revert h'
    decide
  rw [if_neg h0, if_neg hf, if_neg ht, h1, h2, h3]
  simp [doubleQuote]

theorem StringOrBool_roundtrip_text_iff (s : Bytes) :
    StringOrBool.UnmarshalJSON {} (StringOrBool.MarshalJSON (StringOrBool.Text s)).1 =
      .ret (StringOrBool.Text s, none) ↔ jsonStringBody s.length s = s := by
  have : (StringOrBool.MarshalJSON (StringOrBool.Text s)).1 =
      34 :: (jsonStringBody s.length s ++ [34]) := rfl
  rw [this, StringOrBool_UnmarshalJSON_quoted]
  simp [StringOrBool.Text]

theorem StringOrSlice_UnmarshalJSON_quoted (fuel : Nat) (s : StringOrSlice) (body : Bytes) :
    StringOrSlice.UnmarshalJSON (fuel + 1) s (34 :: (body ++ [34])) = .ret ([body], none) := by
  obtain ⟨h0, h1, h2, h3⟩ := quoted_unwrap body
  unfold StringOrSlice.UnmarshalJSON
  rw [if_neg h0, isString_quoted, h3]
  simp

theorem StringOrSlice_roundtrip_single_iff (fuel fuel' : Nat) (e : Bytes) :
    (∃ b, StringOrSlice.MarshalJSON fuel [e] = .ret (b, none) ∧
        StringOrSlice.UnmarshalJSON fuel' [] b = .ret ([e], none)) ↔
      (0 < fuel ∧ 0 < fuel' ∧ jsonStringBody e.length e = e) := by
  cases fuel with
  | zero => simp [StringOrSlice.MarshalJSON]
  | succ n =>
    have hm : StringOrSlice.MarshalJSON (n + 1) [e] =
        .ret (34 :: (jsonStringBody e.length e ++ [34]), none) := by
      simp [StringOrSlice.MarshalJSON, jsonMarshalString]
    cases fuel' with
    | zero => simp [StringOrSlice.UnmarshalJSON]
    | succ m =>
      rw [hm]
      constructor
      · rintro ⟨b, hb, hu⟩
        have hb' : b = 34 :: (jsonStringBody e.length e ++ [34]) := by
          simp at hb; exact hb.symm
        subst hb'
        rw [StringOrSlice_UnmarshalJSON_quoted] at hu
        simp at hu
        exact ⟨by omega, by omega, hu⟩
      · rintro ⟨_, _, h⟩
        refine ⟨_, rfl, ?_⟩
        rw [StringOrSlice_UnmarshalJSON_quoted, h]

/-- Away from the one-byte input `"`, `StringOrBool.UnmarshalJSON` is the
function the specification describes. -/
theorem StringOrBool_UnmarshalJSON_cases (s : StringOrBool) (data : Bytes)
    (h0 : data ≠ []) (h1 : data ≠ [34]) :
    StringOrBool.UnmarshalJSON s data =
      if data = bytesOf "false" then .ret ({ s with isBool := true, boolValue := false }, none)
      else if data = bytesOf "true" then .ret ({ s with isBool := true, boolValue := true }, none)
      else if 2 ≤ data.length ∧ data.head? = some 34 ∧ data.getLast? = some 34 then
        .ret ({ s with isBool := false, stringValue := (data.take (data.length - 1)).drop 1 }, none)
      else .ret (s, some "invalid value, must be type string or bool") := by
  unfold StringOrBool.UnmarshalJSON
  have hlen : ¬ data.length = 0 := by
    intro h; exact h0 (List.length_eq_zero.1 h)
  rw [if_neg hlen]
  by_cases hf : data = bytesOf "false"
  · rw [if_pos hf, if_pos hf]
  rw [if_neg hf, if_neg hf]
  by_cases ht : data = bytesOf "true"
  · rw [if_pos ht, if_pos ht]
  rw [if_neg ht, if_neg ht]
  have hhead : data.head? = some (data.getD 0 0) := by
    cases data with
    | nil => exact absurd rfl h0
    | cons c r => simp
  have hlast : data.getLast? = some (data.getD (data.length - 1) 0) := by
    rw [List.getLast?_eq_getElem?, List.getD_eq_getElem?_getD]
    have : data.length - 1 < data.length := by omega
    rw [List.getElem?_eq_getElem this]
    simp
  by_cases hq : data.getD 0 0 = doubleQuote ∧ data.getD (data.length - 1) 0 = doubleQuote
  · have h2 : 2 ≤ data.length := by
      rcases data with _ | ⟨c, _ | ⟨d, r⟩⟩
      · exact absurd rfl h0
      · exfalso
        apply h1
        have := hq.1
        simp [doubleQuote] at this
        rw [this]
      · simp
    have hg : goSlice data 1 (data.length - 1) = some ((data.take (data.length - 1)).drop 1) := by
      unfold goSlice
      rw [if_pos ⟨by omega, by omega⟩]
    rw [if_pos hq, hg, if_pos]
    refine ⟨h2, ?_, ?_⟩
    · rw [hhead, hq.1]; rfl
    · rw [hlast, hq.2]; rfl
  · rw [if_neg hq, if_neg]
    rintro ⟨_, a, b⟩
    apply hq
    rw [hhead] at a
    rw [hlast] at b
    exact ⟨by simpa [doubleQuote] using a, by simpa [doubleQuote] using b⟩

/-! ## The repository's tests, replayed on the embedding -/

/-- The five cases of `TestStringOrBool_MarshalJSON`. -/
theorem test_StringOrBool_MarshalJSON :
    StringOrBool.MarshalJSON { isBool := true, boolValue := false, stringValue := [] } =
        (bytesOf "false", none) ∧
      StringOrBool.MarshalJSON { isBool := true, boolValue := true, stringValue := [] } =
        (bytesOf "true", none) ∧
      StringOrBool.MarshalJSON
          { isBool := false, boolValue := false, stringValue := bytesOf "simple" } =
        (bytesOf "\"simple\"", none) ∧
      StringOrBool.MarshalJSON
          { isBool := false, boolValue := false,
            stringValue := bytesOf "Escape this \" if you can." } =
        (bytesOf "\"Escape this \\\" if you can.\"", none) ∧
      StringOrBool.MarshalJSON { isBool := false, boolValue := false, stringValue := [] } =
        (bytesOf "\"\"", none) := by
  decide

/-- The five cases of `TestStringOrBool_UnmarshalJSON`; the escaped quote
keeps its backslash. -/
theorem test_StringOrBool_UnmarshalJSON :
    StringOrBool.UnmarshalJSON {} (bytesOf "false") =
        .ret ({ isBool := true, boolValue := false, stringValue := [] }, none) ∧
      StringOrBool.UnmarshalJSON {} (bytesOf "true") =
        .ret ({ isBool := true, boolValue := true, stringValue := [] }, none) ∧
      StringOrBool.UnmarshalJSON {} (bytesOf "\"simple\"") =
        .ret ({ isBool := false, boolValue := false, stringValue := bytesOf "simple" }, none) ∧
      StringOrBool.UnmarshalJSON {} (bytesOf "\"Escape this \\\" if you can.\"") =
        .ret ({ isBool := false, boolValue := false,
                stringValue := bytesOf "Escape this \\\" if you can." }, none) ∧
      StringOrBool.UnmarshalJSON {} (bytesOf "\"\"") =
        .ret ({ isBool := false, boolValue := false, stringValue := [] }, none) := by
  decide

/-! ## StringOrSlice -/

/-- C1, as amended: for the empty list, and for a one-element list whose
element `json.Marshal` writes without any escape, `UnmarshalJSON` on a fresh
value with the bytes returned by `MarshalJSON` succeeds and gives the list
back; for a one-element list the round trip gives the list back only then. -/
theorem StringOrSlice_roundtrip_plain (fuel fuel' : Nat) (e : Bytes) :
    (∃ b, StringOrSlice.MarshalJSON (fuel + 1) [] = .ret (b, none) ∧
        StringOrSlice.UnmarshalJSON (fuel' + 1) [] b = .ret ([], none)) ∧
      ((∃ b, StringOrSlice.MarshalJSON (fuel + 1) [e] = .ret (b, none) ∧
          StringOrSlice.UnmarshalJSON (fuel' + 1) [] b = .ret ([e], none)) ↔
        jsonPlain e.length e = true) := by
  constructor
  · exact ⟨[], by simp [StringOrSlice.MarshalJSON], by simp [StringOrSlice.UnmarshalJSON]⟩
  · rw [StringOrSlice_roundtrip_single_iff, jsonStringBody_eq_self_iff _ _ (le_refl _)]
    simp

/-- C1, as stated, fails on the one-element list holding a double quote:
`MarshalJSON` writes the quote escaped and `UnmarshalJSON` keeps the escape,
whatever the recursion budgets. -/
theorem StringOrSlice_roundtrip_fails_on_quote :
    ¬ ∃ fuel fuel' b, StringOrSlice.MarshalJSON fuel [bytesOf "\""] = .ret (b, none) ∧
        StringOrSlice.UnmarshalJSON fuel' [] b = .ret ([bytesOf "\""], none) := by
  rintro ⟨fuel, fuel', h⟩
  have h3 := ((StringOrSlice_roundtrip_single_iff fuel fuel' (bytesOf "\"")).1 h).2.2
  revert h3
  decide

/-- C2: `StringOrSlice.MarshalJSON` returns zero bytes and no error for the
empty list and the JSON string of the element, starting with a quote, for a
one-element list; for two or more elements it never returns: whatever the
budget, the re-entry through `json.Marshal(s)` exhausts it. -/
theorem StringOrSlice_MarshalJSON_cases (fuel : Nat) (a b : Bytes) (rest : List Bytes) :
    StringOrSlice.MarshalJSON (fuel + 1) [] = .ret ([], none) ∧
      StringOrSlice.MarshalJSON (fuel + 1) [a] = .ret (jsonMarshalString a, none) ∧
      (jsonMarshalString a).head? = some 34 ∧
      StringOrSlice.MarshalJSON fuel (a :: b :: rest) = .outOfFuel := by
  refine ⟨by simp [StringOrSlice.MarshalJSON], by simp [StringOrSlice.MarshalJSON], rfl, ?_⟩
  induction fuel with
  | zero => rfl
  | succ n ih =>
    unfold StringOrSlice.MarshalJSON
    simp [ih]

/-- C3: on array-shaped input `StringOrSlice.UnmarshalJSON` never returns
without error: if the text is valid JSON the call never returns, whatever the
budget (`json.Unmarshal(data, &s)` hands the same text back to this method),
and if it is not, the call returns the library's syntax error and leaves the
list as it was. -/
theorem StringOrSlice_UnmarshalJSON_array (s : StringOrSlice) (data : Bytes)
    (h : isArray data = true) (fuel : Nat) :
    (jsonValid data = true → StringOrSlice.UnmarshalJSON fuel s data = .outOfFuel) ∧
      (jsonValid data = false →
        StringOrSlice.UnmarshalJSON (fuel + 1) s data = .ret (s, some jsonSyntaxError)) := by
  constructor
  · intro hv
    induction fuel with
    | zero => rfl
    | succ n ih =>
      unfold StringOrSlice.UnmarshalJSON
      simp only [isArray_ne_nil h, isString_false_of_isArray h, h, hv,
        jsonValueText_of_isArray h, ih]
      simp
  · intro hv
    unfold StringOrSlice.UnmarshalJSON
    simp [isArray_ne_nil h, isString_false_of_isArray h, h, hv]

/-- C3 at the specification's example `["MIT", "Apache-2.0"]`: a valid JSON
array, on which the call has not returned after 1000 re-entries. -/
theorem StringOrSlice_UnmarshalJSON_array_witness :
    isArray (bytesOf "[\"MIT\", \"Apache-2.0\"]") = true ∧
      jsonValid (bytesOf "[\"MIT\", \"Apache-2.0\"]") = true ∧
      StringOrSlice.UnmarshalJSON 1000 [] (bytesOf "[\"MIT\", \"Apache-2.0\"]") = .outOfFuel :=
  ⟨by decide, by decide,
    (StringOrSlice_UnmarshalJSON_array [] (bytesOf "[\"MIT\", \"Apache-2.0\"]")
      (by decide) 1000).1 (by decide)⟩

/-! ## StringOrBool -/

/-- C4: on the one-byte input `"` `StringOrBool.UnmarshalJSON` does not
return an error: the first and the last byte are the same quote, and the
slice `data[1:0]` panics. -/
theorem StringOrBool_UnmarshalJSON_lone_quote_panics (s : StringOrBool) :
    StringOrBool.UnmarshalJSON s (bytesOf "\"") = .panic "slice bounds out of range" := by
  rfl

/-- C5: `StringOrBool.MarshalJSON` never fails; with `isBool` set it returns
`true` or `false` according to `boolValue`; with `isBool` unset it returns
`stringValue` between two quotes as `json.Marshal` escapes it: a well-formed
JSON string literal (every quote and backslash inside is part of an escape)
without control bytes, which reads back as `stringValue` when that is valid
UTF-8; the zero value encodes to `""`. -/
theorem StringOrBool_MarshalJSON_encodes (s : StringOrBool) :
    (StringOrBool.MarshalJSON s).2 = none ∧
      (StringOrBool.MarshalJSON s).1 =
        (if s.isBool then (if s.boolValue then bytesOf "true" else bytesOf "false")
         else 34 :: (jsonStringBody s.stringValue.length s.stringValue ++ [34])) ∧
      jsonScanString (jsonStringBody s.stringValue.length s.stringValue ++ [34]) =
        some (jsonStringBody s.stringValue.length s.stringValue, []) ∧
      (∀ x ∈ jsonStringBody s.stringValue.length s.stringValue, 32 ≤ x) ∧
      (utf8Valid s.stringValue.length s.stringValue = true →
        jsonUnquote (jsonStringBody s.stringValue.length s.stringValue) = some s.stringValue) ∧
      (StringOrBool.MarshalJSON {}).1 = bytesOf "\"\"" := by
  refine ⟨?_, ?_, jsonStringBody_scans _ _ [] (le_refl _), jsonStringBody_no_control _ _,
    jsonUnquote_jsonStringBody _, by decide⟩
  · unfold StringOrBool.MarshalJSON
    split <;> rfl
  · unfold StringOrBool.MarshalJSON
    cases s.isBool <;> simp [jsonMarshalBool, jsonMarshalString]

/-- C5 at the text `a"b\c`, a line feed and `é`: valid UTF-8, encoded as
`"a\"b\\c\né"`, and the encoding reads back as the text. -/
theorem StringOrBool_MarshalJSON_encodes_witness :
    utf8Valid (bytesOf "a\"b\\c\n" ++ [0xC3, 0xA9]).length
        (bytesOf "a\"b\\c\n" ++ [0xC3, 0xA9]) = true ∧
      (StringOrBool.MarshalJSON (StringOrBool.Text (bytesOf "a\"b\\c\n" ++ [0xC3, 0xA9]))).1 =
        bytesOf "\"a\\\"b\\\\c\\n" ++ [0xC3, 0xA9, 34] ∧
      jsonUnquote (jsonStringBody (bytesOf "a\"b\\c\n" ++ [0xC3, 0xA9]).length
          (bytesOf "a\"b\\c\n" ++ [0xC3, 0xA9])) =
        some (bytesOf "a\"b\\c\n" ++ [0xC3, 0xA9]) :=
  ⟨by decide, by decide,
    (StringOrBool_MarshalJSON_encodes
      (StringOrBool.Text (bytesOf "a\"b\\c\n" ++ [0xC3, 0xA9]))).2.2.2.2.1 (by decide)⟩

/-- C6, as amended: `Flag(true)` and `Flag(false)` survive the round trip
through `MarshalJSON` and `UnmarshalJSON` on a fresh value, and `Text(s)`
survives it exactly when `json.Marshal` writes `s` without any escape. -/
theorem StringOrBool_roundtrip_plain (b : Bool) (s : Bytes) :
    StringOrBool.UnmarshalJSON {} (StringOrBool.MarshalJSON (StringOrBool.Flag b)).1 =
        .ret (StringOrBool.Flag b, none) ∧
      (StringOrBool.UnmarshalJSON {} (StringOrBool.MarshalJSON (StringOrBool.Text s)).1 =
          .ret (StringOrBool.Text s, none) ↔ jsonPlain s.length s = true) := by
  constructor
  · cases b <;> decide
  · rw [StringOrBool_roundtrip_text_iff, jsonStringBody_eq_self_iff _ _ (le_refl _)]

/-- C6, as stated, fails on `Text` of a double quote: decoding what
`MarshalJSON` returned gives the two bytes `\"`, not the quote. -/
theorem StringOrBool_roundtrip_fails_on_quote :
    StringOrBool.UnmarshalJSON {}
        (StringOrBool.MarshalJSON (StringOrBool.Text (bytesOf "\""))).1 =
        .ret (StringOrBool.Text (bytesOf "\\\""), none) ∧
      StringOrBool.UnmarshalJSON {}
        (StringOrBool.MarshalJSON (StringOrBool.Text (bytesOf "\""))).1 ≠
        .ret (StringOrBool.Text (bytesOf "\""), none) := by
  decide

/-! ## PreferredInstall -/

/-- The object branch of `PreferredInstall.MarshalJSON` ends every pair,
the last one too, with a comma. -/
theorem PreferredInstall_writePairs_comma (n : Nat) (v : Bytes × Bytes) :
    ∀ (i : Nat) (front : List (Bytes × Bytes)), i + front.length < n →
      ∃ out, PreferredInstall.writePairs n i (front ++ [v]) = out ++ [44] := by
  intro i front
  induction front generalizing i with
  | nil =>
    intro h
    refine ⟨jsonMarshalByteSlice v.1 ++ [58] ++ jsonMarshalByteSlice v.2, ?_⟩
    have hi : i < n := by simpa using h
    simp [PreferredInstall.writePairs, hi]
  | cons w ws ih =>
    intro h
    obtain ⟨out, hout⟩ := ih (i + 1) (by simp at h; omega)
    refine ⟨jsonMarshalByteSlice w.1 ++ [58] ++ jsonMarshalByteSlice w.2 ++
      (if i < n then [44] else []) ++ out, ?_⟩
    rw [List.cons_append, PreferredInstall.writePairs, hout]
    simp

/-- Whenever `PreferredInstall.MarshalJSON` takes its object branch, the text
it returns ends in `,}`. -/
theorem PreferredInstall_MarshalJSON_trailing_comma (front : List (Bytes × Bytes))
    (v : Bytes × Bytes) (h : ¬ (front = [] ∧ v.1 = [])) :
    ∃ out, PreferredInstall.MarshalJSON (front ++ [v]) = some (123 :: (out ++ [44, 125]), none) := by
  obtain ⟨out, hout⟩ := PreferredInstall_writePairs_comma (front ++ [v]).length v 0 front
    (by simp)
  refine ⟨out, ?_⟩
  unfold PreferredInstall.MarshalJSON
  have h0 : ¬ (front ++ [v]).length = 0 := by simp
  have h1 : ¬ ((front ++ [v]).length = 1 ∧ ((front ++ [v]).getD 0 ([], [])).1 = []) := by
    rintro ⟨hl, hp⟩
    apply h
    have hf : front = [] := by
      cases front with
      | nil => rfl
      | cons a r => simp at hl
    subst hf
    exact ⟨rfl, by simpa using hp⟩
  rw [if_neg h0, if_neg h1, hout]
  simp

/-- C7: for the one pair `("a", "b")` `PreferredInstall.MarshalJSON` returns
`{"YQ==":"Yg==",}`: the pattern and the value are written in base64
(`json.Marshal` of a `[]byte`), not as their JSON strings, and a comma
follows the last pair too, so the text is not well-formed JSON. -/
theorem PreferredInstall_MarshalJSON_object_malformed :
    PreferredInstall.MarshalJSON [(bytesOf "a", bytesOf "b")] =
        some (bytesOf "\x7b\"YQ==\":\"Yg==\",\x7d", none) ∧
      jsonValid (bytesOf "\x7b\"YQ==\":\"Yg==\",\x7d") = false := by
  decide

/-- C8: `PreferredInstall.MarshalJSON` returns zero bytes and no error for
the empty list; for a single pair with an empty pattern the source has no
result (its loop does not type-check), so no JSON string of the value is
returned. -/
theorem PreferredInstall_MarshalJSON_default_branch (v : Bytes) :
    PreferredInstall.MarshalJSON [] = some ([], none) ∧
      PreferredInstall.MarshalJSON [([], v)] = none := by
  constructor <;> rfl

/-- C9: `PreferredInstall.UnmarshalJSON` returns an error on every non-empty
input, the two documented shapes included: after a successful decode it falls
through to its final `return errors.New(...)`. -/
theorem PreferredInstall_UnmarshalJSON_always_errors (order : GoMap → GoMap)
    (p : PreferredInstall) (c : Nat) (rest : Bytes) :
    (PreferredInstall.UnmarshalJSON order p (c :: rest)).2 ≠ none := by
  unfold PreferredInstall.UnmarshalJSON
  simp only [List.length_cons]
  rw [if_neg (by omega)]
  split
  · simp_all
  · split
    · simp_all
    · simp

/-- At the string literal `"dist"` the pair is appended and the error is
returned all the same. -/
theorem PreferredInstall_UnmarshalJSON_string_example (order : GoMap → GoMap) :
    PreferredInstall.UnmarshalJSON order [] (bytesOf "\"dist\"") =
      ([([], bytesOf "dist")], some "preferred-install must be a string or an object") := by
  rfl

/-- At the object `{"a":"x","b":"y"}` the list is left with the two decoded
entries in the order the `range` loop visits them, and the error is returned
all the same. -/
theorem PreferredInstall_UnmarshalJSON_object_example (order : GoMap → GoMap) :
    PreferredInstall.UnmarshalJSON order [] (bytesOf "\x7b\"a\":\"x\",\"b\":\"y\"\x7d") =
      (order [(bytesOf "a", bytesOf "x"), (bytesOf "b", bytesOf "y")],
        some "preferred-install must be a string or an object") := by
  have h : jsonUnmarshalMap (bytesOf "\x7b\"a\":\"x\",\"b\":\"y\"\x7d") [] =
      ([(bytesOf "a", bytesOf "x"), (bytesOf "b", bytesOf "y")], none) := by decide
  have h0 : ¬ 0 = (bytesOf "\x7b\"a\":\"x\",\"b\":\"y\"\x7d").length := by decide
  have h1 : isString (bytesOf "\x7b\"a\":\"x\",\"b\":\"y\"\x7d") = false := by decide
  have h2 : isObject (bytesOf "\x7b\"a\":\"x\",\"b\":\"y\"\x7d") = true := by decide
  unfold PreferredInstall.UnmarshalJSON
  simp only [if_neg h0, h1, h2, h]
  simp

/-- C10: the pairs need not be in document order. The object is decoded into
a Go map and appended in the order of a `range` loop over it, which Go leaves
unspecified: for `{"a":"x","b":"y"}` the visiting order that starts at `b`
gives `("b","y")` before `("a","x")`. -/
theorem PreferredInstall_UnmarshalJSON_order_not_kept :
    ∃ order : GoMap → GoMap, IsRangeOrder order ∧
      (PreferredInstall.UnmarshalJSON order []
          (bytesOf "\x7b\"a\":\"x\",\"b\":\"y\"\x7d")).1 =
        [(bytesOf "b", bytesOf "y"), (bytesOf "a", bytesOf "x")] :=
  ⟨List.reverse, fun m => List.reverse_perm m, by decide⟩

/-! ## Shape sniffers: an object-shaped text -/

theorem isObject_ne_nil {data : Bytes} (h : isObject data = true) : data.length ≠ 0 := by
  intro h0
  simp [isObject, h0] at h

theorem isObject_first {data : Bytes} (h : isObject data = true) : data.getD 0 0 = 123 := by
  unfold isObject at h
  split at h
  · simp at h
  · split at h
    · simp at h
    · rename_i h2; omega

theorem isArray_false_of_isObject {data : Bytes} (h : isObject data = true) :
    isArray data = false := by
  have h1 := isObject_first h
  unfold isArray
  rw [h1]
  simp

theorem isObject_false_of_isArray {data : Bytes} (h : isArray data = true) :
    isObject data = false := by
  have h1 := isArray_first h
  unfold isObject
  rw [h1]
  simp

theorem isObject_last {data : Bytes} (h : isObject data = true) :
    data.getD (data.length - 1) 0 = 125 := by
  unfold isObject at h
  split at h
  · simp at h
  · split at h
    · simp at h
    · rename_i h2; omega

theorem ne_false_of_isObject {data : Bytes} (h : isObject data = true) :
    data ≠ bytesOf "false" := by
  intro h1
  subst h1
  revert h
  decide

/-! ## encoding/json: the value a sniffed text parses to -/

theorem jsonParseValue_bracket {fuel depth : Nat} {rest : Bytes} {v : JValue} {left : Bytes}
    (h : jsonParseValue fuel depth (91 :: rest) = some (v, left)) : ∃ items, v = .array items := by
  cases fuel with
  | zero => simp [jsonParseValue] at h
  | succ n =>
    rw [jsonParseValue] at h
    simp only [show ¬ (91 = 123) by decide, if_false, if_true] at h
    split at h
    · simp at h
    · split at h
      · simp at h
      · split at h
        · simp only [Option.some.injEq, Prod.mk.injEq] at h
          exact ⟨_, h.1.symm⟩
        · cases hp : jsonParseElements n (depth + 1) (_ :: _) with
          | none => rw [hp] at h; simp at h
          | some r =>
            rw [hp] at h
            simp only [Option.map_some', Option.some.injEq, Prod.mk.injEq] at h
            exact ⟨_, h.1.symm⟩

theorem jsonParseValue_brace {fuel depth : Nat} {rest : Bytes} {v : JValue} {left : Bytes}
    (h : jsonParseValue fuel depth (123 :: rest) = some (v, left)) :
    ∃ members, v = .object members := by
  cases fuel with
  | zero => simp [jsonParseValue] at h
  | succ n =>
    rw [jsonParseValue] at h
    simp only [if_true] at h
    split at h
    · simp at h
    · split at h
      · simp at h
      · split at h
        · simp only [Option.some.injEq, Prod.mk.injEq] at h
          exact ⟨_, h.1.symm⟩
        · cases hp : jsonParseMembers n (depth + 1) (_ :: _) with
          | none => rw [hp] at h; simp at h
          | some r =>
            rw [hp] at h
            simp only [Option.map_some', Option.some.injEq, Prod.mk.injEq] at h
            exact ⟨_, h.1.symm⟩

theorem jsonParse_of_head {c : Nat} {rest : Bytes} (hc : jsonIsSpace c = false)
    (hv : jsonValid (c :: rest) = true) :
    ∃ v left, jsonParseValue (2 * (c :: rest).length + 2) 0 (c :: rest) = some (v, left) ∧
      jsonParse (c :: rest) = some v := by
  unfold jsonValid at hv
  unfold jsonParse at hv ⊢
  rw [jsonSkipSpace_of_head hc] at hv ⊢
  cases hp : jsonParseValue (2 * (c :: rest).length + 2) 0 (c :: rest) with
  | none => rw [hp] at hv; simp at hv
  | some r =>
    rw [hp] at hv
    simp only at hv ⊢
    split at hv
    · rename_i hs
      rw [if_pos hs]
      exact ⟨r.1, r.2, rfl, rfl⟩
    · simp at hv

theorem jsonParse_of_isArray {data : Bytes} (h : isArray data = true)
    (hv : jsonValid data = true) : ∃ items, jsonParse data = some (.array items) := by
  have h1 := isArray_first h
  have h0 := isArray_ne_nil h
  cases data with
  | nil => simp at h0
  | cons c rest =>
    simp only [List.getD_cons_zero] at h1
    subst h1
    obtain ⟨v, left, hp, hj⟩ := jsonParse_of_head (by decide) hv
    obtain ⟨items, hi⟩ := jsonParseValue_bracket hp
    exact ⟨items, by rw [hj, hi]⟩

theorem jsonParse_of_isObject {data : Bytes} (h : isObject data = true)
    (hv : jsonValid data = true) : ∃ members, jsonParse data = some (.object members) := by
  have h1 := isObject_first h
  have h0 := isObject_ne_nil h
  cases data with
  | nil => simp at h0
  | cons c rest =>
    simp only [List.getD_cons_zero] at h1
    subst h1
    obtain ⟨v, left, hp, hj⟩ := jsonParse_of_head (by decide) hv
    obtain ⟨members, hi⟩ := jsonParseValue_brace hp
    exact ⟨members, by rw [hj, hi]⟩

/-! ## encoding/json: reading what the string encoder wrote -/

theorem jsonScanString_marshal (s tail : Bytes) :
    jsonScanString (jsonStringBody s.length s ++ 34 :: tail) =
      some (jsonStringBody s.length s, tail) :=
  jsonStringBody_scans s.length s tail (le_refl _)

theorem jsonMarshalString_append (s tail : Bytes) :
    jsonMarshalString s ++ tail = 34 :: (jsonStringBody s.length s ++ 34 :: tail) := by
  simp [jsonMarshalString]

theorem jsonParseValue_string (fuel depth : Nat) (s tail : Bytes)
    (hv : utf8Valid s.length s = true) :
    jsonParseValue (fuel + 1) depth (jsonMarshalString s ++ tail) = some (.string s, tail) := by
  rw [jsonMarshalString_append, jsonParseValue]
  simp only [show ¬ (34 = 123) by decide, show ¬ (34 = 91) by decide, if_false, if_true]
  rw [jsonScanString_marshal]
  simp only
  rw [jsonUnquote_jsonStringBody s hv]
  rfl

theorem jsonParse_string (s : Bytes) (hv : utf8Valid s.length s = true) :
    jsonParse (jsonMarshalString s) = some (.string s) := by
  unfold jsonParse
  have h1 : jsonSkipSpace (jsonMarshalString s) = jsonMarshalString s ++ [] := by
    rw [List.append_nil]
    exact jsonSkipSpace_of_head (by decide)
  rw [h1, jsonParseValue_string _ _ s [] hv]
  rfl

theorem jsonUnmarshalString_marshal (s cur : Bytes) (hv : utf8Valid s.length s = true) :
    jsonUnmarshalString (jsonMarshalString s) cur = (s, none) := by
  unfold jsonUnmarshalString
  rw [jsonParse_string s hv]

theorem jsonValueSpan_string (s tail : Bytes) :
    jsonValueSpan (jsonMarshalString s ++ tail) = some (jsonMarshalString s, tail) := by
  rw [jsonMarshalString_append, jsonValueSpan]
  simp only [if_true]
  rw [jsonScanString_marshal]
  rfl

/-! ## encoding/json: one member of an object -/

theorem jsonParseMembers_last (fuel depth : Nat) (key tail rest2 rest3 rest4 : Bytes)
    (v : JValue) (hk : utf8Valid key.length key = true)
    (hcolon : jsonSkipSpace tail = 58 :: rest2)
    (hval : jsonParseValue fuel depth (jsonSkipSpace rest2) = some (v, rest3))
    (hclose : jsonSkipSpace rest3 = 125 :: rest4) :
    jsonParseMembers (fuel + 1) depth (jsonMarshalString key ++ tail) =
      some ([(key, v)], rest4) := by
  rw [jsonMarshalString_append, jsonParseMembers]
  simp only [if_true]
  rw [jsonScanString_marshal]
  simp only
  rw [jsonUnquote_jsonStringBody key hk, hcolon]
  simp only [if_true]
  rw [hval]
  simp only
  rw [hclose]
  simp

theorem jsonParseMembers_more (fuel depth : Nat) (key tail rest2 rest3 rest4 rest5 : Bytes)
    (v : JValue) (ms : List (Bytes × JValue)) (hk : utf8Valid key.length key = true)
    (hcolon : jsonSkipSpace tail = 58 :: rest2)
    (hval : jsonParseValue fuel depth (jsonSkipSpace rest2) = some (v, rest3))
    (hcomma : jsonSkipSpace rest3 = 44 :: rest4)
    (hmore : jsonParseMembers fuel depth (jsonSkipSpace rest4) = some (ms, rest5)) :
    jsonParseMembers (fuel + 1) depth (jsonMarshalString key ++ tail) =
      some ((key, v) :: ms, rest5) := by
  rw [jsonMarshalString_append, jsonParseMembers]
  simp only [if_true]
  rw [jsonScanString_marshal]
  simp only
  rw [jsonUnquote_jsonStringBody key hk, hcolon]
  simp only [if_true]
  rw [hval]
  simp only
  rw [hcomma]
  simp only [if_true]
  rw [hmore]
  rfl

theorem jsonMemberRaw_marshal (key tail rest2 text rest3 : Bytes)
    (hk : utf8Valid key.length key = true)
    (hcolon : jsonSkipSpace tail = 58 :: rest2)
    (hval : jsonValueSpan (jsonSkipSpace rest2) = some (text, rest3)) :
    jsonMemberRaw (jsonMarshalString key ++ tail) = some ((key, text), rest3) := by
  rw [jsonMarshalString_append, jsonMemberRaw]
  simp only [if_true]
  rw [jsonScanString_marshal]
  simp only
  rw [jsonUnquote_jsonStringBody key hk, hcolon]
  simp only [if_true]
  rw [hval]
  rfl

theorem jsonParseValue_object (fuel : Nat) (rest : Bytes) (c1 : Nat) (rest1 left : Bytes)
    (ms : List (Bytes × JValue)) (hs : jsonSkipSpace rest = c1 :: rest1) (hc : c1 ≠ 125)
    (hm : jsonParseMembers fuel 1 (c1 :: rest1) = some (ms, left)) :
    jsonParseValue (fuel + 1) 0 (123 :: rest) = some (.object ms, left) := by
  rw [jsonParseValue]
  simp only [if_true, show ¬ (jsonMaxNestingDepth < 0 + 1) by decide, if_false]
  rw [hs]
  simp only [if_neg hc]
  rw [show (0 + 1 : Nat) = 1 from rfl, hm]
  rfl

theorem jsonParse_object (rest : Bytes) (c1 : Nat) (rest1 left : Bytes)
    (ms : List (Bytes × JValue)) (hs : jsonSkipSpace rest = c1 :: rest1) (hc : c1 ≠ 125)
    (hm : jsonParseMembers (2 * (123 :: rest).length + 1) 1 (c1 :: rest1) = some (ms, left))
    (hl : jsonSkipSpace left = []) :
    jsonParse (123 :: rest) = some (.object ms) := by
  unfold jsonParse
  rw [jsonSkipSpace_of_head (by decide),
    jsonParseValue_object (2 * (123 :: rest).length + 1) rest c1 rest1 left ms hs hc hm]
  simp [hl]

theorem jsonObjectRaw_members (rest : Bytes) (c1 : Nat) (rest1 : Bytes)
    (ms : List (Bytes × Bytes)) (hs : jsonSkipSpace rest = c1 :: rest1) (hc : c1 ≠ 125)
    (hm : jsonMembersRaw (123 :: rest).length (c1 :: rest1) = some ms) :
    jsonObjectRaw (123 :: rest) = some ms := by
  unfold jsonObjectRaw
  rw [jsonSkipSpace_of_head (by decide)]
  simp only [if_true]
  rw [hs]
  simp only [if_neg hc]
  exact hm

/-! ## encoding/json: the end of an object -/

theorem isObject_braced (mid : Bytes) : isObject (123 :: (mid ++ [125])) = true := by
  have hlen : (123 :: (mid ++ [125])).length - 1 = (123 :: mid).length := by simp
  have hlast : (123 :: (mid ++ [125])).getD ((123 :: (mid ++ [125])).length - 1) 0 = 125 := by
    rw [hlen, ← List.cons_append, List.getD_eq_getElem?_getD,
      List.getElem?_append_right (le_refl _)]
    simp
  unfold isObject
  rw [hlast]
  simp

theorem jsonParseValue_false (fuel depth : Nat) (tail : Bytes) (hf : fuel ≠ 0) :
    jsonParseValue fuel depth (102 :: 97 :: 108 :: 115 :: 101 :: tail) =
      some (.bool false, tail) := by
  cases fuel with
  | zero => exact absurd rfl hf
  | succ n =>
    rw [jsonParseValue]
    simp

theorem jsonMembersRaw_last (fuel : Nat) (data : Bytes) (m : Bytes × Bytes)
    (rest rest1 : Bytes) (hm : jsonMemberRaw data = some (m, rest))
    (hc : jsonSkipSpace rest = 125 :: rest1) :
    jsonMembersRaw (fuel + 1) data = some [m] := by
  rw [jsonMembersRaw, hm]
  simp only
  rw [hc]
  simp

theorem jsonMembersRaw_more (fuel : Nat) (data : Bytes) (m : Bytes × Bytes)
    (rest rest1 : Bytes) (ms : List (Bytes × Bytes)) (hm : jsonMemberRaw data = some (m, rest))
    (hc : jsonSkipSpace rest = 44 :: rest1)
    (hmore : jsonMembersRaw fuel (jsonSkipSpace rest1) = some ms) :
    jsonMembersRaw (fuel + 1) data = some (m :: ms) := by
  rw [jsonMembersRaw, hm]
  simp only
  rw [hc]
  simp only [if_true]
  rw [hmore]
  rfl

theorem jsonSkipSpace_marshal (s tail : Bytes) :
    jsonSkipSpace (jsonMarshalString s ++ tail) = jsonMarshalString s ++ tail := by
  rw [jsonMarshalString_append]
  exact jsonSkipSpace_of_head (by decide)

/-! ## Repository: the first steps of decoding an object -/

theorem Repository_UnmarshalJSON_object_guard {data : Bytes} (hobj : isObject data = true) :
    ¬ (data.length = 0 ∨ data = bytesOf "false") := by
  intro h
  rcases h with h | h
  · exact isObject_ne_nil hobj h
  · exact ne_false_of_isObject hobj h

theorem Repository_UnmarshalJSON_untyped_eq (fuel : Nat) (order : GoMap → GoMap)
    (r : Repository) (data : Bytes) (m : GoMap) (hobj : isObject data = true)
    (hm : jsonUnmarshalAnyMap data [] = (m, none)) (ht : m.get (bytesOf "type") = none) :
    Repository.UnmarshalJSON fuel order r data =
      .ret (Repository.rangeDisabled ((order m).map (·.1)) true r) := by
  unfold Repository.UnmarshalJSON
  rw [if_neg (Repository_UnmarshalJSON_object_guard hobj), hobj, hm]
  simp only [Bool.not_true, Bool.false_eq_true, if_false]
  rw [ht]

theorem Repository_UnmarshalJSON_generic_error (fuel : Nat) (order : GoMap → GoMap)
    (r : Repository) (data : Bytes) (m : GoMap) (err : String) (hobj : isObject data = true)
    (hm : jsonUnmarshalAnyMap data [] = (m, some err)) :
    Repository.UnmarshalJSON fuel order r data = .ret (r, some err) := by
  unfold Repository.UnmarshalJSON
  rw [if_neg (Repository_UnmarshalJSON_object_guard hobj), hobj, hm]
  simp only [Bool.not_true, Bool.false_eq_true, if_false]

theorem Repository_UnmarshalJSON_typed_eq (fuel : Nat) (order : GoMap → GoMap)
    (r : Repository) (data : Bytes) (m : GoMap) (repoType t : Bytes)
    (hobj : isObject data = true) (hm : jsonUnmarshalAnyMap data [] = (m, none))
    (ht : m.get (bytesOf "type") = some repoType)
    (hs : jsonParse repoType = some (.string t)) :
    Repository.UnmarshalJSON fuel order r data =
      if t = bytesOf "composer" then
        Repository.withRecord
          (jsonUnmarshalStruct "gocomposer.ComposerRepository" ComposerRepository.names
            ComposerRepository.store data r.Composer)
          fun v => { r with Type_ := TypeComposer, Composer := v }
      else if t ∈ vcsTags then
        Repository.withRecord
          (jsonUnmarshalStruct "gocomposer.VCSRepository" VCSRepository.names
            VCSRepository.store data r.VCS)
          fun v => { r with Type_ := TypeVCS, VCS := v }
      else if t = bytesOf "path" then
        Repository.withRecord
          (jsonUnmarshalStruct "gocomposer.PathRepository" PathRepository.names
            PathRepository.store data r.Path)
          fun v => { r with Type_ := TypePath, Path := v }
      else if t = bytesOf "artifact" then
        Repository.withRecord
          (jsonUnmarshalStruct "gocomposer.ArtifactRepository" ArtifactRepository.names
            ArtifactRepository.store data r.Artifact)
          fun v => { r with Type_ := TypeArtifact, Artifact := v }
      else if t = bytesOf "pear" then
        Repository.withRecord
          (jsonUnmarshalStruct "gocomposer.PearRepository" PearRepository.names
            PearRepository.store data r.Pear)
          fun v => { r with Type_ := TypePear, Pear := v }
      else if t = bytesOf "package" then
        Repository.withRecord
          (jsonUnmarshalStruct "gocomposer.PackageRepository" PackageRepository.names
            (PackageRepository.store fuel) data r.Package)
          fun v => { r with Type_ := TypePackage, Package := v }
      else .ret (r, some "repository type not recognized") := by
  unfold Repository.UnmarshalJSON
  rw [if_neg (Repository_UnmarshalJSON_object_guard hobj), hobj, hm]
  simp only [Bool.not_true, Bool.false_eq_true, if_false]
  rw [ht]
  simp only
  rw [hs]

theorem Repository_UnmarshalJSON_type_not_string (fuel : Nat) (order : GoMap → GoMap)
    (r : Repository) (data : Bytes) (m : GoMap) (repoType : Bytes)
    (hobj : isObject data = true) (hm : jsonUnmarshalAnyMap data [] = (m, none))
    (ht : m.get (bytesOf "type") = some repoType)
    (hs : ∀ t, jsonParse repoType ≠ some (.string t)) :
    Repository.UnmarshalJSON fuel order r data =
      .ret (r, some "repository \"type\" must be a string") := by
  unfold Repository.UnmarshalJSON
  rw [if_neg (Repository_UnmarshalJSON_object_guard hobj), hobj, hm]
  simp only [Bool.not_true, Bool.false_eq_true, if_false]
  rw [ht]
  simp only

/-! ## encoding/json: the same steps for any budget that is not used up -/

theorem jsonParseValue_string_of_pos (fuel depth : Nat) (s tail : Bytes) (hf : fuel ≠ 0)
    (hv : utf8Valid s.length s = true) :
    jsonParseValue fuel depth (jsonMarshalString s ++ tail) = some (.string s, tail) := by
  obtain ⟨k, rfl⟩ := Nat.exists_eq_succ_of_ne_zero hf
  exact jsonParseValue_string k depth s tail hv

theorem jsonParseMembers_last_of_pos (fuel depth : Nat) (key tail rest2 rest3 rest4 : Bytes)
    (v : JValue) (hf : fuel ≠ 0) (hk : utf8Valid key.length key = true)
    (hcolon : jsonSkipSpace tail = 58 :: rest2)
    (hval : jsonParseValue (fuel - 1) depth (jsonSkipSpace rest2) = some (v, rest3))
    (hclose : jsonSkipSpace rest3 = 125 :: rest4) :
    jsonParseMembers fuel depth (jsonMarshalString key ++ tail) = some ([(key, v)], rest4) := by
  obtain ⟨k, rfl⟩ := Nat.exists_eq_succ_of_ne_zero hf
  exact jsonParseMembers_last k depth key tail rest2 rest3 rest4 v hk hcolon hval hclose

theorem jsonParseMembers_more_of_pos (fuel depth : Nat)
    (key tail rest2 rest3 rest4 rest5 : Bytes) (v : JValue) (ms : List (Bytes × JValue))
    (hf : fuel ≠ 0) (hk : utf8Valid key.length key = true)
    (hcolon : jsonSkipSpace tail = 58 :: rest2)
    (hval : jsonParseValue (fuel - 1) depth (jsonSkipSpace rest2) = some (v, rest3))
    (hcomma : jsonSkipSpace rest3 = 44 :: rest4)
    (hmore : jsonParseMembers (fuel - 1) depth (jsonSkipSpace rest4) = some (ms, rest5)) :
    jsonParseMembers fuel depth (jsonMarshalString key ++ tail) =
      some ((key, v) :: ms, rest5) := by
  obtain ⟨k, rfl⟩ := Nat.exists_eq_succ_of_ne_zero hf
  exact jsonParseMembers_more k depth key tail rest2 rest3 rest4 rest5 v ms hk hcolon hval
    hcomma hmore

theorem jsonMembersRaw_last_of_pos (fuel : Nat) (data : Bytes) (m : Bytes × Bytes)
    (rest rest1 : Bytes) (hf : fuel ≠ 0) (hm : jsonMemberRaw data = some (m, rest))
    (hc : jsonSkipSpace rest = 125 :: rest1) :
    jsonMembersRaw fuel data = some [m] := by
  obtain ⟨k, rfl⟩ := Nat.exists_eq_succ_of_ne_zero hf
  exact jsonMembersRaw_last k data m rest rest1 hm hc

theorem jsonMembersRaw_more_of_pos (fuel : Nat) (data : Bytes) (m : Bytes × Bytes)
    (rest rest1 : Bytes) (ms : List (Bytes × Bytes)) (hf : fuel ≠ 0)
    (hm : jsonMemberRaw data = some (m, rest)) (hc : jsonSkipSpace rest = 44 :: rest1)
    (hmore : jsonMembersRaw (fuel - 1) (jsonSkipSpace rest1) = some ms) :
    jsonMembersRaw fuel data = some (m :: ms) := by
  obtain ⟨k, rfl⟩ := Nat.exists_eq_succ_of_ne_zero hf
  exact jsonMembersRaw_more k data m rest rest1 ms hm hc hmore

theorem jsonSkipSpace_space_marshal (s tail : Bytes) :
    jsonSkipSpace (32 :: (jsonMarshalString s ++ tail)) = jsonMarshalString s ++ tail := by
  rw [jsonSkipSpace]
  simp only [show jsonIsSpace 32 = true by decide, if_true]
  exact jsonSkipSpace_marshal s tail

/-! ## Repository: the text of a typed entry -/

theorem Repository_typedText_eq (t u : Bytes) :
    Repository.typedText t u =
      123 :: (jsonMarshalString (bytesOf "type") ++ (58 :: 32 :: (jsonMarshalString t ++
        (44 :: 32 :: (jsonMarshalString (bytesOf "url") ++
          (58 :: 32 :: (jsonMarshalString u ++ [125]))))))) := by
  have h1 : jsonMarshalString (bytesOf "type") = bytesOf "\"type\"" := by decide
  have h2 : jsonMarshalString (bytesOf "url") = bytesOf "\"url\"" := by decide
  rw [h1, h2]
  simp [Repository.typedText, bytesOf]

theorem Repository_typedText_isObject (t u : Bytes) :
    isObject (Repository.typedText t u) = true := by
  have h : Repository.typedText t u =
      123 :: ((bytesOf "\"type\": " ++ jsonMarshalString t ++ bytesOf ", \"url\": " ++
        jsonMarshalString u) ++ [125]) := by
    simp [Repository.typedText, bytesOf]
  rw [h]
  exact isObject_braced _

theorem Repository_typedText_parse (t u : Bytes) (ht : utf8Valid t.length t = true)
    (hu : utf8Valid u.length u = true) :
    jsonParse (Repository.typedText t u) =
      some (.object [(bytesOf "type", .string t), (bytesOf "url", .string u)]) := by
  rw [Repository_typedText_eq]
  refine jsonParse_object _ 34
    (jsonStringBody (bytesOf "type").length (bytesOf "type") ++ 34 :: (58 :: 32 ::
      (jsonMarshalString t ++ (44 :: 32 :: (jsonMarshalString (bytesOf "url") ++
        (58 :: 32 :: (jsonMarshalString u ++ [125]))))))) [] _ ?_ (by decide) ?_ rfl
  · rw [jsonSkipSpace_marshal, jsonMarshalString_append]
  · rw [← jsonMarshalString_append]
    refine jsonParseMembers_more_of_pos _ 1 (bytesOf "type") _ _
      (44 :: 32 :: (jsonMarshalString (bytesOf "url") ++
        (58 :: 32 :: (jsonMarshalString u ++ [125])))) _ _ _ _ (by simp)
      (by decide) (jsonSkipSpace_of_head (by decide)) ?_ (jsonSkipSpace_of_head (by decide)) ?_
    · rw [jsonSkipSpace_space_marshal]
      exact jsonParseValue_string_of_pos _ 1 t _ (by simp) ht
    · rw [jsonSkipSpace_space_marshal]
      refine jsonParseMembers_last_of_pos _ 1 (bytesOf "url") _ _ [125] _ _ (by simp)
        (by decide) (jsonSkipSpace_of_head (by decide)) ?_ rfl
      rw [jsonSkipSpace_space_marshal]
      exact jsonParseValue_string_of_pos _ 1 u _ (by simp; omega) hu

theorem Repository_typedText_raw (t u : Bytes) :
    jsonObjectRaw (Repository.typedText t u) =
      some [(bytesOf "type", jsonMarshalString t), (bytesOf "url", jsonMarshalString u)] := by
  rw [Repository_typedText_eq]
  refine jsonObjectRaw_members _ 34
    (jsonStringBody (bytesOf "type").length (bytesOf "type") ++ 34 :: (58 :: 32 ::
      (jsonMarshalString t ++ (44 :: 32 :: (jsonMarshalString (bytesOf "url") ++
        (58 :: 32 :: (jsonMarshalString u ++ [125]))))))) _ ?_ (by decide) ?_
  · rw [jsonSkipSpace_marshal, jsonMarshalString_append]
  · rw [← jsonMarshalString_append]
    refine jsonMembersRaw_more_of_pos _ _ (bytesOf "type", jsonMarshalString t) _ _ _ (by simp)
      (jsonMemberRaw_marshal (bytesOf "type") _ _ _ _ (by decide)
        (jsonSkipSpace_of_head (by decide))
        (by rw [jsonSkipSpace_space_marshal]; exact jsonValueSpan_string t _))
      (jsonSkipSpace_of_head (by decide)) ?_
    rw [jsonSkipSpace_space_marshal]
    refine jsonMembersRaw_last_of_pos _ _ (bytesOf "url", jsonMarshalString u) [125] [] ?_
      (jsonMemberRaw_marshal (bytesOf "url") _ _ _ _ (by decide)
        (jsonSkipSpace_of_head (by decide))
        (by rw [jsonSkipSpace_space_marshal]; exact jsonValueSpan_string u _)) rfl
    simp [jsonMarshalString]

theorem Repository_typedText_map (t u : Bytes) (ht : utf8Valid t.length t = true)
    (hu : utf8Valid u.length u = true) :
    jsonUnmarshalAnyMap (Repository.typedText t u) [] =
      ([(bytesOf "type", jsonMarshalString t), (bytesOf "url", jsonMarshalString u)], none) := by
  unfold jsonUnmarshalAnyMap
  rw [Repository_typedText_parse t u ht hu]
  simp only
  rw [Repository_typedText_raw t u]
  have hne : bytesOf "type" ≠ bytesOf "url" := by decide
  simp [GoMap.set, jsonSomeMemberOverflows, jsonSomeNumberOverflows, hne]

/-! ## encoding/json: the text of a value is never a lone quote -/

theorem jsonValueSpan_ne_quote {data text rest : Bytes}
    (h : jsonValueSpan data = some (text, rest)) : text ≠ [34] := by
  cases data with
  | nil => simp [jsonValueSpan] at h
  | cons c tail =>
    rw [jsonValueSpan] at h
    split at h
    · cases hs : jsonScanString tail with
      | none => rw [hs] at h; simp at h
      | some r =>
        rw [hs] at h
        simp only [Option.map_some', Option.some.injEq, Prod.mk.injEq] at h
        rw [← h.1]
        simp
    · rename_i hc
      cases hp : jsonParseValue (2 * (c :: tail).length + 2) 0 (c :: tail) with
      | none => rw [hp] at h; simp at h
      | some r =>
        rw [hp] at h
        simp only [Option.map_some', Option.some.injEq, Prod.mk.injEq] at h
        rw [← h.1]
        intro heq
        cases hn : (c :: tail).length - r.2.length with
        | zero => rw [hn] at heq; simp at heq
        | succ k =>
          rw [hn, List.take_succ_cons] at heq
          simp only [List.cons.injEq] at heq
          exact hc heq.1

theorem jsonMemberRaw_ne_quote {data rest : Bytes} {m : Bytes × Bytes}
    (h : jsonMemberRaw data = some (m, rest)) : m.2 ≠ [34] := by
  cases data with
  | nil => simp [jsonMemberRaw] at h
  | cons c tail =>
    rw [jsonMemberRaw] at h
    split at h
    · split at h
      · simp at h
      · split at h
        · split at h
          · simp only [Option.map_eq_some', Prod.mk.injEq] at h
            obtain ⟨r, hv, heq, _⟩ := h
            rw [← heq]
            exact @jsonValueSpan_ne_quote _ r.1 r.2 hv
          · simp at h
        · simp at h
    · simp at h

theorem jsonMembersRaw_ne_quote (fuel : Nat) : ∀ (data : Bytes) (ms : List (Bytes × Bytes)),
    jsonMembersRaw fuel data = some ms → ∀ m ∈ ms, m.2 ≠ [34] := by
  induction fuel with
  | zero => intro data ms h; simp [jsonMembersRaw] at h
  | succ n ih =>
    intro data ms h
    rw [jsonMembersRaw] at h
    split at h
    · simp at h
    · rename_i m rest hm
      split at h
      · simp at h
      · rename_i c rest1 _
        split at h
        · cases hr : jsonMembersRaw n (jsonSkipSpace rest1) with
          | none => rw [hr] at h; simp at h
          | some tail =>
            rw [hr] at h
            simp only [Option.map_some', Option.some.injEq] at h
            rw [← h]
            intro x hx
            rcases List.mem_cons.mp hx with hx | hx
            · rw [hx]; exact jsonMemberRaw_ne_quote hm
            · exact ih _ _ hr x hx
        · split at h
          · simp only [Option.some.injEq] at h
            rw [← h]
            intro x hx
            rw [List.mem_singleton.mp hx]
            exact jsonMemberRaw_ne_quote hm
          · simp at h

theorem jsonObjectRaw_ne_quote {data : Bytes} {ms : List (Bytes × Bytes)}
    (h : jsonObjectRaw data = some ms) : ∀ m ∈ ms, m.2 ≠ [34] := by
  unfold jsonObjectRaw at h
  split at h
  · simp at h
  · split at h
    · split at h
      · simp at h
      · split at h
        · simp only [Option.some.injEq] at h
          rw [← h]
          simp
        · exact jsonMembersRaw_ne_quote _ _ _ h
    · simp at h

/-! ## encoding/json: decoding into a struct returns -/

theorem jsonDecodeFields_returns {α : Type} (names : List Bytes)
    (store : α → Nat → Bytes → Exec (Stored α)) (members : List (Bytes × Bytes))
    (h : ∀ r i, ∀ kv ∈ members, ∃ s, store r i kv.2 = .ret s) :
    ∀ (r : α) (saved : Error), ∃ res, jsonDecodeFields names store members r saved = .ret res := by
  induction members with
  | nil => intro r saved; exact ⟨_, rfl⟩
  | cons kv rest ih =>
    have ih1 := ih (fun r i kv1 hkv => h r i kv1 (List.mem_cons_of_mem _ hkv))
    intro r saved
    obtain ⟨key, text⟩ := kv
    rw [jsonDecodeFields]
    split
    · exact ih1 r saved
    · rename_i i _
      obtain ⟨s, hs⟩ := h r i (key, text) (List.mem_cons_self _ _)
      simp only at hs
      rw [hs]
      cases s with
      | ok r1 => exact ih1 r1 saved
      | typeError r1 msg => exact ih1 r1 _
      | abort r1 msg => exact ⟨_, rfl⟩

theorem jsonUnmarshalStruct_returns {α : Type} (goType : String) (names : List Bytes)
    (store : α → Nat → Bytes → Exec (Stored α)) (data : Bytes) (r : α)
    (h : ∀ members, jsonObjectRaw data = some members →
      ∀ r i, ∀ kv ∈ members, ∃ s, store r i kv.2 = .ret s) :
    ∃ res, jsonUnmarshalStruct goType names store data r = .ret res := by
  unfold jsonUnmarshalStruct
  split
  · exact ⟨_, rfl⟩
  · split
    · exact ⟨_, rfl⟩
    · rename_i members hm
      exact jsonDecodeFields_returns names store members (h members hm) r none
  · exact ⟨_, rfl⟩
  · exact ⟨_, rfl⟩

theorem Stored_ofUnmarshaler_returns {α β : Type} (r : Exec (β × Error)) (put : β → α)
    (h : ∃ res, r = .ret res) : ∃ s, Stored.ofUnmarshaler r put = .ret s := by
  obtain ⟨⟨b, err⟩, rfl⟩ := h
  cases err with
  | none => exact ⟨_, rfl⟩
  | some msg => exact ⟨_, rfl⟩

theorem StringOrBool_UnmarshalJSON_returns (s : StringOrBool) (data : Bytes)
    (h : data ≠ [34]) : ∃ res, StringOrBool.UnmarshalJSON s data = .ret res := by
  unfold StringOrBool.UnmarshalJSON
  split
  · exact ⟨_, rfl⟩
  · rename_i h0
    split
    · exact ⟨_, rfl⟩
    · split
      · exact ⟨_, rfl⟩
      · split
        · rename_i hq
          have hlen : 2 ≤ data.length := by
            cases data with
            | nil => simp at h0
            | cons c rest =>
              cases rest with
              | nil =>
                simp only [List.getD_cons_zero, doubleQuote] at hq
                exact absurd (by rw [hq.1]) h
              | cons c2 rest2 => simp
          have hg : goSlice data 1 (data.length - 1) =
              some ((data.take (data.length - 1)).drop 1) := by
            unfold goSlice
            rw [if_pos ⟨by omega, by omega⟩]
          rw [hg]
          exact ⟨_, rfl⟩
        · exact ⟨_, rfl⟩

theorem VCSRepository_store_returns (r : VCSRepository) (i : Nat) (text : Bytes)
    (h : text ≠ [34]) : ∃ s, VCSRepository.store r i text = .ret s := by
  unfold VCSRepository.store
  split
  all_goals first
    | exact ⟨_, rfl⟩
    | exact Stored_ofUnmarshaler_returns _ _ (StringOrBool_UnmarshalJSON_returns _ text h)

theorem Repository_withRecord_returns {α : Type} (decoded : Exec (α × Error))
    (put : α → Repository) (h : ∃ res, decoded = .ret res) :
    ∃ a err, Repository.withRecord decoded put = .ret (put a, err) := by
  obtain ⟨⟨a, err⟩, rfl⟩ := h
  exact ⟨a, err, rfl⟩

theorem Repository_withRecord_of_ret {α : Type} (decoded : Exec (α × Error))
    (put : α → Repository) (r1 : Repository) (err : Error)
    (h : Repository.withRecord decoded put = .ret (r1, err)) : ∃ a, r1 = put a := by
  unfold Repository.withRecord at h
  split at h
  · simp only [Exec.ret.injEq, Prod.mk.injEq] at h
    exact ⟨_, h.1.symm⟩
  · simp at h
  · simp at h

/-! ## encoding/json: the scanner consumes what it reads -/

theorem jsonSkipSpace_length (data : Bytes) : (jsonSkipSpace data).length ≤ data.length := by
  induction data with
  | nil => simp [jsonSkipSpace]
  | cons c rest ih =>
    rw [jsonSkipSpace]
    split
    · simp only [List.length_cons]; omega
    · simp

theorem jsonScanString_length_aux (n : Nat) : ∀ (data body rest : Bytes), data.length ≤ n →
    jsonScanString data = some (body, rest) → rest.length < data.length := by
  induction n with
  | zero =>
    intro data body rest hn h
    have : data = [] := List.length_eq_zero.mp (Nat.le_zero.mp hn)
    subst this
    simp [jsonScanString] at h
  | succ k ih =>
    intro data body rest hn h
    rw [jsonScanString.eq_def] at h
    split at h
    · simp at h
    · rename_i c tail
      simp only [List.length_cons] at hn ⊢
      split at h
      · simp only [Option.some.injEq, Prod.mk.injEq] at h
        rw [← h.2]; omega
      · split at h
        · split at h
          · simp at h
          · rename_i e rest2
            simp only [List.length_cons] at hn ⊢
            split at h
            · split at h
              · rename_i h1 h2 h3 h4 rest3
                simp only [List.length_cons] at hn ⊢
                split at h
                · simp only [Option.map_eq_some', Prod.mk.injEq] at h
                  obtain ⟨r, hr, _, h2⟩ := h
                  have := ih rest3 r.1 r.2 (by omega) hr
                  rw [← h2]; omega
                · simp at h
              · simp at h
            · split at h
              · simp only [Option.map_eq_some', Prod.mk.injEq] at h
                obtain ⟨r, hr, _, h2⟩ := h
                have := ih rest2 r.1 r.2 (by omega) hr
                rw [← h2]; omega
              · simp at h
        · split at h
          · simp at h
          · simp only [Option.map_eq_some', Prod.mk.injEq] at h
            obtain ⟨r, hr, _, h2⟩ := h
            have := ih tail r.1 r.2 (by omega) hr
            rw [← h2]; omega

theorem jsonScanString_length {data body rest : Bytes}
    (h : jsonScanString data = some (body, rest)) : rest.length < data.length :=
  jsonScanString_length_aux data.length data body rest (le_refl _) h

theorem jsonSpanDigits_length (data : Bytes) :
    (jsonSpanDigits data).2.length ≤ data.length := by
  induction data with
  | nil => simp [jsonSpanDigits]
  | cons c rest ih =>
    rw [jsonSpanDigits]
    split
    · simp only [List.length_cons]; omega
    · simp

theorem jsonScanInt_length {data i rest : Bytes} (h : jsonScanInt data = some (i, rest)) :
    rest.length < data.length := by
  cases data with
  | nil => simp [jsonScanInt] at h
  | cons c tail =>
    rw [jsonScanInt] at h
    split at h
    · simp only [Option.some.injEq, Prod.mk.injEq] at h
      rw [← h.2]; simp
    · split at h
      · simp only [Option.some.injEq, Prod.mk.injEq] at h
        rw [← h.2]
        have := jsonSpanDigits_length tail
        simp only [List.length_cons]; omega
      · simp at h

theorem jsonScanFrac_length {data f rest : Bytes} (h : jsonScanFrac data = some (f, rest)) :
    rest.length ≤ data.length := by
  cases data with
  | nil => simp [jsonScanFrac] at h; rw [← h.2]
  | cons c tail =>
    rw [jsonScanFrac] at h
    split at h
    · split at h
      · simp at h
      · simp only [Option.some.injEq, Prod.mk.injEq] at h
        rw [← h.2]
        have := jsonSpanDigits_length tail
        simp only [List.length_cons]; omega
    · simp only [Option.some.injEq, Prod.mk.injEq] at h
      rw [← h.2]

theorem jsonScanExp_length {data e rest : Bytes} (h : jsonScanExp data = some (e, rest)) :
    rest.length ≤ data.length := by
  cases data with
  | nil => simp [jsonScanExp] at h; rw [← h.2]
  | cons c tail =>
    rw [jsonScanExp.eq_def] at h
    simp only at h
    split at h
    · split at h
      · simp at h
      · rename_i s rest2
        split at h
        · split at h
          · simp at h
          · simp only [Option.some.injEq, Prod.mk.injEq] at h
            rw [← h.2]
            have := jsonSpanDigits_length rest2
            simp only [List.length_cons]; omega
        · split at h
          · simp at h
          · simp only [Option.some.injEq, Prod.mk.injEq] at h
            rw [← h.2]
            have := jsonSpanDigits_length (s :: rest2)
            simp only [List.length_cons] at this ⊢; omega
    · simp only [Option.some.injEq, Prod.mk.injEq] at h
      rw [← h.2]

theorem jsonScanNumber_length {data raw rest : Bytes}
    (h : jsonScanNumber data = some (raw, rest)) : rest.length < data.length := by
  unfold jsonScanNumber at h
  simp only at h
  split at h
  · simp at h
  · rename_i i d2 hi
    split at h
    · simp at h
    · rename_i f d3 hf
      split at h
      · simp at h
      · rename_i e d4 he
        simp only [Option.some.injEq, Prod.mk.injEq] at h
        rw [← h.2]
        have h1 := jsonScanInt_length hi
        have h2 := jsonScanFrac_length hf
        have h3 := jsonScanExp_length he
        have h4 : (if data.head? = some 45 then data.drop 1 else data).length ≤ data.length := by
          split
          · simp
          · exact le_refl _
        omega

/-! ## encoding/json: the budget a value needs -/

theorem jsonParse_fuel (f : Nat) :
    (∀ d data v rest, jsonParseValue f d data = some (v, rest) →
      rest.length < data.length ∧ ∀ f' d', d' ≤ d → 2 * (data.length - rest.length) ≤ f' →
        jsonParseValue f' d' data = some (v, rest)) ∧
    (∀ d data ms rest, jsonParseMembers f d data = some (ms, rest) →
      rest.length < data.length ∧ ∀ f' d', d' ≤ d → 2 * (data.length - rest.length) ≤ f' →
        jsonParseMembers f' d' data = some (ms, rest)) ∧
    (∀ d data vs rest, jsonParseElements f d data = some (vs, rest) →
      rest.length < data.length ∧ ∀ f' d', d' ≤ d → 2 * (data.length - rest.length) ≤ f' →
        jsonParseElements f' d' data = some (vs, rest)) := by
  induction f with
  | zero =>
    refine ⟨?_, ?_, ?_⟩
    · intro d data v rest h; simp [jsonParseValue] at h
    · intro d data v rest h; simp [jsonParseMembers] at h
    · intro d data v rest h; simp [jsonParseElements] at h
  | succ n ih =>
    obtain ⟨ihV, ihM, ihE⟩ := ih
    refine ⟨?_, ?_, ?_⟩
    · intro d data v rest h
      cases data with
      | nil => simp [jsonParseValue] at h
      | cons c tail =>
        rw [jsonParseValue] at h
        split at h
        · rename_i hc
          split at h
          · simp at h
          · rename_i hd
            split at h
            · simp at h
            · rename_i c1 rest1 hs
              have hl := jsonSkipSpace_length tail
              rw [hs] at hl
              simp only [List.length_cons] at hl
              split at h
              · rename_i h125
                simp only [Option.some.injEq, Prod.mk.injEq] at h
                obtain ⟨hv, hrest⟩ := h
                subst hv hrest
                refine ⟨by simp only [List.length_cons]; omega, ?_⟩
                intro f' d' hd' hf'
                simp only [List.length_cons] at hf'
                obtain ⟨g, rfl⟩ : ∃ g, f' = g + 1 := ⟨f' - 1, by omega⟩
                rw [jsonParseValue, if_pos hc, if_neg (fun hx => hd (by omega)), hs]
                simp only [if_pos h125]
              · rename_i h125
                simp only [Option.map_eq_some', Prod.mk.injEq] at h
                obtain ⟨r, hr, hv, hrest⟩ := h
                subst hv hrest
                obtain ⟨hlen, hfuel⟩ := ihM (d + 1) (c1 :: rest1) r.1 r.2 hr
                simp only [List.length_cons] at hlen
                refine ⟨by simp only [List.length_cons]; omega, ?_⟩
                intro f' d' hd' hf'
                simp only [List.length_cons] at hf'
                obtain ⟨g, rfl⟩ : ∃ g, f' = g + 1 := ⟨f' - 1, by omega⟩
                rw [jsonParseValue, if_pos hc, if_neg (fun hx => hd (by omega)), hs]
                simp only [if_neg h125]
                rw [hfuel g (d' + 1) (by omega) (by simp only [List.length_cons]; omega)]
                rfl
        · rename_i hc
          split at h
          · rename_i hb
            split at h
            · simp at h
            · rename_i hd
              split at h
              · simp at h
              · rename_i c1 rest1 hs
                have hl := jsonSkipSpace_length tail
                rw [hs] at hl
                simp only [List.length_cons] at hl
                split at h
                · rename_i h93
                  simp only [Option.some.injEq, Prod.mk.injEq] at h
                  obtain ⟨hv, hrest⟩ := h
                  subst hv hrest
                  refine ⟨by simp only [List.length_cons]; omega, ?_⟩
                  intro f' d' hd' hf'
                  simp only [List.length_cons] at hf'
                  obtain ⟨g, rfl⟩ : ∃ g, f' = g + 1 := ⟨f' - 1, by omega⟩
                  rw [jsonParseValue, if_neg hc, if_pos hb, if_neg (fun hx => hd (by omega)), hs]
                  simp only [if_pos h93]
                · rename_i h93
                  simp only [Option.map_eq_some', Prod.mk.injEq] at h
                  obtain ⟨r, hr, hv, hrest⟩ := h
                  subst hv hrest
                  obtain ⟨hlen, hfuel⟩ := ihE (d + 1) (c1 :: rest1) r.1 r.2 hr
                  simp only [List.length_cons] at hlen
                  refine ⟨by simp only [List.length_cons]; omega, ?_⟩
                  intro f' d' hd' hf'
                  simp only [List.length_cons] at hf'
                  obtain ⟨g, rfl⟩ : ∃ g, f' = g + 1 := ⟨f' - 1, by omega⟩
                  rw [jsonParseValue, if_neg hc, if_pos hb, if_neg (fun hx => hd (by omega)), hs]
                  simp only [if_neg h93]
                  rw [hfuel g (d' + 1) (by omega) (by simp only [List.length_cons]; omega)]
                  rfl
          · rename_i hb
            have h0 := h
            have hlen : rest.length < (c :: tail).length := by
              split at h
              · split at h
                · simp at h
                · rename_i body rest1 hsc
                  simp only [Option.map_eq_some', Prod.mk.injEq] at h
                  obtain ⟨s, _, _, hrest⟩ := h
                  have := jsonScanString_length hsc
                  rw [← hrest]
                  simp only [List.length_cons]; omega
              · split at h
                · simp only [Option.map_eq_some', Prod.mk.injEq] at h
                  obtain ⟨r, hr, _, hrest⟩ := h
                  have := jsonScanNumber_length hr
                  rw [← hrest]
                  exact this
                · split at h
                  · simp only [Option.some.injEq, Prod.mk.injEq] at h
                    rw [← h.2]
                    simp only [List.length_cons, List.length_drop]; omega
                  · split at h
                    · simp only [Option.some.injEq, Prod.mk.injEq] at h
                      rw [← h.2]
                      simp only [List.length_cons, List.length_drop]; omega
                    · split at h
                      · simp only [Option.some.injEq, Prod.mk.injEq] at h
                        rw [← h.2]
                        simp only [List.length_cons, List.length_drop]; omega
                      · simp at h
            refine ⟨hlen, ?_⟩
            intro f' d' _ hf'
            obtain ⟨g, rfl⟩ : ∃ g, f' = g + 1 := ⟨f' - 1, by omega⟩
            rw [jsonParseValue, if_neg hc, if_neg hb]
            exact h0
    · intro d data ms rest h
      cases data with
      | nil => simp [jsonParseMembers] at h
      | cons c tail =>
        rw [jsonParseMembers] at h
        split at h
        · rename_i hc
          split at h
          · simp at h
          · rename_i body rest1 hsc
            have hl1 := jsonScanString_length hsc
            split at h
            · rename_i key c2 rest2 hu hs
              have hl2 := jsonSkipSpace_length rest1
              rw [hs] at hl2
              simp only [List.length_cons] at hl2
              split at h
              · rename_i h58
                split at h
                · simp at h
                · rename_i v rest3 hv
                  obtain ⟨hlv, hfv⟩ := ihV d _ v rest3 hv
                  have hl3 := jsonSkipSpace_length rest2
                  split at h
                  · simp at h
                  · rename_i c4 rest4 hs4
                    have hl4 := jsonSkipSpace_length rest3
                    rw [hs4] at hl4
                    simp only [List.length_cons] at hl4
                    split at h
                    · rename_i h44
                      simp only [Option.map_eq_some', Prod.mk.injEq] at h
                      obtain ⟨r, hr, hms, hrest⟩ := h
                      obtain ⟨hlm, hfm⟩ := ihM d _ r.1 r.2 hr
                      have hl5 := jsonSkipSpace_length rest4
                      subst hms hrest
                      refine ⟨by simp only [List.length_cons]; omega, ?_⟩
                      intro f' d' hd' hf'
                      simp only [List.length_cons] at hf'
                      obtain ⟨g, rfl⟩ : ∃ g, f' = g + 1 := ⟨f' - 1, by omega⟩
                      rw [jsonParseMembers, if_pos hc, hsc]
                      simp only
                      rw [hu, hs]
                      simp only [if_pos h58]
                      rw [hfv g d' hd' (by omega)]
                      simp only
                      rw [hs4]
                      simp only [if_pos h44]
                      rw [hfm g d' hd' (by omega)]
                      rfl
                    · rename_i h44
                      split at h
                      · rename_i h125
                        simp only [Option.some.injEq, Prod.mk.injEq] at h
                        obtain ⟨hms, hrest⟩ := h
                        subst hms hrest
                        refine ⟨by simp only [List.length_cons]; omega, ?_⟩
                        intro f' d' hd' hf'
                        simp only [List.length_cons] at hf'
                        obtain ⟨g, rfl⟩ : ∃ g, f' = g + 1 := ⟨f' - 1, by omega⟩
                        rw [jsonParseMembers, if_pos hc, hsc]
                        simp only
                        rw [hu, hs]
                        simp only [if_pos h58]
                        rw [hfv g d' hd' (by omega)]
                        simp only
                        rw [hs4]
                        simp only [if_neg h44, if_pos h125]
                      · simp at h
              · simp at h
            · simp at h
        · simp at h
    · intro d data vs rest h
      rw [jsonParseElements] at h
      split at h
      · simp at h
      · rename_i v rest0 hv
        obtain ⟨hlv, hfv⟩ := ihV d _ v rest0 hv
        split at h
        · simp at h
        · rename_i c rest1 hs
          have hl1 := jsonSkipSpace_length rest0
          rw [hs] at hl1
          simp only [List.length_cons] at hl1
          split at h
          · rename_i h44
            simp only [Option.map_eq_some', Prod.mk.injEq] at h
            obtain ⟨r, hr, hvs, hrest⟩ := h
            obtain ⟨hle, hfe⟩ := ihE d _ r.1 r.2 hr
            have hl2 := jsonSkipSpace_length rest1
            subst hvs hrest
            refine ⟨by omega, ?_⟩
            intro f' d' hd' hf'
            obtain ⟨g, rfl⟩ : ∃ g, f' = g + 1 := ⟨f' - 1, by omega⟩
            rw [jsonParseElements, hfv g d' hd' (by omega)]
            simp only
            rw [hs]
            simp only [if_pos h44]
            rw [hfe g d' hd' (by omega)]
            rfl
          · rename_i h44
            split at h
            · rename_i h93
              simp only [Option.some.injEq, Prod.mk.injEq] at h
              obtain ⟨hvs, hrest⟩ := h
              subst hvs hrest
              refine ⟨by omega, ?_⟩
              intro f' d' hd' hf'
              obtain ⟨g, rfl⟩ : ∃ g, f' = g + 1 := ⟨f' - 1, by omega⟩
              rw [jsonParseElements, hfv g d' hd' (by omega)]
              simp only
              rw [hs]
              simp only [if_neg h44, if_pos h93]
            · simp at h

/-! ## encoding/json: the text of each value the parser read -/

theorem jsonValueSpan_of_parse {f d : Nat} {data rest : Bytes} {v : JValue}
    (h : jsonParseValue f d data = some (v, rest)) :
    ∃ text, jsonValueSpan data = some (text, rest) := by
  cases data with
  | nil =>
    cases f with
    | zero => simp [jsonParseValue] at h
    | succ n => simp [jsonParseValue] at h
  | cons c tail =>
    by_cases hc : c = 34
    · cases f with
      | zero => simp [jsonParseValue] at h
      | succ n =>
        subst hc
        rw [jsonParseValue] at h
        simp only [show ¬ (34 = 123) by decide, show ¬ (34 = 91) by decide, if_false,
          if_true] at h
        split at h
        · simp at h
        · rename_i body rest1 hsc
          simp only [Option.map_eq_some', Prod.mk.injEq] at h
          obtain ⟨s, _, _, hrest⟩ := h
          subst hrest
          rw [jsonValueSpan]
          simp only [if_true]
          rw [hsc]
          exact ⟨_, rfl⟩
    · obtain ⟨hlen, hfuel⟩ := (jsonParse_fuel f).1 d (c :: tail) v rest h
      rw [jsonValueSpan]
      simp only [if_neg hc]
      rw [hfuel (2 * (c :: tail).length + 2) 0 (Nat.zero_le _) (by omega)]
      exact ⟨_, rfl⟩

theorem jsonMembersRaw_of_parse (f : Nat) : ∀ (d : Nat) (data : Bytes)
    (ms : List (Bytes × JValue)) (rest : Bytes),
    jsonParseMembers f d data = some (ms, rest) →
    ∃ raw, raw.map (·.1) = ms.map (·.1) ∧ ms.length + rest.length ≤ data.length ∧
      ∀ g, ms.length ≤ g → jsonMembersRaw g data = some raw := by
  induction f with
  | zero => intro d data ms rest h; simp [jsonParseMembers] at h
  | succ n ih =>
    intro d data ms rest h
    cases data with
    | nil => simp [jsonParseMembers] at h
    | cons c tail =>
      rw [jsonParseMembers] at h
      split at h
      · rename_i hc
        split at h
        · simp at h
        · rename_i body rest1 hsc
          have hl1 := jsonScanString_length hsc
          split at h
          · rename_i key c2 rest2 hu hs
            have hl2 := jsonSkipSpace_length rest1
            rw [hs] at hl2
            simp only [List.length_cons] at hl2
            split at h
            · rename_i h58
              split at h
              · simp at h
              · rename_i v rest3 hv
                obtain ⟨text, hspan⟩ := jsonValueSpan_of_parse hv
                have hlv := ((jsonParse_fuel n).1 d _ v rest3 hv).1
                have hl3 := jsonSkipSpace_length rest2
                have hmem : jsonMemberRaw (c :: tail) = some ((key, text), rest3) := by
                  rw [jsonMemberRaw, if_pos hc, hsc]
                  simp only
                  rw [hu, hs]
                  simp only [if_pos h58]
                  rw [hspan]
                  rfl
                split at h
                · simp at h
                · rename_i c4 rest4 hs4
                  have hl4 := jsonSkipSpace_length rest3
                  rw [hs4] at hl4
                  simp only [List.length_cons] at hl4
                  split at h
                  · rename_i h44
                    simp only [Option.map_eq_some', Prod.mk.injEq] at h
                    obtain ⟨r, hr, hms, hrest⟩ := h
                    obtain ⟨raw, hkeys, hlen, hraw⟩ := ih d _ r.1 r.2 hr
                    have hl5 := jsonSkipSpace_length rest4
                    subst hms hrest
                    refine ⟨(key, text) :: raw, by simp [hkeys], ?_, ?_⟩
                    · simp only [List.length_cons]; omega
                    · intro g hg
                      simp only [List.length_cons] at hg
                      obtain ⟨k, rfl⟩ : ∃ k, g = k + 1 := ⟨g - 1, by omega⟩
                      exact jsonMembersRaw_more k _ _ rest3 rest4 raw hmem
                        (by rw [hs4, h44]) (hraw k (by omega))
                  · rename_i h44
                    split at h
                    · rename_i h125
                      simp only [Option.some.injEq, Prod.mk.injEq] at h
                      obtain ⟨hms, hrest⟩ := h
                      subst hms hrest
                      refine ⟨[(key, text)], by simp, ?_, ?_⟩
                      · simp only [List.length_cons, List.length_nil]; omega
                      · intro g hg
                        simp only [List.length_cons, List.length_nil] at hg
                        obtain ⟨k, rfl⟩ : ∃ k, g = k + 1 := ⟨g - 1, by omega⟩
                        exact jsonMembersRaw_last k _ _ rest3 rest4 hmem
                          (by rw [hs4, h125])
                    · simp at h
            · simp at h
          · simp at h
      · simp at h

theorem jsonElementsRaw_of_parse (f : Nat) : ∀ (d : Nat) (data : Bytes)
    (vs : List JValue) (rest : Bytes),
    jsonParseElements f d data = some (vs, rest) →
    ∃ raw, raw.length = vs.length ∧ vs.length + rest.length ≤ data.length ∧
      ∀ g, vs.length ≤ g → jsonElementsRaw g data = some raw := by
  induction f with
  | zero => intro d data vs rest h; simp [jsonParseElements] at h
  | succ n ih =>
    intro d data vs rest h
    rw [jsonParseElements] at h
    split at h
    · simp at h
    · rename_i v rest0 hv
      obtain ⟨text, hspan⟩ := jsonValueSpan_of_parse hv
      have hlv := ((jsonParse_fuel n).1 d _ v rest0 hv).1
      split at h
      · simp at h
      · rename_i c rest1 hs
        have hl1 := jsonSkipSpace_length rest0
        rw [hs] at hl1
        simp only [List.length_cons] at hl1
        split at h
        · rename_i h44
          simp only [Option.map_eq_some', Prod.mk.injEq] at h
          obtain ⟨r, hr, hvs, hrest⟩ := h
          obtain ⟨raw, hcount, hlen, hraw⟩ := ih d _ r.1 r.2 hr
          have hl2 := jsonSkipSpace_length rest1
          subst hvs hrest
          refine ⟨text :: raw, by simp [hcount], ?_, ?_⟩
          · simp only [List.length_cons]; omega
          · intro g hg
            simp only [List.length_cons] at hg
            obtain ⟨k, rfl⟩ : ∃ k, g = k + 1 := ⟨g - 1, by omega⟩
            rw [jsonElementsRaw, hspan]
            simp only
            rw [hs]
            simp only [if_pos h44]
            rw [hraw k (by omega)]
            rfl
        · rename_i h44
          split at h
          · rename_i h93
            simp only [Option.some.injEq, Prod.mk.injEq] at h
            obtain ⟨hvs, hrest⟩ := h
            subst hvs hrest
            refine ⟨[text], by simp, ?_, ?_⟩
            · simp only [List.length_cons, List.length_nil]; omega
            · intro g hg
              simp only [List.length_cons, List.length_nil] at hg
              obtain ⟨k, rfl⟩ : ∃ k, g = k + 1 := ⟨g - 1, by omega⟩
              rw [jsonElementsRaw, hspan]
              simp only
              rw [hs]
              simp only [if_neg h44, if_pos h93]
          · simp at h

/-- A well-formed Object-shaped text has members: one (key, text of the
value) per member the parser read, with the same keys in the same order. -/
theorem jsonObjectRaw_of_valid {data : Bytes} (ho : isObject data = true)
    (hv : jsonValid data = true) :
    ∃ parsed members, jsonParse data = some (.object parsed) ∧
      jsonObjectRaw data = some members ∧ members.map (·.1) = parsed.map (·.1) := by
  have h1 := isObject_first ho
  have h0 := isObject_ne_nil ho
  cases data with
  | nil => simp at h0
  | cons c tail =>
    simp only [List.getD_cons_zero] at h1
    subst h1
    obtain ⟨v, left, hp, hj⟩ := jsonParse_of_head (by decide) hv
    rw [show 2 * (123 :: tail).length + 2 = (2 * (123 :: tail).length + 1) + 1 from rfl,
      jsonParseValue] at hp
    simp only [if_true, show ¬ (jsonMaxNestingDepth < 0 + 1) by decide, if_false] at hp
    unfold jsonObjectRaw
    rw [jsonSkipSpace_of_head (by decide)]
    simp only [if_true]
    split at hp
    · simp at hp
    · rename_i c1 rest1 hs
      split at hp
      · rename_i h125
        simp only [Option.some.injEq, Prod.mk.injEq] at hp
        rw [if_pos h125]
        exact ⟨[], [], by rw [hj, ← hp.1], rfl, rfl⟩
      · rename_i h125
        rw [if_neg h125]
        simp only [Option.map_eq_some', Prod.mk.injEq] at hp
        obtain ⟨r, hr, hval, _⟩ := hp
        obtain ⟨raw, hkeys, hlen, hraw⟩ := jsonMembersRaw_of_parse _ _ _ r.1 r.2 hr
        have hl := jsonSkipSpace_length tail
        rw [hs] at hl
        refine ⟨r.1, raw, by rw [hj, ← hval], hraw _ ?_, hkeys⟩
        simp only [List.length_cons] at hl hlen ⊢
        omega

/-- A well-formed Array-shaped text has elements: one text per value the
parser read. -/
theorem jsonArrayRaw_of_valid {data : Bytes} (ha : isArray data = true)
    (hv : jsonValid data = true) :
    ∃ items texts, jsonParse data = some (.array items) ∧
      jsonArrayRaw data = some texts ∧ texts.length = items.length := by
  have h1 := isArray_first ha
  have h0 := isArray_ne_nil ha
  cases data with
  | nil => simp at h0
  | cons c tail =>
    simp only [List.getD_cons_zero] at h1
    subst h1
    obtain ⟨v, left, hp, hj⟩ := jsonParse_of_head (by decide) hv
    rw [show 2 * (91 :: tail).length + 2 = (2 * (91 :: tail).length + 1) + 1 from rfl,
      jsonParseValue] at hp
    simp only [show ¬ (91 = 123) by decide, if_true,
      show ¬ (jsonMaxNestingDepth < 0 + 1) by decide, if_false] at hp
    unfold jsonArrayRaw
    rw [jsonSkipSpace_of_head (by decide)]
    simp only [if_true]
    split at hp
    · simp at hp
    · rename_i c1 rest1 hs
      split at hp
      · rename_i h93
        simp only [Option.some.injEq, Prod.mk.injEq] at hp
        rw [if_pos h93]
        exact ⟨[], [], by rw [hj, ← hp.1], rfl, rfl⟩
      · rename_i h93
        rw [if_neg h93]
        simp only [Option.map_eq_some', Prod.mk.injEq] at hp
        obtain ⟨r, hr, hval, _⟩ := hp
        obtain ⟨raw, hcount, hlen, hraw⟩ := jsonElementsRaw_of_parse _ _ _ r.1 r.2 hr
        have hl := jsonSkipSpace_length tail
        rw [hs] at hl
        refine ⟨r.1, raw, by rw [hj, ← hval], hraw _ ?_, hcount⟩
        simp only [List.length_cons] at hl hlen ⊢
        omega

/-! ## Repository: the `switch` on the type -/

theorem PackageOrSlice_UnmarshalJSON_returns (fuel : Nat) (p : PackageOrSlice) (data : Bytes)
    (h : isArray data = false) : ∃ res, PackageOrSlice.UnmarshalJSON (fuel + 1) p data = .ret res := by
  unfold PackageOrSlice.UnmarshalJSON
  split
  · exact ⟨_, rfl⟩
  · split
    · obtain ⟨⟨temp, err⟩, hres⟩ := jsonUnmarshalStruct_returns "gocomposer.InlinePackage" []
        (fun (r : InlinePackage) _ _ => Exec.ret (Stored.ok r)) data {}
        (fun _ _ r _ _ _ => ⟨_, rfl⟩)
      rw [hres]
      cases err with
      | none => exact ⟨_, rfl⟩
      | some msg => exact ⟨_, rfl⟩
    · rw [h]
      exact ⟨_, rfl⟩

theorem PackageRepository_store_returns (fuel : Nat) (r : PackageRepository) (i : Nat)
    (text : Bytes) (h : isArray text = false) :
    ∃ s, PackageRepository.store (fuel + 1) r i text = .ret s := by
  unfold PackageRepository.store
  split
  all_goals first
    | exact ⟨_, rfl⟩
    | exact Stored_ofUnmarshaler_returns _ _ (PackageOrSlice_UnmarshalJSON_returns fuel _ text h)

/-- The `switch` of `Repository.UnmarshalJSON` on an object whose generic
decoding gave a map with the string `t` under `type`: `composer`, `path`,
`artifact` and `pear` return with Type set to the tag, each of the ten
version-control tags returns with Type `vcs`, `package` sets Type to
`package` whenever it returns (and it returns when no member is
Array-shaped), and any other string is the error "repository type not
recognized"; Disabled and Name are left as they were. -/
theorem Repository_UnmarshalJSON_dispatch (fuel : Nat) (order : GoMap → GoMap)
    (r : Repository) (data : Bytes) (m : GoMap) (repoType t : Bytes)
    (hobj : isObject data = true) (hm : jsonUnmarshalAnyMap data [] = (m, none))
    (ht : m.get (bytesOf "type") = some repoType)
    (hs : jsonParse repoType = some (.string t)) :
    (t ∈ [bytesOf "composer", bytesOf "path", bytesOf "artifact", bytesOf "pear"] →
        ∃ r1 err, Repository.UnmarshalJSON fuel order r data = .ret (r1, err) ∧
          r1.Type_ = t ∧ r1.Disabled = r.Disabled ∧ r1.Name = r.Name) ∧
      (t ∈ vcsTags →
        ∃ r1 err, Repository.UnmarshalJSON fuel order r data = .ret (r1, err) ∧
          r1.Type_ = bytesOf "vcs" ∧ r1.Disabled = r.Disabled ∧ r1.Name = r.Name) ∧
      (t = bytesOf "package" →
        (∀ r1 err, Repository.UnmarshalJSON fuel order r data = .ret (r1, err) →
          r1.Type_ = t ∧ r1.Disabled = r.Disabled ∧ r1.Name = r.Name) ∧
        (fuel ≠ 0 →
          (∀ members, jsonObjectRaw data = some members → ∀ kv ∈ members, isArray kv.2 = false) →
          ∃ r1 err, Repository.UnmarshalJSON fuel order r data = .ret (r1, err))) ∧
      (t ∉ bytesOf "composer" :: bytesOf "path" :: bytesOf "artifact" :: bytesOf "pear" ::
            bytesOf "package" :: vcsTags →
        Repository.UnmarshalJSON fuel order r data =
          .ret (r, some "repository type not recognized")) := by
  rw [Repository_UnmarshalJSON_typed_eq fuel order r data m repoType t hobj hm ht hs]
  refine ⟨?_, ?_, ?_, ?_⟩
  · intro hmem
    simp only [List.mem_cons, List.mem_singleton, List.not_mem_nil, or_false] at hmem
    rcases hmem with h | h | h | h
    · subst h
      rw [if_pos rfl]
      obtain ⟨a, err, ha⟩ := Repository_withRecord_returns
        (jsonUnmarshalStruct "gocomposer.ComposerRepository" ComposerRepository.names
          ComposerRepository.store data r.Composer)
        (fun v => { r with Type_ := TypeComposer, Composer := v })
        (jsonUnmarshalStruct_returns _ _ _ _ _ (fun _ _ _ _ _ _ => ⟨_, rfl⟩))
      exact ⟨_, err, ha, rfl, rfl, rfl⟩
    · subst h
      rw [if_neg (by decide), if_neg (by decide), if_pos rfl]
      obtain ⟨a, err, ha⟩ := Repository_withRecord_returns
        (jsonUnmarshalStruct "gocomposer.PathRepository" PathRepository.names
          PathRepository.store data r.Path)
        (fun v => { r with Type_ := TypePath, Path := v })
        (jsonUnmarshalStruct_returns _ _ _ _ _ (fun _ _ _ _ _ _ => ⟨_, rfl⟩))
      exact ⟨_, err, ha, rfl, rfl, rfl⟩
    · subst h
      rw [if_neg (by decide), if_neg (by decide), if_neg (by decide), if_pos rfl]
      obtain ⟨a, err, ha⟩ := Repository_withRecord_returns
        (jsonUnmarshalStruct "gocomposer.ArtifactRepository" ArtifactRepository.names
          ArtifactRepository.store data r.Artifact)
        (fun v => { r with Type_ := TypeArtifact, Artifact := v })
        (jsonUnmarshalStruct_returns _ _ _ _ _ (fun _ _ _ _ _ _ => ⟨_, rfl⟩))
      exact ⟨_, err, ha, rfl, rfl, rfl⟩
    · subst h
      rw [if_neg (by decide), if_neg (by decide), if_neg (by decide), if_neg (by decide),
        if_pos rfl]
      obtain ⟨a, err, ha⟩ := Repository_withRecord_returns
        (jsonUnmarshalStruct "gocomposer.PearRepository" PearRepository.names
          PearRepository.store data r.Pear)
        (fun v => { r with Type_ := TypePear, Pear := v })
        (jsonUnmarshalStruct_returns _ _ _ _ _ (fun _ _ _ _ _ _ => ⟨_, rfl⟩))
      exact ⟨_, err, ha, rfl, rfl, rfl⟩
  · intro hmem
    have hnc : t ≠ bytesOf "composer" := by
      intro h; subst h; revert hmem; decide
    rw [if_neg hnc, if_pos hmem]
    obtain ⟨a, err, ha⟩ := Repository_withRecord_returns
      (jsonUnmarshalStruct "gocomposer.VCSRepository" VCSRepository.names
        VCSRepository.store data r.VCS)
      (fun v => { r with Type_ := TypeVCS, VCS := v })
      (jsonUnmarshalStruct_returns _ _ _ _ _ (fun members hmembers r1 i kv hkv =>
        VCSRepository_store_returns r1 i kv.2 (jsonObjectRaw_ne_quote hmembers kv hkv)))
    exact ⟨_, err, ha, rfl, rfl, rfl⟩
  · intro h
    subst h
    rw [if_neg (by decide), if_neg (by decide), if_neg (by decide), if_neg (by decide),
      if_neg (by decide), if_pos rfl]
    constructor
    · intro r1 err hret
      obtain ⟨a, ha⟩ := Repository_withRecord_of_ret _ _ r1 err hret
      rw [ha]
      exact ⟨rfl, rfl, rfl⟩
    · intro hf hmem
      obtain ⟨k, rfl⟩ := Nat.exists_eq_succ_of_ne_zero hf
      obtain ⟨a, err, ha⟩ := Repository_withRecord_returns
        (jsonUnmarshalStruct "gocomposer.PackageRepository" PackageRepository.names
          (PackageRepository.store (k + 1)) data r.Package)
        (fun v => { r with Type_ := TypePackage, Package := v })
        (jsonUnmarshalStruct_returns _ _ _ _ _ (fun members hmembers r1 i kv hkv =>
          PackageRepository_store_returns k r1 i kv.2 (hmem members hmembers kv hkv)))
      exact ⟨_, err, ha⟩
  · intro hmem
    simp only [List.mem_cons, not_or] at hmem
    rw [if_neg hmem.1, if_neg hmem.2.2.2.2.2, if_neg hmem.2.1, if_neg hmem.2.2.1,
      if_neg hmem.2.2.2.1, if_neg hmem.2.2.2.2.1]

theorem Repository_UnmarshalJSON_dispatch_witness :
    ∃ r1 err, Repository.UnmarshalJSON 0 id {}
        (bytesOf "\x7b\"type\": \"hg\", \"url\": 5\x7d") = .ret (r1, err) ∧
      r1.Type_ = bytesOf "vcs" ∧ r1.Disabled = false ∧ r1.Name = [] :=
  (Repository_UnmarshalJSON_dispatch 0 id {} (bytesOf "\x7b\"type\": \"hg\", \"url\": 5\x7d")
    [(bytesOf "type", bytesOf "\"hg\""), (bytesOf "url", bytesOf "5")] (bytesOf "\"hg\"")
    (bytesOf "hg") (by decide) (by decide) (by decide)
    (jsonParse_string (bytesOf "hg") (by decide))).2.1 (by decide)

/-- The table at one text per row. -/
theorem Repository_UnmarshalJSON_dispatch_examples :
    Repository.UnmarshalJSON 1 id {} (bytesOf "\x7b\"type\": \"composer\", \"url\": \"u\"\x7d") =
        .ret ({ Type_ := bytesOf "composer",
                Composer := { Type_ := bytesOf "composer", URL := bytesOf "u" } }, none) ∧
      Repository.UnmarshalJSON 1 id {} (bytesOf "\x7b\"type\": \"svn\", \"url\": \"u\"\x7d") =
        .ret ({ Type_ := bytesOf "vcs",
                VCS := { Type_ := bytesOf "svn", URL := bytesOf "u" } }, none) ∧
      Repository.UnmarshalJSON 1 id {} (bytesOf "\x7b\"type\": 5\x7d") =
        .ret ({}, some "repository \"type\" must be a string") ∧
      Repository.UnmarshalJSON 1 id {} (bytesOf "\x7b\"type\": \"npm\"\x7d") =
        .ret ({}, some "repository type not recognized") ∧
      Repository.UnmarshalJSON 1 id {}
          (bytesOf "\x7b\"type\": \"package\", \"package\": \x7b\"name\": \"a/b\"\x7d\x7d") =
        .ret ({ Type_ := bytesOf "package",
                Package := { Type_ := bytesOf "package", Packages := [{}] } }, none) := by
  decide

/-! ## PackageOrSlice: the array branch -/

theorem PackageOrSlice_UnmarshalJSON_array_never_returns (p : PackageOrSlice) (data : Bytes)
    (h : isArray data = true) (hv : jsonValid data = true) (fuel : Nat) :
    PackageOrSlice.UnmarshalJSON fuel p data = .outOfFuel := by
  induction fuel with
  | zero => rfl
  | succ n ih =>
    unfold PackageOrSlice.UnmarshalJSON
    simp only [isArray_ne_nil h, isObject_false_of_isArray h, h, hv,
      jsonValueText_of_isArray h, ih]
    simp

/-! ## Repository: a `package` entry holding an array -/

/-- C11: on `{"type": "package", "package": [{}]}` the typed decoding does
not return, whatever the budget of re-entries: the `package` case hands the
array to `PackageOrSlice.UnmarshalJSON`, whose array branch calls itself
again through `json.Unmarshal(data, &p)`. -/
theorem Repository_UnmarshalJSON_package_array_never_returns (fuel : Nat)
    (order : GoMap → GoMap) (r : Repository) :
    Repository.UnmarshalJSON fuel order r
        (bytesOf "\x7b\"type\": \"package\", \"package\": [\x7b\x7d]\x7d") = .outOfFuel := by
  rw [Repository_UnmarshalJSON_typed_eq fuel order r
    (bytesOf "\x7b\"type\": \"package\", \"package\": [\x7b\x7d]\x7d")
    [(bytesOf "type", bytesOf "\"package\""), (bytesOf "package", bytesOf "[\x7b\x7d]")]
    (bytesOf "\"package\"") (bytesOf "package") (by decide) (by decide) (by decide)
    (jsonParse_string (bytesOf "package") (by decide))]
  obtain ⟨parsed, hp⟩ := jsonParse_of_isObject
    (show isObject (bytesOf "\x7b\"type\": \"package\", \"package\": [\x7b\x7d]\x7d") = true
      by decide) (by decide)
  have hraw : jsonObjectRaw (bytesOf "\x7b\"type\": \"package\", \"package\": [\x7b\x7d]\x7d") =
      some [(bytesOf "type", bytesOf "\"package\""), (bytesOf "package", bytesOf "[\x7b\x7d]")] := by
    decide
  have h0 : jsonFindField PackageRepository.names (bytesOf "type") = some 0 := by decide
  have h1 : jsonFindField PackageRepository.names (bytesOf "package") = some 1 := by decide
  have hs : ∀ cur, jsonUnmarshalString (bytesOf "\"package\"") cur = (bytesOf "package", none) := by
    intro cur
    exact jsonUnmarshalString_marshal (bytesOf "package") cur (by decide)
  have hrec : jsonUnmarshalStruct "gocomposer.PackageRepository" PackageRepository.names
      (PackageRepository.store fuel)
      (bytesOf "\x7b\"type\": \"package\", \"package\": [\x7b\x7d]\x7d") r.Package = .outOfFuel := by
    unfold jsonUnmarshalStruct
    rw [hp]
    simp only
    rw [hraw]
    simp only
    rw [jsonDecodeFields, h0]
    simp only [PackageRepository.store, hs, Stored.of]
    rw [jsonDecodeFields, h1]
    simp only [PackageRepository.store]
    rw [PackageOrSlice_UnmarshalJSON_array_never_returns _ _ (by decide) (by decide)]
    rfl
  rw [if_neg (by decide), if_neg (by decide), if_neg (by decide), if_neg (by decide),
    if_neg (by decide), if_pos rfl, hrec]
  rfl

/-- A number out of the range of `float64` anywhere in a typed object makes
the generic decoding return its error before the type is looked at. -/
theorem Repository_UnmarshalJSON_number_out_of_range :
    Repository.UnmarshalJSON 1 id {}
        (bytesOf "\x7b\"type\": \"composer\", \"url\": \"u\", \"weight\": 1e999\x7d") =
      .ret ({}, some (jsonTypeError "float64")) := by
  decide

/-! ## Repository: objects without a `type` key -/

theorem Repository_rangeDisabled_two (k1 k2 : Bytes) (rest : List Bytes) (r : Repository) :
    Repository.rangeDisabled (k1 :: k2 :: rest) true r =
      ({ r with Disabled := true, Name := k1 },
        some "a disabling repo should only have one key, the name") := by
  simp [Repository.rangeDisabled]

/-- C12: for an Object-shaped input whose generic decoding gives the map `m`
without a `type` key, `Repository.UnmarshalJSON` visits the keys of `m`:
with no key it returns no error and leaves the entry untouched (neither
disabled nor typed), with exactly one key it returns no error and the entry
is the disabled one named by the key, and with two keys or more it returns
the error "a disabling repo should only have one key, the name". -/
theorem Repository_UnmarshalJSON_untyped (fuel : Nat) (order : GoMap → GoMap)
    (r : Repository) (data : Bytes) (m : GoMap) (hobj : isObject data = true)
    (hm : jsonUnmarshalAnyMap data [] = (m, none)) (ht : m.get (bytesOf "type") = none)
    (ho : IsRangeOrder order) :
    (m = [] → Repository.UnmarshalJSON fuel order r data = .ret (r, none)) ∧
      (∀ k v, m = [(k, v)] →
        Repository.UnmarshalJSON fuel order r data =
          .ret ({ r with Disabled := true, Name := k }, none)) ∧
      (2 ≤ m.length →
        ∃ r1, Repository.UnmarshalJSON fuel order r data =
          .ret (r1, some "a disabling repo should only have one key, the name")) := by
  rw [Repository_UnmarshalJSON_untyped_eq fuel order r data m hobj hm ht]
  refine ⟨?_, ?_, ?_⟩
  · intro h0
    have hp : order m = [] := by
      have := ho m
      rw [h0] at this
      rw [h0]
      exact List.Perm.eq_nil this
    rw [hp]
    rfl
  · intro k v h1
    have hp : order m = [(k, v)] := by
      have := ho m
      rw [h1] at this
      rw [h1]
      exact List.perm_singleton.mp this
    rw [hp]
    rfl
  · intro h2
    have hl : (order m).length = m.length := (ho m).length_eq
    rcases hom : order m with _ | ⟨a, _ | ⟨b, rest⟩⟩
    · rw [hom] at hl; simp at hl; omega
    · rw [hom] at hl; simp at hl; omega
    · exact ⟨{ r with Disabled := true, Name := a.1 }, by simp [Repository_rangeDisabled_two]⟩

theorem Repository_UnmarshalJSON_untyped_witness :
    Repository.UnmarshalJSON 0 id {} (bytesOf "\x7b\x7d") = .ret ({}, none) :=
  (Repository_UnmarshalJSON_untyped 0 id {} (bytesOf "\x7b\x7d") [] (by decide) (by decide)
    (by decide) (fun m => List.Perm.refl m)).1 rfl

/-- Objects without a `type` key: one key, whatever its value, and two
keys. -/
theorem Repository_UnmarshalJSON_untyped_examples :
    Repository.UnmarshalJSON 1 id {} (bytesOf "\x7b\"packagist.org\": false\x7d") =
        .ret ({ Disabled := true, Name := bytesOf "packagist.org" }, none) ∧
      Repository.UnmarshalJSON 1 id {} (bytesOf "\x7b\"a\": [1, \x7b\"b\": true\x7d]\x7d") =
        .ret ({ Disabled := true, Name := bytesOf "a" }, none) ∧
      Repository.UnmarshalJSON 1 id {} (bytesOf "\x7b\"a\": false, \"b\": false\x7d") =
        .ret ({ Disabled := true, Name := bytesOf "a" },
          some "a disabling repo should only have one key, the name") := by
  decide

/-! ## Repository: inputs that are not objects -/

/-- C13: on an input that is not Object-shaped, `Repository.UnmarshalJSON`
on a fresh value gives the anonymous disabled entry (Disabled true, Name and
Type empty) without error exactly when the input is empty or the literal
`false`, and otherwise returns the error "invalid JSON repository" and leaves
the value fresh. -/
theorem Repository_UnmarshalJSON_not_object (fuel : Nat) (order : GoMap → GoMap) (data : Bytes)
    (h : isObject data = false) :
    ((data = [] ∨ data = bytesOf "false") →
        Repository.UnmarshalJSON fuel order {} data =
          .ret ({ Disabled := true, Name := [], Type_ := [] }, none)) ∧
      (¬ (data = [] ∨ data = bytesOf "false") →
        Repository.UnmarshalJSON fuel order {} data =
          .ret ({}, some "invalid JSON repository")) := by
  constructor
  · intro hd
    have hd1 : data.length = 0 ∨ data = bytesOf "false" := by
      rcases hd with hd | hd
      · exact Or.inl (by rw [hd]; rfl)
      · exact Or.inr hd
    unfold Repository.UnmarshalJSON
    rw [if_pos hd1]
  · intro hd
    have hd1 : ¬ (data.length = 0 ∨ data = bytesOf "false") := by
      intro h1
      rcases h1 with h1 | h1
      · exact hd (Or.inl (List.length_eq_zero.mp h1))
      · exact hd (Or.inr h1)
    unfold Repository.UnmarshalJSON
    rw [if_neg hd1, h]
    simp

theorem Repository_UnmarshalJSON_not_object_witness :
    Repository.UnmarshalJSON 0 id {} (bytesOf "false") =
        .ret ({ Disabled := true, Name := [], Type_ := [] }, none) ∧
      Repository.UnmarshalJSON 0 id {} (bytesOf "true") =
        .ret ({}, some "invalid JSON repository") :=
  ⟨(Repository_UnmarshalJSON_not_object 0 id (bytesOf "false") (by decide)).1
      (Or.inr rfl),
    (Repository_UnmarshalJSON_not_object 0 id (bytesOf "true") (by decide)).2 (by decide)⟩

/-- Inputs of other shapes: `true`, `null`, a number, a string and an
array are errors; the empty input is the anonymous disabled entry. -/
theorem Repository_UnmarshalJSON_not_object_examples :
    Repository.UnmarshalJSON 1 id {} [] = .ret ({ Disabled := true }, none) ∧
      Repository.UnmarshalJSON 1 id {} (bytesOf "null") =
        .ret ({}, some "invalid JSON repository") ∧
      Repository.UnmarshalJSON 1 id {} (bytesOf "12") =
        .ret ({}, some "invalid JSON repository") ∧
      Repository.UnmarshalJSON 1 id {} (bytesOf "\"packagist.org\"") =
        .ret ({}, some "invalid JSON repository") ∧
      Repository.UnmarshalJSON 1 id {} (bytesOf "[false]") =
        .ret ({}, some "invalid JSON repository") := by
  decide

/-! ## Repository: a version-control entry, there and back -/

theorem vcsTags_valid : ∀ t ∈ vcsTags, utf8Valid t.length t = true := by decide

theorem vcsTags_not_composer : ∀ t ∈ vcsTags, t ≠ bytesOf "composer" := by decide

theorem VCSRepository_decode_typedText (t u : Bytes) (ht : utf8Valid t.length t = true)
    (hu : utf8Valid u.length u = true) :
    jsonUnmarshalStruct "gocomposer.VCSRepository" VCSRepository.names VCSRepository.store
        (Repository.typedText t u) {} =
      .ret ({ Type_ := t, URL := u }, none) := by
  unfold jsonUnmarshalStruct
  rw [Repository_typedText_parse t u ht hu]
  simp only
  rw [Repository_typedText_raw t u]
  simp only
  have h0 : jsonFindField VCSRepository.names (bytesOf "type") = some 0 := by decide
  have h1 : jsonFindField VCSRepository.names (bytesOf "url") = some 1 := by decide
  rw [jsonDecodeFields, h0]
  simp only [VCSRepository.store, jsonUnmarshalString_marshal t _ ht, Stored.of]
  rw [jsonDecodeFields, h1]
  simp only [VCSRepository.store, jsonUnmarshalString_marshal u _ hu, Stored.of]
  rw [jsonDecodeFields]

theorem VCSRepository_marshal_plain (t u : Bytes) :
    VCSRepository.marshal { Type_ := t, URL := u } =
      (bytesOf "\x7b\"type\":" ++ jsonMarshalString t ++ bytesOf ",\"url\":" ++
        jsonMarshalString u ++
        bytesOf ",\"trunk-path\":\"\",\"branches-path\":\"\",\"tags-path\":\"\"\x7d", none) := by
  have h : jsonEncodeMarshaler (StringOrBool.MarshalJSON {}) = some (bytesOf "\"\"") := by decide
  unfold VCSRepository.marshal
  simp only [h]
  simp [jsonObjectOf, jsonWriteFields, jsonFieldString, jsonFieldBool, jsonFieldStrings, bytesOf]

/-- C14 (amended): for each of the ten version-control tags `t` and every url
`u` that is valid UTF-8, decoding `{"type": t, "url": u}` on a fresh value
returns no error and gives the entry whose Type is `vcs` and whose
version-control record keeps the tag `t` as typed; encoding that entry
writes the record, so the emitted `type` is `t` itself, followed by the url
and by the three path members, which are always written. -/
theorem Repository_vcs_alias_roundtrip (fuel : Nat) (order : GoMap → GoMap)
    (encodeAny : GoMap → Bytes) (t u : Bytes) (ht : t ∈ vcsTags)
    (hu : utf8Valid u.length u = true) :
    Repository.UnmarshalJSON fuel order {} (Repository.typedText t u) =
        .ret ({ Type_ := TypeVCS, VCS := { Type_ := t, URL := u } }, none) ∧
      Repository.MarshalJSON fuel encodeAny { Type_ := TypeVCS, VCS := { Type_ := t, URL := u } } =
        .ret (bytesOf "\x7b\"type\":" ++ jsonMarshalString t ++ bytesOf ",\"url\":" ++
          jsonMarshalString u ++
          bytesOf ",\"trunk-path\":\"\",\"branches-path\":\"\",\"tags-path\":\"\"\x7d", none) := by
  have htv := vcsTags_valid t ht
  constructor
  · have hget : GoMap.get
        [(bytesOf "type", jsonMarshalString t), (bytesOf "url", jsonMarshalString u)]
        (bytesOf "type") = some (jsonMarshalString t) := by
      simp [GoMap.get, List.find?]
    rw [Repository_UnmarshalJSON_typed_eq fuel order {} _ _ _ t
      (Repository_typedText_isObject t u) (Repository_typedText_map t u htv hu) hget
      (jsonParse_string t htv)]
    rw [if_neg (vcsTags_not_composer t ht), if_pos ht]
    show Repository.withRecord
      (jsonUnmarshalStruct "gocomposer.VCSRepository" VCSRepository.names VCSRepository.store
        (Repository.typedText t u) {}) _ = _
    rw [VCSRepository_decode_typedText t u htv hu]
    rfl
  · unfold Repository.MarshalJSON
    have h1 : ¬ (TypeVCS = TypeComposer) := by decide
    simp only [Bool.false_eq_true, if_false, h1, if_true]
    rw [VCSRepository_marshal_plain]

theorem Repository_vcs_alias_roundtrip_witness :
    Repository.UnmarshalJSON 0 id {} (bytesOf "\x7b\"type\": \"github\", \"url\": \"u\"\x7d") =
        .ret ({ Type_ := bytesOf "vcs",
                VCS := { Type_ := bytesOf "github", URL := bytesOf "u" } }, none) ∧
      Repository.MarshalJSON 0 (fun _ => [])
          { Type_ := bytesOf "vcs", VCS := { Type_ := bytesOf "github", URL := bytesOf "u" } } =
        .ret (bytesOf ("\x7b\"type\":\"github\",\"url\":\"u\"," ++
          "\"trunk-path\":\"\",\"branches-path\":\"\",\"tags-path\":\"\"\x7d"), none) :=
  Repository_vcs_alias_roundtrip 0 id (fun _ => []) (bytesOf "github") (bytesOf "u")
    (by decide) (by decide)

/-- C14 (counterexample): decoding `{"type": "github", "url": "u"}` and
encoding the result gives an object whose `type` is `github`; it is not
`{"type":"vcs","url":"u"}`. -/
theorem Repository_vcs_alias_not_normalized :
    Repository.UnmarshalJSON 1 id {} (bytesOf "\x7b\"type\": \"github\", \"url\": \"u\"\x7d") =
        .ret ({ Type_ := bytesOf "vcs",
                VCS := { Type_ := bytesOf "github", URL := bytesOf "u" } }, none) ∧
      Repository.MarshalJSON 1 (fun _ => [])
          { Type_ := bytesOf "vcs", VCS := { Type_ := bytesOf "github", URL := bytesOf "u" } } =
        .ret (bytesOf ("\x7b\"type\":\"github\",\"url\":\"u\"," ++
          "\"trunk-path\":\"\",\"branches-path\":\"\",\"tags-path\":\"\"\x7d"), none) ∧
      bytesOf ("\x7b\"type\":\"github\",\"url\":\"u\"," ++
          "\"trunk-path\":\"\",\"branches-path\":\"\",\"tags-path\":\"\"\x7d") ≠
        bytesOf "\x7b\"type\":\"vcs\",\"url\":\"u\"\x7d" := by
  decide

/-! ## Repository: the disabling entry, there and back -/

theorem Repository_disabled_text (n : Bytes) :
    [123] ++ jsonMarshalString n ++ [58] ++ jsonMarshalBool (!true) ++ [125] =
      123 :: (jsonMarshalString n ++ bytesOf ":false\x7d") := by
  simp [jsonMarshalBool, bytesOf]

theorem Repository_disabled_text_isObject (n : Bytes) :
    isObject (123 :: (jsonMarshalString n ++ bytesOf ":false\x7d")) = true := by
  have h : 123 :: (jsonMarshalString n ++ bytesOf ":false\x7d") =
      123 :: ((jsonMarshalString n ++ bytesOf ":false") ++ [125]) := by
    simp [bytesOf]
  rw [h]
  exact isObject_braced _

theorem Repository_disabled_text_parse (n : Bytes) (hv : utf8Valid n.length n = true) :
    jsonParse (123 :: (jsonMarshalString n ++ bytesOf ":false\x7d")) =
      some (.object [(n, .bool false)]) := by
  refine jsonParse_object _ 34 (jsonStringBody n.length n ++ 34 :: bytesOf ":false\x7d") []
    _ ?_ (by decide) ?_ rfl
  · rw [jsonSkipSpace_marshal, jsonMarshalString_append]
  · rw [← jsonMarshalString_append]
    refine jsonParseMembers_last _ 1 n _ (bytesOf "false\x7d") (bytesOf "\x7d") [] _ hv rfl ?_ rfl
    exact jsonParseValue_false _ 1 _ (by simp)

theorem Repository_disabled_text_raw (n : Bytes) (hv : utf8Valid n.length n = true) :
    jsonObjectRaw (123 :: (jsonMarshalString n ++ bytesOf ":false\x7d")) =
      some [(n, bytesOf "false")] := by
  refine jsonObjectRaw_members _ 34 (jsonStringBody n.length n ++ 34 :: bytesOf ":false\x7d")
    _ ?_ (by decide) ?_
  · rw [jsonSkipSpace_marshal, jsonMarshalString_append]
  · rw [← jsonMarshalString_append, List.length_cons]
    refine jsonMembersRaw_last _ _ (n, bytesOf "false") (bytesOf "\x7d") [] ?_ rfl
    exact jsonMemberRaw_marshal n _ (bytesOf "false\x7d") _ _ hv rfl (by decide)

theorem Repository_disabled_text_map (n : Bytes) (hv : utf8Valid n.length n = true) :
    jsonUnmarshalAnyMap (123 :: (jsonMarshalString n ++ bytesOf ":false\x7d")) [] =
      ([(n, bytesOf "false")], none) := by
  unfold jsonUnmarshalAnyMap
  rw [Repository_disabled_text_parse n hv]
  simp only
  rw [Repository_disabled_text_raw n hv]
  simp [GoMap.set, jsonSomeMemberOverflows, jsonSomeNumberOverflows]

/-- C15 (amended): for every name `n` that is valid UTF-8 and is not `type`,
`Repository.MarshalJSON` of the disabled entry named `n` returns the
single-key object `{<JSON string of n>:false}`, and
`Repository.UnmarshalJSON` of that text on a fresh value returns, without
error, the disabled entry named `n` again. -/
theorem Repository_disabled_roundtrip (fuel : Nat) (order : GoMap → GoMap)
    (encodeAny : GoMap → Bytes) (n : Bytes) (hv : utf8Valid n.length n = true)
    (hn : n ≠ bytesOf "type") (ho : IsRangeOrder order) :
    Repository.MarshalJSON fuel encodeAny { Disabled := true, Name := n } =
        .ret (123 :: (jsonMarshalString n ++ bytesOf ":false\x7d"), none) ∧
      Repository.UnmarshalJSON fuel order {}
          (123 :: (jsonMarshalString n ++ bytesOf ":false\x7d")) =
        .ret ({ Disabled := true, Name := n }, none) := by
  constructor
  · unfold Repository.MarshalJSON
    simp only [if_true]
    rw [Repository_disabled_text]
  · have hget : GoMap.get [(n, bytesOf "false")] (bytesOf "type") = none := by
      simp [GoMap.get, List.find?, hn]
    rw [Repository_UnmarshalJSON_untyped_eq fuel order {} _ _
      (Repository_disabled_text_isObject n) (Repository_disabled_text_map n hv) hget]
    have hp : order [(n, bytesOf "false")] = [(n, bytesOf "false")] :=
      List.perm_singleton.mp (ho _)
    rw [hp]
    rfl

theorem Repository_disabled_roundtrip_witness :
    Repository.MarshalJSON 0 (fun _ => []) { Disabled := true, Name := bytesOf "packagist.org" } =
        .ret (bytesOf "\x7b\"packagist.org\":false\x7d", none) ∧
      Repository.UnmarshalJSON 0 id {} (bytesOf "\x7b\"packagist.org\":false\x7d") =
        .ret ({ Disabled := true, Name := bytesOf "packagist.org" }, none) :=
  Repository_disabled_roundtrip 0 id (fun _ => []) (bytesOf "packagist.org") (by decide)
    (by decide) (fun m => List.Perm.refl m)

/-- C15 (counterexample): the disabled entry named `type` is written as
`{"type":false}`, and decoding that text is the error
"repository \"type\" must be a string", not the disabled entry. -/
theorem Repository_disabled_roundtrip_fails_on_type :
    Repository.MarshalJSON 1 (fun _ => []) { Disabled := true, Name := bytesOf "type" } =
        .ret (bytesOf "\x7b\"type\":false\x7d", none) ∧
      Repository.UnmarshalJSON 1 id {} (bytesOf "\x7b\"type\":false\x7d") =
        .ret ({}, some "repository \"type\" must be a string") := by
  decide

/-- The example of the specification: `{"packagist.org": false}` decodes to
the disabled entry named `packagist.org`, which is written back as
`{"packagist.org":false}`. -/
theorem Repository_disabled_example :
    Repository.UnmarshalJSON 1 id {} (bytesOf "\x7b\"packagist.org\": false\x7d") =
        .ret ({ Disabled := true, Name := bytesOf "packagist.org" }, none) ∧
      Repository.MarshalJSON 1 (fun _ => []) { Disabled := true, Name := bytesOf "packagist.org" } =
        .ret (bytesOf "\x7b\"packagist.org\":false\x7d", none) := by
  decide

/-! ## Repositories: the `object` flag -/

/-- C16: `Repositories.UnmarshalJSON` never changes the field that
`IsObject` reads: whatever the input, after a call that returns `IsObject`
answers what it answered before, so a fresh value that decoded an
Object-shaped text answers `false`. -/
theorem Repositories_UnmarshalJSON_keeps_object (fuel : Nat) (order : GoMap → GoMap)
    (orderRepos : RepositoryMap → RepositoryMap) (r r1 : Repositories) (data : Bytes)
    (err : Error)
    (h : Repositories.UnmarshalJSON fuel order orderRepos r data = .ret (r1, err)) :
    r1.IsObject = r.IsObject := by
  unfold Repositories.UnmarshalJSON at h
  simp only [Repositories.IsObject]
  split at h
  · simp only [Exec.ret.injEq, Prod.mk.injEq] at h
    rw [← h.1]
  · have key : ∀ (a : Exec (Repositories × Error)),
        (∀ r2 e, a = .ret (r2, e) → r2.object = r.object) →
        (match a with
          | .ret (r1, some err) => Exec.ret (r1, some err)
          | .ret (r1, none) =>
            if isArray data then
              match jsonUnmarshalRepositorySlice (Repository.UnmarshalJSON fuel order {}) data with
              | .ret (_, some err) => .ret ({ r1 with Array := [] }, some err)
              | .ret (temp, none) =>
                .ret ({ r1 with Array := temp.filter fun rep => !(rep.Disabled && rep.Name = []) },
                  none)
              | .panic msg => .panic msg
              | .outOfFuel => .outOfFuel
            else .ret (r1, none)
          | .panic msg => .panic msg
          | .outOfFuel => .outOfFuel) = .ret (r1, err) → r1.object = r.object := by
      intro a ha h
      split at h
      · simp only [Exec.ret.injEq, Prod.mk.injEq] at h
        rw [← h.1]
        exact ha _ _ rfl
      · split at h
        · split at h
          · simp only [Exec.ret.injEq, Prod.mk.injEq] at h
            have h3 := ha _ none rfl
            rw [← h.1]
            exact h3
          · simp only [Exec.ret.injEq, Prod.mk.injEq] at h
            have h3 := ha _ none rfl
            rw [← h.1]
            exact h3
          · simp at h
          · simp at h
        · simp only [Exec.ret.injEq, Prod.mk.injEq] at h
          rw [← h.1]
          exact ha _ _ rfl
      · simp at h
      · simp at h
    refine key _ ?_ h
    intro r2 e h2
    split at h2
    · split at h2
      · simp only [Exec.ret.injEq, Prod.mk.injEq] at h2
        rw [← h2.1]
      · simp only [Exec.ret.injEq, Prod.mk.injEq] at h2
        rw [← h2.1]
      · simp at h2
      · simp at h2
    · simp only [Exec.ret.injEq, Prod.mk.injEq] at h2
      rw [← h2.1]

theorem Repositories_UnmarshalJSON_keeps_object_witness :
    Repositories.UnmarshalJSON 1 id id {}
        (bytesOf "\x7b\"foo\": \x7b\"type\":\"path\", \"url\":\"../foo\"\x7d\x7d") =
      .ret ({ Array := [{ Type_ := bytesOf "path", Name := bytesOf "foo",
                          Path := { Type_ := bytesOf "path", URL := bytesOf "../foo" } }] },
        none) ∧
      Repositories.IsObject
          { Array := [{ Type_ := bytesOf "path", Name := bytesOf "foo",
                        Path := { Type_ := bytesOf "path", URL := bytesOf "../foo" } }] } =
        Repositories.IsObject {} :=
  ⟨by decide,
    Repositories_UnmarshalJSON_keeps_object 1 id id {} _
      (bytesOf "\x7b\"foo\": \x7b\"type\":\"path\", \"url\":\"../foo\"\x7d\x7d") none
      (by decide)⟩

/-- The scenario of the specification: the object form decodes to the one
entry named `foo`, and `IsObject` answers `false` afterwards. -/
theorem Repositories_IsObject_scenario :
    Repositories.UnmarshalJSON 1 id id {}
        (bytesOf "\x7b\"foo\": \x7b\"type\":\"path\", \"url\":\"../foo\"\x7d\x7d") =
      .ret ({ object := false,
              Array := [{ Type_ := bytesOf "path", Name := bytesOf "foo",
                          Path := { Type_ := bytesOf "path", URL := bytesOf "../foo" } }] },
        none) ∧
      Repositories.IsObject
        { object := false,
          Array := [{ Type_ := bytesOf "path", Name := bytesOf "foo",
                      Path := { Type_ := bytesOf "path", URL := bytesOf "../foo" } }] } = false := by
  decide

/-! ## Repositories: the object form -/

theorem RepositoryMap_set_new (m : RepositoryMap) (k : Bytes) (v : Repository)
    (h : ∀ e ∈ m, e.1 ≠ k) : RepositoryMap.set m k v = m ++ [(k, v)] := by
  unfold RepositoryMap.set
  have : m.any (fun kv => kv.1 = k) = false := by
    rw [List.any_eq_false]
    intro e he
    simpa using h e he
  rw [this]
  simp

theorem jsonDecodeRepositoryMap_all (decode : Bytes → Exec (Repository × Error))
    (members : List (Bytes × Bytes)) (reps : List Repository)
    (hd : List.Forall₂ (fun kv rep => decode kv.2 = .ret (rep, none)) members reps) :
    ∀ (m : RepositoryMap), (members.map (·.1)).Nodup →
      (∀ e ∈ m, e.1 ∉ members.map (·.1)) →
      jsonDecodeRepositoryMap decode members m =
        .ret (m ++ List.zipWith (fun kv rep => (kv.1, rep)) members reps, none) := by
  induction hd with
  | nil => intro m _ _; simp [jsonDecodeRepositoryMap]
  | @cons kv rep members reps h _ ih =>
    intro m hn hm
    obtain ⟨key, text⟩ := kv
    rw [jsonDecodeRepositoryMap, h]
    simp only
    have hnew : ∀ e ∈ m, e.1 ≠ key := by
      intro e he heq
      exact hm e he (by simp [heq])
    rw [RepositoryMap_set_new m key rep hnew]
    simp only [List.map_cons, List.nodup_cons] at hn
    rw [ih (m ++ [(key, rep)]) hn.2]
    · simp
    · intro e he
      rcases List.mem_append.mp he with he | he
      · intro hmem
        exact hm e he (by simp [hmem])
      · simp only [List.mem_singleton] at he
        rw [he]
        exact hn.1

theorem Repositories_getRepoLoop_mem (l : List Repository) (hn : (l.map (·.Name)).Nodup)
    (e : Repository) (he : e ∈ l) : Repositories.getRepoLoop l e.Name = (e, true) := by
  induction l with
  | nil => simp at he
  | cons a rest ih =>
    simp only [List.map_cons, List.nodup_cons] at hn
    rw [Repositories.getRepoLoop]
    rcases List.mem_cons.mp he with he | he
    · rw [he]; simp
    · have hne : a.Name ≠ e.Name := by
        intro heq
        exact hn.1 (by rw [heq]; exact List.mem_map_of_mem _ he)
      rw [if_neg hne]
      exact ih hn.2 he

theorem Repositories_getRepoLoop_not_mem (l : List Repository) (name : Bytes)
    (h : name ∉ l.map (·.Name)) : Repositories.getRepoLoop l name = ({}, false) := by
  induction l with
  | nil => rfl
  | cons a rest ih =>
    simp only [List.map_cons, List.mem_cons, not_or] at h
    rw [Repositories.getRepoLoop, if_neg (fun heq => h.1 heq.symm)]
    exact ih h.2

theorem zipWith_named_names (members : List (Bytes × Bytes)) (reps : List Repository)
    (hl : members.length = reps.length) :
    (List.zipWith (fun (kv : Bytes × Bytes) (rep : Repository) => { rep with Name := kv.1 })
      members reps).map (·.Name) = members.map (·.1) := by
  induction members generalizing reps with
  | nil => simp
  | cons kv rest ih =>
    cases reps with
    | nil => simp at hl
    | cons rep reps =>
      simp only [List.length_cons, add_left_inj] at hl
      simp [ih reps hl]

theorem mem_zipWith_of_mem_zip {α β γ : Type} (f : α → β → γ) (l1 : List α) (l2 : List β)
    (a : α) (b : β) (h : (a, b) ∈ l1.zip l2) : f a b ∈ List.zipWith f l1 l2 := by
  induction l1 generalizing l2 with
  | nil => simp at h
  | cons x xs ih =>
    cases l2 with
    | nil => simp at h
    | cons y ys =>
      simp only [List.zip_cons_cons, List.mem_cons, Prod.mk.injEq] at h
      simp only [List.zipWith_cons_cons, List.mem_cons]
      rcases h with h | h
      · exact Or.inl (by rw [h.1, h.2])
      · exact Or.inr (ih ys h)

theorem named_zipWith (members : List (Bytes × Bytes)) (reps : List Repository) :
    Repositories.named (List.zipWith (fun kv rep => (kv.1, rep)) members reps) =
      List.zipWith (fun (kv : Bytes × Bytes) (rep : Repository) => { rep with Name := kv.1 })
        members reps := by
  unfold Repositories.named
  induction members generalizing reps with
  | nil => simp
  | cons kv rest ih =>
    cases reps with
    | nil => simp
    | cons rep reps => simp [ih reps]

/-- C17: for an Object-shaped, well-formed text with distinct keys whose
values all decode without error, `Repositories.UnmarshalJSON` returns no
error with one entry per key, in some order: the decoded value with Name set
to the key. `GetRepo` of a key returns that entry and `true`, and `GetRepo`
of a name that is not a key returns the zero Repository and `false`. -/
theorem Repositories_UnmarshalJSON_object (fuel : Nat) (order : GoMap → GoMap)
    (orderRepos : RepositoryMap → RepositoryMap) (r : Repositories) (data : Bytes)
    (members : List (Bytes × Bytes)) (reps : List Repository)
    (ho : isObject data = true) (hv : jsonValid data = true)
    (hm : jsonObjectRaw data = some members) (hk : (members.map (·.1)).Nodup)
    (hd : List.Forall₂
      (fun kv rep => Repository.UnmarshalJSON fuel order {} kv.2 = .ret (rep, none))
      members reps)
    (hr : IsRepositoryOrder orderRepos) :
    ∃ res, Repositories.UnmarshalJSON fuel order orderRepos r data = .ret (res, none) ∧
      res.Array.Perm
        (List.zipWith (fun (kv : Bytes × Bytes) (rep : Repository) => { rep with Name := kv.1 })
          members reps) ∧
      (∀ kv rep, (kv, rep) ∈ members.zip reps →
        res.GetRepo kv.1 = ({ rep with Name := kv.1 }, true)) ∧
      (∀ name, name ∉ members.map (·.1) → res.GetRepo name = ({}, false)) := by
  obtain ⟨parsed, hp⟩ := jsonParse_of_isObject ho hv
  have hl : members.length = reps.length := hd.length_eq
  have hdec : jsonUnmarshalRepositoryMap (Repository.UnmarshalJSON fuel order {}) data =
      .ret (List.zipWith (fun kv rep => (kv.1, rep)) members reps, none) := by
    unfold jsonUnmarshalRepositoryMap
    rw [hp]
    simp only
    rw [hm]
    simp only
    rw [jsonDecodeRepositoryMap_all _ members reps hd [] hk (by simp)]
    simp
  have hperm : (Repositories.named
      (orderRepos (List.zipWith (fun kv rep => (kv.1, rep)) members reps))).Perm
      (List.zipWith (fun (kv : Bytes × Bytes) (rep : Repository) => { rep with Name := kv.1 })
        members reps) := by
    rw [← named_zipWith]
    exact List.Perm.map _ (hr _)
  have hnames : ((Repositories.named
      (orderRepos (List.zipWith (fun kv rep => (kv.1, rep)) members reps))).map (·.Name)).Perm
      (members.map (·.1)) := by
    rw [← zipWith_named_names members reps hl]
    exact List.Perm.map _ hperm
  refine ⟨{ r with Array := (Repositories.named
      (orderRepos (List.zipWith (fun kv rep => (kv.1, rep)) members reps))) }, ?_, hperm, ?_, ?_⟩
  · unfold Repositories.UnmarshalJSON
    rw [if_neg (isObject_ne_nil ho), ho, isArray_false_of_isObject ho, hdec]
    simp
  · intro kv rep hmem
    have hin : ({ rep with Name := kv.1 } : Repository) ∈
        List.zipWith (fun (kv : Bytes × Bytes) (rep : Repository) => { rep with Name := kv.1 })
          members reps := by
      exact mem_zipWith_of_mem_zip _ members reps kv rep hmem
    have := Repositories_getRepoLoop_mem _ (hnames.nodup_iff.mpr hk) _ (hperm.mem_iff.mpr hin)
    exact this
  · intro name hname
    exact Repositories_getRepoLoop_not_mem _ name (fun h => hname (hnames.mem_iff.mp h))

theorem Repositories_UnmarshalJSON_object_witness :
    ∃ res, Repositories.UnmarshalJSON 1 id id {}
        (bytesOf "\x7b\"foo\": \x7b\"bar\": false\x7d, \"baz\": false\x7d") = .ret (res, none) ∧
      res.Array.Perm
        (List.zipWith (fun (kv : Bytes × Bytes) (rep : Repository) => { rep with Name := kv.1 })
          [(bytesOf "foo", bytesOf "\x7b\"bar\": false\x7d"), (bytesOf "baz", bytesOf "false")]
          [{ Disabled := true, Name := bytesOf "bar" }, { Disabled := true }]) ∧
      (∀ kv rep, (kv, rep) ∈
          [(bytesOf "foo", bytesOf "\x7b\"bar\": false\x7d"), (bytesOf "baz", bytesOf "false")].zip
            [({ Disabled := true, Name := bytesOf "bar" } : Repository), { Disabled := true }] →
        res.GetRepo kv.1 = ({ rep with Name := kv.1 }, true)) ∧
      (∀ name, name ∉
          [(bytesOf "foo", bytesOf "\x7b\"bar\": false\x7d"),
            (bytesOf "baz", bytesOf "false")].map (·.1) →
        res.GetRepo name = ({}, false)) :=
  Repositories_UnmarshalJSON_object 1 id id {}
    (bytesOf "\x7b\"foo\": \x7b\"bar\": false\x7d, \"baz\": false\x7d")
    [(bytesOf "foo", bytesOf "\x7b\"bar\": false\x7d"), (bytesOf "baz", bytesOf "false")]
    [{ Disabled := true, Name := bytesOf "bar" }, { Disabled := true }]
    (by decide) (by decide) (by decide) (by decide)
    (List.Forall₂.cons (by decide) (List.Forall₂.cons (by decide) List.Forall₂.nil))
    (fun m => List.Perm.refl m)

/-- On `{"foo": {"bar": false}}` the key overrides the name the entry decode
produced. -/
theorem Repositories_GetRepo_key_example :
    Repositories.UnmarshalJSON 1 id id {} (bytesOf "\x7b\"foo\": \x7b\"bar\": false\x7d\x7d") =
        .ret ({ Array := [{ Disabled := true, Name := bytesOf "foo" }] }, none) ∧
      Repositories.GetRepo { Array := [{ Disabled := true, Name := bytesOf "foo" }] }
          (bytesOf "foo") = ({ Disabled := true, Name := bytesOf "foo" }, true) ∧
      Repositories.GetRepo { Array := [{ Disabled := true, Name := bytesOf "foo" }] }
          (bytesOf "bar") = ({}, false) := by
  decide

/-! ## Repositories: the array form -/

theorem jsonDecodeRepositorySlice_all (decode : Bytes → Exec (Repository × Error))
    (texts : List Bytes) (reps : List Repository)
    (hd : List.Forall₂ (fun t rep => decode t = .ret (rep, none)) texts reps) :
    jsonDecodeRepositorySlice decode texts = .ret (reps, none) := by
  induction hd with
  | nil => rfl
  | cons h _ ih => rw [jsonDecodeRepositorySlice, h]; simp only; rw [ih]

/-- C18: for an Array-shaped, well-formed text whose elements all decode
without error, `Repositories.UnmarshalJSON` returns no error and sets Array
to the decoded elements in document order without those that are Disabled
with an empty Name; no entry of the result is an anonymous Disabled one, and
every other decoded element is in the result. -/
theorem Repositories_UnmarshalJSON_array (fuel : Nat) (order : GoMap → GoMap)
    (orderRepos : RepositoryMap → RepositoryMap) (r : Repositories) (data : Bytes)
    (texts : List Bytes) (reps : List Repository)
    (ha : isArray data = true) (hv : jsonValid data = true)
    (ht : jsonArrayRaw data = some texts)
    (hd : List.Forall₂ (fun t rep => Repository.UnmarshalJSON fuel order {} t = .ret (rep, none))
      texts reps) :
    Repositories.UnmarshalJSON fuel order orderRepos r data =
        .ret ({ r with Array := reps.filter fun rep => !(rep.Disabled && rep.Name = []) }, none) ∧
      (∀ rep ∈ reps.filter fun rep => !(rep.Disabled && rep.Name = []),
        ¬ (rep.Disabled = true ∧ rep.Name = [])) ∧
      (∀ rep ∈ reps, ¬ (rep.Disabled = true ∧ rep.Name = []) →
        rep ∈ reps.filter fun rep => !(rep.Disabled && rep.Name = [])) := by
  refine ⟨?_, ?_, ?_⟩
  · obtain ⟨items, hp⟩ := jsonParse_of_isArray ha hv
    unfold Repositories.UnmarshalJSON
    rw [if_neg (isArray_ne_nil ha), isObject_false_of_isArray ha, ha]
    simp only [Bool.false_eq_true, if_false, if_true]
    unfold jsonUnmarshalRepositorySlice
    rw [hp]
    simp only
    rw [ht]
    simp only
    rw [jsonDecodeRepositorySlice_all _ texts reps hd]
  · intro rep hrep
    have := (List.mem_filter.mp hrep).2
    intro h
    simp [h.1, h.2] at this
  · intro rep hrep h
    refine List.mem_filter.mpr ⟨hrep, ?_⟩
    simp only [Bool.not_eq_true', Bool.and_eq_false_iff, decide_eq_false_iff_not]
    by_cases hdis : rep.Disabled = true
    · exact Or.inr (fun hn => h ⟨hdis, hn⟩)
    · exact Or.inl (by simpa using hdis)

theorem Repositories_UnmarshalJSON_array_witness :
    Repositories.UnmarshalJSON 1 id id {}
        (bytesOf "[false, \x7b\"packagist.org\": false\x7d, \x7b\"type\":\"path\",\"url\":\"../foo\"\x7d]") =
      .ret ({ Array := [{ Disabled := true, Name := bytesOf "packagist.org" },
                { Type_ := bytesOf "path",
                  Path := { Type_ := bytesOf "path", URL := bytesOf "../foo" } }] }, none) :=
  (Repositories_UnmarshalJSON_array 1 id id {}
    (bytesOf "[false, \x7b\"packagist.org\": false\x7d, \x7b\"type\":\"path\",\"url\":\"../foo\"\x7d]")
    [bytesOf "false", bytesOf "\x7b\"packagist.org\": false\x7d",
      bytesOf "\x7b\"type\":\"path\",\"url\":\"../foo\"\x7d"]
    [{ Disabled := true }, { Disabled := true, Name := bytesOf "packagist.org" },
      { Type_ := bytesOf "path", Path := { Type_ := bytesOf "path", URL := bytesOf "../foo" } }]
    (by decide) (by decide) (by decide)
    (List.Forall₂.cons (by decide) (List.Forall₂.cons (by decide)
      (List.Forall₂.cons (by decide) List.Forall₂.nil)))).1

/-! ## PackageOrSlice -/

/-- C19: `PackageOrSlice.MarshalJSON` returns on no list, whatever the
budget of re-entries: `json.Marshal(p)` calls `p.MarshalJSON()` again. -/
theorem PackageOrSlice_MarshalJSON_never_returns (fuel : Nat) (p : PackageOrSlice) :
    PackageOrSlice.MarshalJSON fuel p = .outOfFuel := by
  induction fuel with
  | zero => rfl
  | succ n ih => rw [PackageOrSlice.MarshalJSON, ih]

/-! ## StringOrSlice: other shapes -/

/-- C20: on a non-empty input that is neither String-shaped nor Array-shaped
`StringOrSlice.UnmarshalJSON` returns no error and leaves the list as it was:
the method ends in `return nil`. -/
theorem StringOrSlice_UnmarshalJSON_other_shape (fuel : Nat) (s : StringOrSlice) (data : Bytes)
    (h0 : data ≠ []) (hs : isString data = false) (ha : isArray data = false) :
    StringOrSlice.UnmarshalJSON (fuel + 1) s data = .ret (s, none) := by
  have hl : data.length ≠ 0 := by
    intro h; exact h0 (List.length_eq_zero.mp h)
  unfold StringOrSlice.UnmarshalJSON
  rw [if_neg hl, hs, ha]
  simp

theorem StringOrSlice_UnmarshalJSON_other_shape_witness :
    StringOrSlice.UnmarshalJSON (0 + 1) [bytesOf "MIT"] (bytesOf "12") =
      .ret ([bytesOf "MIT"], none) :=
  StringOrSlice_UnmarshalJSON_other_shape 0 [bytesOf "MIT"] (bytesOf "12")
    (by decide) (by decide) (by decide)

/-- What the other decoders of the package do with the number `12`, and what
`StringOrSlice.UnmarshalJSON` does with `true`, `null` and an object. -/
theorem StringOrSlice_UnmarshalJSON_other_shape_examples :
    StringOrSlice.UnmarshalJSON 1 [] (bytesOf "true") = .ret ([], none) ∧
      StringOrSlice.UnmarshalJSON 1 [] (bytesOf "null") = .ret ([], none) ∧
      StringOrSlice.UnmarshalJSON 1 [] (bytesOf "\x7b\"a\":1\x7d") = .ret ([], none) ∧
      StringOrBool.UnmarshalJSON {} (bytesOf "12") =
        .ret ({}, some "invalid value, must be type string or bool") ∧
      Repository.UnmarshalJSON 1 id {} (bytesOf "12") =
        .ret ({}, some "invalid JSON repository") := by
  decide

/-! ## The five codecs on an empty input and on `null` -/

/-- C21 (amended): on an empty input each of the five decoders returns no
error and leaves the receiver as it was. On the literal `null`,
`StringOrSlice`, `Repositories` and `PackageOrSlice` do the same, while
`StringOrBool` and `PreferredInstall` leave the receiver as it was and return
an error. -/
theorem UnmarshalJSON_empty_and_null (fuel : Nat) (order : GoMap → GoMap)
    (orderRepos : RepositoryMap → RepositoryMap) (s : StringOrSlice) (b : StringOrBool)
    (p : PreferredInstall) (r : Repositories) (ps : PackageOrSlice) :
    (StringOrSlice.UnmarshalJSON (fuel + 1) s [] = .ret (s, none) ∧
        StringOrBool.UnmarshalJSON b [] = .ret (b, none) ∧
        PreferredInstall.UnmarshalJSON order p [] = (p, none) ∧
        Repositories.UnmarshalJSON fuel order orderRepos r [] = .ret (r, none) ∧
        PackageOrSlice.UnmarshalJSON (fuel + 1) ps [] = .ret (ps, none)) ∧
      (StringOrSlice.UnmarshalJSON (fuel + 1) s (bytesOf "null") = .ret (s, none) ∧
        Repositories.UnmarshalJSON fuel order orderRepos r (bytesOf "null") = .ret (r, none) ∧
        PackageOrSlice.UnmarshalJSON (fuel + 1) ps (bytesOf "null") = .ret (ps, none)) ∧
      (StringOrBool.UnmarshalJSON b (bytesOf "null") =
          .ret (b, some "invalid value, must be type string or bool") ∧
        PreferredInstall.UnmarshalJSON order p (bytesOf "null") =
          (p, some "preferred-install must be a string or an object")) := by
  have hs : isString (bytesOf "null") = false := by decide
  have ha : isArray (bytesOf "null") = false := by decide
  have ho : isObject (bytesOf "null") = false := by decide
  have hl : ¬ (bytesOf "null").length = 0 := by decide
  have hl2 : ¬ 0 = (bytesOf "null").length := by decide
  refine ⟨⟨rfl, rfl, rfl, rfl, rfl⟩, ⟨?_, ?_, ?_⟩, ?_, ?_⟩
  · unfold StringOrSlice.UnmarshalJSON
    rw [if_neg hl, hs, ha]
    simp
  · unfold Repositories.UnmarshalJSON
    rw [if_neg hl, ho, ha]
    simp
  · unfold PackageOrSlice.UnmarshalJSON
    rw [if_neg hl, ho, ha]
    simp
  · rfl
  · unfold PreferredInstall.UnmarshalJSON
    rw [if_neg hl2, hs, ho]
    simp

/-- C21 (counterexample): on the literal `null`, `StringOrBool.UnmarshalJSON`
and `PreferredInstall.UnmarshalJSON` return an error. -/
theorem UnmarshalJSON_null_is_an_error :
    StringOrBool.UnmarshalJSON {} (bytesOf "null") =
        .ret ({}, some "invalid value, must be type string or bool") ∧
      PreferredInstall.UnmarshalJSON id [] (bytesOf "null") =
        ([], some "preferred-install must be a string or an object") := by
  decide

/-! ## Shape sniffers: the first and the last byte -/

theorem head?_eq_getD {d : Bytes} (h : d ≠ []) : d.head? = some (d.getD 0 0) := by
  cases d with
  | nil => exact absurd rfl h
  | cons c r => simp

theorem getLast?_eq_getD {d : Bytes} (h : d ≠ []) :
    d.getLast? = some (d.getD (d.length - 1) 0) := by
  rw [List.getLast?_eq_getElem?, List.getD_eq_getElem?_getD]
  have hl : d.length - 1 < d.length := by
    have := List.length_pos.mpr h
    omega
  rw [List.getElem?_eq_getElem hl]
  simp

theorem sniff_iff (first last : Nat) (d : Bytes) :
    (if d.length = 0 then false
      else if d.getD 0 0 ≠ first ∨ d.getD (d.length - 1) 0 ≠ last then false
      else true) = true ↔
      d ≠ [] ∧ d.head? = some first ∧ d.getLast? = some last := by
  by_cases h0 : d = []
  · subst h0
    simp
  · have hl : ¬ d.length = 0 := fun h => h0 (List.length_eq_zero.mp h)
    rw [if_neg hl, head?_eq_getD h0, getLast?_eq_getD h0]
    by_cases h1 : d.getD 0 0 ≠ first ∨ d.getD (d.length - 1) 0 ≠ last
    · rw [if_pos h1]
      simp only [Bool.false_eq_true, ne_eq, Option.some.injEq, false_iff, not_and]
      intro _ hf hlast
      rcases h1 with h1 | h1
      · exact h1 hf
      · exact h1 hlast
    · rw [if_neg h1]
      simp only [not_or, not_not] at h1
      rw [h1.1, h1.2]
      exact ⟨fun _ => ⟨h0, rfl, rfl⟩, fun _ => rfl⟩

theorem isObject_iff (d : Bytes) :
    isObject d = true ↔ d ≠ [] ∧ d.head? = some 123 ∧ d.getLast? = some 125 :=
  sniff_iff 123 125 d

theorem isString_iff (d : Bytes) :
    isString d = true ↔ d ≠ [] ∧ d.head? = some 34 ∧ d.getLast? = some 34 :=
  sniff_iff 34 34 d

theorem isArray_iff (d : Bytes) :
    isArray d = true ↔ d ≠ [] ∧ d.head? = some 91 ∧ d.getLast? = some 93 :=
  sniff_iff 91 93 d

/-- The cases of `Test_isArray`, `Test_isObject` and `Test_isString`. -/
theorem test_sniffers :
    isArray (bytesOf "[1, 2]") = true ∧ isArray (bytesOf "[]") = true ∧
      isArray (bytesOf "\"[1, 2]\"") = false ∧ isArray (bytesOf "12") = false ∧
      isArray (bytesOf "0") = false ∧ isArray (bytesOf "null") = false ∧
      isObject (bytesOf "\x7b\"foo\": 1\x7d") = true ∧ isObject (bytesOf "\x7b\x7d") = true ∧
      isObject (bytesOf "\"\x7b\"foo\": 1\x7d\"") = false ∧ isObject (bytesOf "12") = false ∧
      isObject (bytesOf "0") = false ∧ isObject (bytesOf "null") = false ∧
      isString (bytesOf "\"foo\"") = true ∧ isString (bytesOf "\"\"") = true ∧
      isString (bytesOf "12") = false ∧ isString (bytesOf "0") = false ∧
      isString (bytesOf "null") = false := by
  decide

/-- C22: each sniffer answers `true` exactly on the non-empty inputs whose
first byte is the opening byte of its shape and whose last byte is the
closing one (`{` and `}`, `"` and `"`, `[` and `]`); the empty input is none
of the three shapes, and no input is two of them. -/
theorem sniffers_first_and_last_byte (d : Bytes) :
    (isObject d = true ↔ d ≠ [] ∧ d.head? = some 123 ∧ d.getLast? = some 125) ∧
      (isString d = true ↔ d ≠ [] ∧ d.head? = some 34 ∧ d.getLast? = some 34) ∧
      (isArray d = true ↔ d ≠ [] ∧ d.head? = some 91 ∧ d.getLast? = some 93) ∧
      (isObject [] = false ∧ isString [] = false ∧ isArray [] = false) ∧
      ¬ (isObject d = true ∧ isString d = true) ∧
      ¬ (isObject d = true ∧ isArray d = true) ∧
      ¬ (isString d = true ∧ isArray d = true) := by
  refine ⟨isObject_iff d, isString_iff d, isArray_iff d, ⟨rfl, rfl, rfl⟩, ?_, ?_, ?_⟩
  · rintro ⟨h1, h2⟩
    have a := ((isObject_iff d).mp h1).2.1
    have b := ((isString_iff d).mp h2).2.1
    rw [a] at b
    exact absurd b (by decide)
  · rintro ⟨h1, h2⟩
    have a := ((isObject_iff d).mp h1).2.1
    have b := ((isArray_iff d).mp h2).2.1
    rw [a] at b
    exact absurd b (by decide)
  · rintro ⟨h1, h2⟩
    have a := ((isString_iff d).mp h1).2.1
    have b := ((isArray_iff d).mp h2).2.1
    rw [a] at b
    exact absurd b (by decide)

/-! ## Shape sniffers: whitespace around the value -/

theorem jsonIsSpace_cases {b : Nat} (h : jsonIsSpace b = true) :
    b = 32 ∨ b = 9 ∨ b = 13 ∨ b = 10 := by
  simp only [jsonIsSpace, Bool.or_eq_true, decide_eq_true_eq] at h
  rcases h with ((h | h) | h) | h
  · exact Or.inl h
  · exact Or.inr (Or.inl h)
  · exact Or.inr (Or.inr (Or.inl h))
  · exact Or.inr (Or.inr (Or.inr h))

theorem sniff_false_of_head {first last : Nat} {d : Bytes} {b : Nat}
    (hb : d.head? = some b) (hne : b ≠ first) :
    ¬ (d ≠ [] ∧ d.head? = some first ∧ d.getLast? = some last) := by
  rintro ⟨_, h, _⟩
  rw [hb] at h
  exact hne (Option.some.inj h)

theorem sniff_false_of_last {first last : Nat} {d : Bytes} {b : Nat}
    (hb : d.getLast? = some b) (hne : b ≠ last) :
    ¬ (d ≠ [] ∧ d.head? = some first ∧ d.getLast? = some last) := by
  rintro ⟨_, _, h⟩
  rw [hb] at h
  exact hne (Option.some.inj h)

/-- C23 (amended): the sniffers look at the first and the last byte of the
input as it is given. With at least one byte of JSON whitespace in front of
`d` or behind it, `isObject`, `isString` and `isArray` all answer `false`,
whatever `d` is. -/
theorem sniffers_reject_padding (d pre post : Bytes)
    (hpre : ∀ b ∈ pre, jsonIsSpace b = true) (hpost : ∀ b ∈ post, jsonIsSpace b = true)
    (h : pre ≠ [] ∨ post ≠ []) :
    isObject (pre ++ d ++ post) = false ∧ isString (pre ++ d ++ post) = false ∧
      isArray (pre ++ d ++ post) = false := by
  have key : ∃ b, jsonIsSpace b = true ∧
      ((pre ++ d ++ post).head? = some b ∨ (pre ++ d ++ post).getLast? = some b) := by
    rcases h with h | h
    · cases pre with
      | nil => exact absurd rfl h
      | cons b rest => exact ⟨b, hpre b (List.mem_cons_self _ _), Or.inl (by simp)⟩
    · obtain ⟨init, b, hb⟩ : ∃ init b, post = init ++ [b] := by
        have := List.dropLast_append_getLast h
        exact ⟨_, _, this.symm⟩
      refine ⟨b, hpost b (by rw [hb]; simp), Or.inr ?_⟩
      rw [hb, ← List.append_assoc]
      simp
  obtain ⟨b, hs, hb⟩ := key
  have hb3 : b ≠ 123 ∧ b ≠ 34 ∧ b ≠ 91 ∧ b ≠ 125 ∧ b ≠ 93 := by
    rcases jsonIsSpace_cases hs with h | h | h | h <;> subst h <;> decide
  have hf : ∀ {x : Bool}, ¬ (x = true) → x = false := by
    intro x hx; cases x <;> simp_all
  refine ⟨hf ?_, hf ?_, hf ?_⟩
  · rw [isObject_iff]
    rcases hb with hb | hb
    · exact sniff_false_of_head hb hb3.1
    · exact sniff_false_of_last hb hb3.2.2.2.1
  · rw [isString_iff]
    rcases hb with hb | hb
    · exact sniff_false_of_head hb hb3.2.1
    · exact sniff_false_of_last hb hb3.2.1
  · rw [isArray_iff]
    rcases hb with hb | hb
    · exact sniff_false_of_head hb hb3.2.2.1
    · exact sniff_false_of_last hb hb3.2.2.2.2

theorem sniffers_reject_padding_witness :
    isObject (bytesOf " [1, 2] ") = false ∧ isString (bytesOf " [1, 2] ") = false ∧
      isArray (bytesOf " [1, 2] ") = false :=
  sniffers_reject_padding (bytesOf "[1, 2]") (bytesOf " ") (bytesOf " ") (by decide) (by decide)
    (Or.inl (by decide))

/-- C23 (counterexample): `[1, 2]` is Array-shaped, and ` [1, 2] `, the same
text with one space on each side, is not. -/
theorem sniffers_padding_changes_answer :
    isArray (bytesOf "[1, 2]") = true ∧ isArray (bytesOf " [1, 2] ") = false := by
  decide

/-! ## The quoted branch: slice bounds -/

theorem goSlice_inner_some {data : Bytes} (h : 2 ≤ data.length) :
    goSlice data 1 (data.length - 1) = some ((data.take (data.length - 1)).drop 1) := by
  unfold goSlice
  rw [if_pos ⟨by omega, by omega⟩]

theorem length_ge_two_of_quote {data : Bytes} (h0 : data.length ≠ 0)
    (hq : data.getD 0 0 = 34) (hne : data ≠ [34]) : 2 ≤ data.length := by
  cases data with
  | nil => simp at h0
  | cons c rest =>
    cases rest with
    | nil =>
      simp only [List.getD_cons_zero] at hq
      exact absurd (by rw [hq]) hne
    | cons c2 rest2 => simp

theorem isString_first {data : Bytes} (h : isString data = true) : data.getD 0 0 = 34 := by
  unfold isString at h
  split at h
  · simp at h
  · split at h
    · simp at h
    · rename_i h2; omega

theorem StringOrSlice_UnmarshalJSON_no_panic (fuel : Nat) : ∀ (s : StringOrSlice)
    (data : Bytes), data ≠ [34] → ∀ msg, StringOrSlice.UnmarshalJSON fuel s data ≠ .panic msg := by
  induction fuel with
  | zero => intro s data _ msg h; simp [StringOrSlice.UnmarshalJSON] at h
  | succ n ih =>
    intro s data hne msg
    unfold StringOrSlice.UnmarshalJSON
    split
    · simp
    · rename_i h0
      split
      · rename_i hs
        rw [goSlice_inner_some (length_ge_two_of_quote h0 (isString_first hs) hne)]
        simp
      · split
        · rename_i ha
          split
          · simp
          · have hrec := ih s (jsonValueText data)
              (by rw [jsonValueText_of_isArray ha]; exact hne)
            cases hr : StringOrSlice.UnmarshalJSON n s (jsonValueText data) with
            | ret res =>
              obtain ⟨s1, err⟩ := res
              cases err <;> simp
            | panic m => exact absurd hr (hrec m)
            | outOfFuel => simp
        · simp

theorem StringOrBool_UnmarshalJSON_no_panic (s : StringOrBool) (data : Bytes)
    (hne : data ≠ [34]) : ∀ msg, StringOrBool.UnmarshalJSON s data ≠ .panic msg := by
  intro msg h
  obtain ⟨res, hres⟩ := StringOrBool_UnmarshalJSON_returns s data hne
  rw [hres] at h
  simp at h

/-- C24: the quoted branch of `StringOrSlice.UnmarshalJSON` and of
`StringOrBool.UnmarshalJSON` takes the slice `data[1:len(data)-1]` without
looking at the length: on the one-byte input `"` both calls panic with
"slice bounds out of range" (the bounds are 1 and 0), and on every other
input neither call panics. -/
theorem UnmarshalJSON_panics_on_lone_quote (fuel : Nat) (s : StringOrSlice)
    (b : StringOrBool) (data : Bytes) :
    StringOrSlice.UnmarshalJSON (fuel + 1) s [34] = .panic "slice bounds out of range" ∧
      StringOrBool.UnmarshalJSON b [34] = .panic "slice bounds out of range" ∧
      goSlice [34] 1 ([34].length - 1) = none ∧
      (data ≠ [34] →
        (∀ msg, StringOrSlice.UnmarshalJSON (fuel + 1) s data ≠ .panic msg) ∧
          ∀ msg, StringOrBool.UnmarshalJSON b data ≠ .panic msg) :=
  ⟨rfl, rfl, rfl, fun hne =>
    ⟨StringOrSlice_UnmarshalJSON_no_panic (fuel + 1) s data hne,
      StringOrBool_UnmarshalJSON_no_panic b data hne⟩⟩

end GoComposer
